import Mathlib

/-!
Verification of the NMS-Inventory decode-and-normalize pipeline.

This file gives a shallow embedding, in Lean 4, of the core functions of the
repository (save-container decoding, JSON recovery, slot extraction,
aggregation and ledger computation), translated from the Python sources:

* scripts/python/nms_extract_inventory.py
* scripts/python/inventory_fingerprint.py
* scripts/python/runtime/inventory_fingerprint.py
* scripts/python/pipeline/nms_hg_decoder.py
* scripts/python/pipeline/ledger/ledger_core.py
* scripts/python/pipeline/ledger/inventory.py
* scripts/python/pipeline/nms_resource_ledger_v3.py

Python strings are modelled as `List Char`, byte buffers as `List Nat`
(every produced byte being < 256), Python ints as `Int`, JSON documents as
the inductive type `Json` below.  External libraries (LZ4, gzip, zlib,
UTF-16/32 codecs) are modelled as abstract function parameters collected in
a `Codecs` record; the Python standard-library `json` module and the UTF-8
codec are modelled concretely below.
-/

namespace NMSInv

/-- Shorthand turning a Lean string literal into our `List Char` model of a
Python string. -/
def cs (s : String) : List Char := s.toList

/-- Model of Python `s.startswith(pat)` on `List Char` / byte lists. -/
def beginsWith [DecidableEq α] : List α → List α → Bool
  | _, [] => true
  | [], _ :: _ => false
  | a :: as, b :: bs => if a = b then beginsWith as bs else false

/-- Model of Python `pat in s` (substring containment). -/
def hasSub [DecidableEq α] : List α → List α → Bool
  | [], pat => decide (pat = [])
  | s@(_ :: rest), pat => beginsWith s pat || hasSub rest pat

/-- Model of Python `l[-n:]` (last `n` elements, or all if fewer). -/
def takeLast (n : Nat) (l : List α) : List α := l.drop (l.length - n)

/-- Association-list lookup with decidable key equality; models Python
`d.get(k)` on a dict represented as an insertion-ordered key/value list. -/
def lookupKV [DecidableEq κ] : List (κ × β) → κ → Option β
  | [], _ => none
  | (k1, v) :: rest, k => if k1 = k then some v else lookupKV rest k

/-- Model of Python `d[k] = d.get(k, 0) + amt` on an insertion-ordered dict:
update the existing entry in place, else append a fresh entry at the end. -/
def dictAdd [DecidableEq κ] : List (κ × Int) → κ → Int → List (κ × Int)
  | [], k, amt => [(k, amt)]
  | (k1, v) :: rest, k, amt =>
    if k1 = k then (k1, v + amt) :: rest else (k1, v) :: dictAdd rest k amt

/-- Model of Python `d[k] = v` on an insertion-ordered dict: overwrite the
existing entry in place, else append a fresh entry at the end. -/
def dictSet [DecidableEq κ] : List (κ × β) → κ → β → List (κ × β)
  | [], k, v => [(k, v)]
  | (k1, v1) :: rest, k, v =>
    if k1 = k then (k1, v) :: rest else (k1, v1) :: dictSet rest k v

/-- Model of Python `min(candidates) if candidates else 0` on an int list. -/
def minOrZero : List Int → Int
  | [] => 0
  | x :: xs => xs.foldl min x

/-- Stable insertion of an element into a sorted list (kept before any later
element it compares `le` to). -/
def sortInsert (le : α → α → Bool) (x : α) : List α → List α
  | [] => [x]
  | y :: ys => if le x y then x :: y :: ys else y :: sortInsert le x ys

/-- Model of Python `sorted(l, key=...)`: a stable comparison sort.  CPython
uses Timsort; any stable sort computes the same function, and we prove the
characterizing properties (permutation and sortedness) below. -/
def pySorted (le : α → α → Bool) : List α → List α
  | [] => []
  | x :: xs => sortInsert le x (pySorted le xs)

/-- Decimal digit character for `d < 10`. -/
def digitCh (d : Nat) : Char := Char.ofNat (48 + d)

/-- Fuelled digit expansion of a natural number, most significant first. -/
def natCharsGo : Nat → Nat → List Char
  | 0, _ => []
  | fuel + 1, n =>
    if n < 10 then [digitCh n] else natCharsGo fuel (n / 10) ++ [digitCh (n % 10)]

/-- Model of Python `str(n)` for a natural number. -/
def natChars (n : Nat) : List Char := natCharsGo (n + 1) n

/-- Model of Python `str(i)` for an int. -/
def intChars (i : Int) : List Char :=
  if i < 0 then '-' :: natChars (-i).toNat else natChars i.toNat

/-! ## The JSON data model

Model of the parsed save state (`JsonValue` in the spec): Python dicts
become insertion-ordered `(key, value)` lists, numbers are modelled as
integers (the inventory pipeline only manipulates integral amounts). -/

inductive Json where
  | null : Json
  | bool : Bool → Json
  | num : Int → Json
  | str : List Char → Json
  | arr : List Json → Json
  | obj : List (List Char × Json) → Json

mutual

/-- Structural size of a JSON value (used as fuel/termination measure). -/
def jsonSize : Json → Nat
  | .null => 1
  | .bool _ => 1
  | .num _ => 1
  | .str _ => 1
  | .arr l => 1 + jsonSizeList l
  | .obj l => 1 + jsonSizeFields l

/-- Structural size of a JSON array body. -/
def jsonSizeList : List Json → Nat
  | [] => 0
  | v :: vs => 1 + jsonSize v + jsonSizeList vs

/-- Structural size of a JSON object body. -/
def jsonSizeFields : List (List Char × Json) → Nat
  | [] => 0
  | (_, v) :: vs => 1 + jsonSize v + jsonSizeFields vs

end

/-- Model of Python `d.get(k)` when `d` is a decoded JSON value: only dicts
have members. -/
def jGet (j : Json) (k : List Char) : Option Json :=
  match j with
  | .obj fields => lookupKV fields k
  | _ => none

/-- Model of Python `isinstance(x, int)` plus int coercion.  Python `bool`
is a subtype of `int`, so `True`/`False` count as `1`/`0`. -/
def asInt : Json → Option Int
  | .num n => some n
  | .bool b => some (if b then 1 else 0)
  | _ => none

/-! ## Slot extraction (scripts/python/nms_extract_inventory.py) -/

/-- Obfuscated key of the slot resource id. -/
def kId : List Char := cs "b2n"

/-- Obfuscated key of the slot amount. -/
def kAmount : List Char := cs "1o9"

/-- Obfuscated key of the slot stack capacity. -/
def kCap : List Char := cs "F9q"

/-- Obfuscated key of the type-tag wrapper dict. -/
def kTypeWrap : List Char := cs "Vn8"

/-- Obfuscated key of the type tag inside the wrapper. -/
def kTypeTag : List Char := cs "elv"

/-- GOOD_TYPES of nms_extract_inventory.py. -/
def GOOD_TYPES : List (List Char) := [cs "Substance", cs "Product"]

/-- SANE_CAPS: stack capacities considered plausible
(nms_extract_inventory.py and both inventory_fingerprint.py variants). -/
def SANE_CAPS : List Int := [50, 100, 101, 200, 250, 500, 801, 1000, 1001, 2000, 9999]

/-- Deny-list prefixes of `is_progress_token` (after the `^` sigil). -/
def badStems : List (List Char) :=
  [cs "SMUGGLE_", cs "FLYER", cs "BIGGS_", cs "POLICE_", cs "GET_"]

/-- Model of `is_progress_token(rid)` (nms_extract_inventory.py lines 10-19)
for a string argument: deny-listed progress/quest/season counters.  Python
`str.isdigit` is modelled by ASCII `Char.isDigit` (resource ids are ASCII). -/
def isProgressTokenStr (rid : List Char) : Bool :=
  if rid = [] then false
  else if ¬ beginsWith rid [Char.ofNat 0x5E] then false
  else
    let stem := rid.drop 1
    if badStems.any (fun p => beginsWith stem p) then true
    else
      match stem with
      | c0 :: c1 :: c2 :: c3 :: _ =>
        c0 = 'S' && c1.isDigit && c2.isDigit && c3 = '_'
      | _ => false

/-- Model of `is_progress_token` on an arbitrary slot member (`rid` may be
missing or a non-string, in which case the Python function returns False). -/
def isProgressTokenJ : Option Json → Bool
  | some (.str s) => isProgressTokenStr s
  | _ => false

/-- Model of `obj_is_slot(d)` (nms_extract_inventory.py lines 48-66): the
strict slot predicate. -/
def objIsSlot (d : Json) : Bool :=
  match d with
  | .obj fields =>
    match lookupKV fields kId with
    | some (.str idv) =>
      let elv : Option Json :=
        match lookupKV fields kTypeWrap with
        | some (.obj f2) => lookupKV f2 kTypeTag
        | _ => none
      match elv with
      | some (.str e) =>
        match (lookupKV fields kAmount).bind asInt, (lookupKV fields kCap).bind asInt with
        | some a, some cap =>
          if ¬ beginsWith idv [Char.ofNat 0x5E] then false
          else if ¬ GOOD_TYPES.contains e then false
          else if a < 0 then false
          else if ¬ SANE_CAPS.contains cap && a > cap && a ≥ 9999 then false
          else true
        | _, _ => false
      | _ => false
    | _ => false
  | _ => false

/-- Amount disambiguation core, shared by `_amount` (both
inventory_fingerprint.py variants, with `max(a, 0)` on the sane path) and
the inline extractor fallback. -/
def amountCore (a cap : Int) : Int :=
  if SANE_CAPS.contains cap ∧ a ≤ cap then max a 0
  else minOrZero (List.filter (fun x => decide (0 < x)) [a, cap])

/-- Model of `_amount(slot)` (inventory_fingerprint.py lines 16-25 and
runtime/inventory_fingerprint.py lines 81-89): returns 0 unless both the
amount and the capacity member are ints. -/
def amountOf (slot : Json) : Int :=
  match (jGet slot kAmount).bind asInt, (jGet slot kCap).bind asInt with
  | some a, some cap => amountCore a cap
  | _, _ => 0

/-- Inline amount disambiguation of the extractor main loop
(nms_extract_inventory.py lines 102-107): same as `amountCore` but without
the `max(a, 0)` clamp on the sane path. -/
def amountInline (a cap : Int) : Int :=
  if SANE_CAPS.contains cap ∧ a ≤ cap then a
  else minOrZero (List.filter (fun x => decide (0 < x)) [a, cap])

/-! ## Path segments and owner inference -/

/-- One step of a JSON tree path: an object key or an array index. -/
inductive PathSeg where
  | key : List Char → PathSeg
  | idx : Nat → PathSeg
deriving DecidableEq

/-- Model of Python `str(p)` on a path segment. -/
def segChars : PathSeg → List Char
  | .key s => s
  | .idx i => natChars i

/-- Whether a path contains a given string segment (membership of the
Python set built from the string segments of the path). -/
def hasKeySeg (path : List PathSeg) (s : List Char) : Bool :=
  path.any fun p =>
    match p with
    | .key t => decide (t = s)
    | .idx _ => false

/-- Dotted join of the last 256 segments of a path, the fallback scan text
of `_infer_owner`. -/
def tailJoined (path : List PathSeg) : List Char :=
  List.intercalate (cs ".") ((takeLast 256 path).map segChars)

/-- Owner resolution before the final rename, mirroring the if-chain of
`_infer_owner` (runtime/inventory_fingerprint.py lines 91-105 and the
identical copy in inventory_fingerprint.py lines 27-42); the Python local
`pstr` is inlined into each fallback condition. -/
def inferOwnerRaw (path : List PathSeg) : List Char :=
  if hasKeySeg path (cs ";l5") then cs "SUIT"
  else if hasKeySeg path (cs "P;m") then cs "SHIP"
  else if hasKeySeg path (cs "<IP") then cs "FREIGHTER"
  else if hasKeySeg path (cs "3Nc") then cs "STORAGE"
  else if hasKeySeg path (cs "8ZP") then cs "VEHICLE"
  else if hasSub (tailJoined path) (cs ".;l5.") then cs "SUIT"
  else if hasSub (tailJoined path) (cs ".P;m.") then cs "SHIP"
  else if hasSub (tailJoined path) (cs ".<IP.") then cs "FREIGHTER"
  else if hasSub (tailJoined path) (cs ".3Nc.") then cs "STORAGE"
  else if hasSub (tailJoined path) (cs ".8ZP.") then cs "VEHICLE"
  else cs "UNKNOWN"

/-- Model of `_infer_owner(path)` (runtime/inventory_fingerprint.py lines
91-108, identical in inventory_fingerprint.py lines 27-45), including the
final `FREIGHTER -> FRIGATE` normalization of both sources. -/
def inferOwner (path : List PathSeg) : List Char :=
  if inferOwnerRaw path = cs "FREIGHTER" then cs "FRIGATE" else inferOwnerRaw path

/-- Model of `path_has_bad_context` (nms_extract_inventory.py lines 38-43). -/
def pathHasBadContext (path : List PathSeg) : Bool :=
  path.any fun seg =>
    match seg with
    | .key s => s = cs "RQA" || s = cs "b69" || s = cs "JWK"
    | .idx _ => false

/-! ## The tree walk (nms_extract_inventory.py lines 25-36)

`walk(obj)` visits every dict of the tree with its path, via an explicit
stack (`deque`, pushed and popped on the right; we model the deque right
end as the list head, so children are pushed reversed to preserve the exact
pop order).  A fuel argument bounds the iteration count; one stack entry is
consumed per step and at most `jsonSize` entries ever exist, so the fuel
chosen in `walk` below never runs out. -/

def walkGo : Nat → List (List PathSeg × Json) → List (List PathSeg × Json)
  | 0, _ => []
  | _ + 1, [] => []
  | fuel + 1, (path, v) :: st =>
    match v with
    | .obj fields =>
      (path, .obj fields) ::
        walkGo fuel
          (((fields.map fun kv => (path ++ [PathSeg.key kv.1], kv.2)).reverse) ++ st)
    | .arr elems =>
      walkGo fuel
        ((((elems.enum.map fun iv => (path ++ [PathSeg.idx iv.1], iv.2))).reverse) ++ st)
    | _ => walkGo fuel st

/-- Model of `walk(obj)`, restricted to the `(path, val)` components used by
the callers (`parent` and `pkey` are never consulted by the aggregation). -/
def walk (obj : Json) : List (List PathSeg × Json) :=
  walkGo (jsonSize obj + 1) [([], obj)]

/-! ## Fingerprint aggregation (compute_rows, both fingerprint variants)

compute_rows walks the document and accumulates
`totals[(owner, rid)] = totals.get((owner, rid), 0) + amt` over every dict
passing the strict slot predicate (inventory_fingerprint.py lines 53-71,
runtime/inventory_fingerprint.py lines 141-154). -/

/-- The contribution of one walked `(path, val)` item to the fingerprint
totals: `none` when any of the filters of the compute_rows loop body skips
the item, else the `((owner, rid), amt)` update.  (When `obj_is_slot` holds
the `b2n` member is guaranteed to be a string.) -/
def rowContrib (pv : List PathSeg × Json) : Option ((List Char × List Char) × Int) :=
  match pv.2 with
  | .obj fields =>
    if ¬ objIsSlot (.obj fields) then none
    else if isProgressTokenJ (lookupKV fields kId) then none
    else
      match lookupKV fields kId with
      | some (.str rid) =>
        let amt := amountOf (.obj fields)
        if amt ≤ 0 then none
        else some ((inferOwner pv.1, rid), amt)
      | _ => none
  | _ => none

/-- One step of the compute_rows totals accumulation. -/
def totalsStep (t : List ((List Char × List Char) × Int))
    (pv : List PathSeg × Json) : List ((List Char × List Char) × Int) :=
  match rowContrib pv with
  | none => t
  | some (k, amt) => dictAdd t k amt

/-- The compute_rows totals dict over a list of walked items. -/
def computeTotals (items : List (List PathSeg × Json)) :
    List ((List Char × List Char) × Int) :=
  items.foldl totalsStep []

/-- Lexicographic `<=` on `List Char` by code points, the Python string
comparison used by `sorted`. -/
def lexLe : List Char → List Char → Bool
  | [], _ => true
  | _ :: _, [] => false
  | a :: as, b :: bs =>
    if a < b then true else if b < a then false else lexLe as bs

/-- Python tuple comparison on `(owner, rid)` pairs. -/
def pairLe (x y : List Char × List Char) : Bool :=
  if x.1 = y.1 then lexLe x.2 y.2 else lexLe x.1 y.1

/-- Rendering of one fingerprint row, Python `f"{o}|{rid}{totals[(o,rid)]}"`
with the `|` separators. -/
def fmtRow (t : List ((List Char × List Char) × Int)) (k : List Char × List Char) :
    List Char :=
  k.1 ++ '|' :: k.2 ++ '|' :: intChars ((lookupKV t k).getD 0)

/-- Model of the row list of `compute_rows`:
`[f"{o}|{rid}|{totals[(o, rid)]}" for (o, rid) in sorted(totals)]`. -/
def rowsOfTotals (t : List ((List Char × List Char) × Int)) : List (List Char) :=
  (pySorted pairLe (t.map Prod.fst)).map (fmtRow t)

/-- Model of `compute_rows(obj)` over a decoded document. -/
def computeRows (doc : Json) : List (List Char) :=
  rowsOfTotals (computeTotals (walk doc))

/-- Model of `fingerprint_rows(rows)`: the BLAKE2b call is an external
library function, modelled as an abstract `hash` parameter applied to the
semicolon-joined payload. -/
def fingerprintRows (hash : List Char → List Char) (rows : List (List Char)) :
    List Char :=
  hash (List.intercalate (cs ";") rows)

/-! ## Extractor totals (nms_extract_inventory.py main loop, lines 88-139) -/

/-- One step of the extractor totals accumulation (`totals[rid] += amt`),
with the filters of the main loop: bad path context, strict slot predicate,
progress-token deny list, non-positive amounts. -/
def extractStep (t : List (List Char × Int)) (pv : List PathSeg × Json) :
    List (List Char × Int) :=
  if pathHasBadContext pv.1 then t
  else
    match pv.2 with
    | .obj fields =>
      if ¬ objIsSlot (.obj fields) then t
      else
        match lookupKV fields kId with
        | some (.str rid) =>
          if isProgressTokenStr rid then t
          else
            match (lookupKV fields kAmount).bind asInt,
                (lookupKV fields kCap).bind asInt with
            | some a, some cap =>
              if amountInline a cap ≤ 0 then t else dictAdd t rid (amountInline a cap)
            | _, _ => t
        | _ => t
    | _ => t

/-- The extractor totals dict over the walk of a document. -/
def extractTotals (items : List (List PathSeg × Json)) : List (List Char × Int) :=
  items.foldl extractStep []

/-! ## Ledger core (pipeline/ledger/ledger_core.py) -/

/-- Model of Python `m.get(k, 0)`. -/
def getD [DecidableEq κ] (m : List (κ × Int)) (k : κ) : Int :=
  (lookupKV m k).getD 0

/-- Boolean list membership by decidable equality (Python `in`). -/
def memB [DecidableEq κ] (l : List κ) (k : κ) : Bool :=
  l.any fun x => decide (x = k)

/-- The key-set union enumeration used by our `diff_inventories` model. -/
def keysDiff [DecidableEq κ] (a b : List (κ × Int)) : List κ :=
  a.map Prod.fst ++ (b.map Prod.fst).filter (fun k => ¬ memB (a.map Prod.fst) k)

/-- Model of `diff_inventories(a, b)` (ledger_core.py lines 4-7):
`{k: b.get(k, 0) - a.get(k, 0) for k in set(a) | set(b)}`.  Python iterates
the key set in an unspecified order; we fix the enumeration `keys of a`
then `keys of b not in a`, which enumerates exactly the union (the claims
proved about the diff are insensitive to the enumeration order). -/
def diffInventories [DecidableEq κ] (a b : List (κ × Int)) : List (κ × Int) :=
  (keysDiff a b).map fun k => (k, getD b k - getD a k)

/-- One emitted ledger row of run_ledger (nms_resource_ledger_v3.py lines
645-652): resource key, acquired, spent, net.  Timestamps and the string
formatting of the CSV writer are external presentation. -/
def ledgerRowsOf [DecidableEq κ] (delta : List (κ × Int)) : List (κ × Int × Int × Int) :=
  delta.filterMap fun kd =>
    if max kd.2 0 = 0 ∧ max (-kd.2) 0 = 0 then none
    else some (kd.1, max kd.2 0, max (-kd.2) 0, kd.2)

/-- A timestamped row fed to `coalesce_sessions`; `ts` is in seconds, the
payload `data` carries the remaining dict members. -/
structure TsRow (α : Type) where
  ts : Int
  data : α
deriving DecidableEq

/-- Row comparison by timestamp for Python `sorted(rows, key=lambda x: x["ts"])`. -/
def tsLe (a b : TsRow α) : Bool := a.ts ≤ b.ts

/-- The session-building loop of `coalesce_sessions` (ledger_core.py lines
13-21) over rows already sorted by timestamp: `cur` is the open session
(`out[-1]`), `prev` the previously processed row. -/
def coalesceGo (maxGap : Int) (cur : List (TsRow α)) (prev : TsRow α) :
    List (TsRow α) → List (List (TsRow α))
  | [] => [cur]
  | r :: rest =>
    if r.ts - prev.ts ≤ maxGap then coalesceGo maxGap (cur ++ [r]) r rest
    else cur :: coalesceGo maxGap [r] r rest

/-- Model of `coalesce_sessions(rows, max_gap_sec)` (ledger_core.py lines
9-22): sort chronologically, then group adjacent rows whose gap is at most
the threshold. -/
def coalesceSessions (rows : List (TsRow α)) (maxGap : Int) : List (List (TsRow α)) :=
  match pySorted tsLe rows with
  | [] => []
  | r :: rest => coalesceGo maxGap [r] r rest

/-! ## Basic lemmas about the dict model -/

theorem sane_caps_pos {cap : Int} (h : SANE_CAPS.contains cap = true) : 0 < cap := by
  simp [SANE_CAPS, List.contains] at h
  rcases h with h | h | h | h | h | h | h | h | h | h | h <;> omega

theorem lookupKV_dictAdd_ne [DecidableEq κ] (t : List (κ × Int)) {k k1 : κ} (v : Int)
    (h : k1 ≠ k) : lookupKV (dictAdd t k1 v) k = lookupKV t k := by
  induction t with
  | nil => simp [dictAdd, lookupKV, h]
  | cons hd tl ih =>
    obtain ⟨k2, v2⟩ := hd
    by_cases h2 : k2 = k1
    · subst h2
      simp [dictAdd, lookupKV, h]
    · simp only [dictAdd, if_neg h2]
      by_cases h3 : k2 = k
      · simp [lookupKV, h3]
      · simp [lookupKV, h3, ih]

theorem getD_dictAdd [DecidableEq κ] (t : List (κ × Int)) (kq k1 : κ) (amt : Int) :
    getD (dictAdd t k1 amt) kq = getD t kq + (if k1 = kq then amt else 0) := by
  induction t with
  | nil =>
    by_cases h : k1 = kq <;> simp [dictAdd, getD, lookupKV, h]
  | cons hd tl ih =>
    obtain ⟨kh, vh⟩ := hd
    by_cases h2 : kh = k1
    · subst h2
      by_cases h3 : kh = kq <;> simp [dictAdd, getD, lookupKV, h3]
    · rw [show dictAdd ((kh, vh) :: tl) k1 amt = (kh, vh) :: dictAdd tl k1 amt from by
        simp [dictAdd, h2]]
      by_cases h3 : kh = kq
      · have h4 : ¬ k1 = kq := fun hc => h2 (h3.trans hc.symm)
        simp [getD, lookupKV, h3, h4]
      · simpa [getD, lookupKV, h3] using ih

/-- Value of one key after one compute_rows accumulation step. -/
theorem getD_totalsStep (t : List ((List Char × List Char) × Int))
    (pv : List PathSeg × Json) (k : List Char × List Char) :
    getD (totalsStep t pv) k =
      getD t k + (match rowContrib pv with
        | none => 0
        | some (k1, amt) => if k1 = k then amt else 0) := by
  cases h : rowContrib pv with
  | none => simp [totalsStep, h]
  | some ka =>
    obtain ⟨k1, amt⟩ := ka
    simp [totalsStep, h, getD_dictAdd]

theorem getD_totals_foldl (items : List (List PathSeg × Json))
    (acc : List ((List Char × List Char) × Int)) (k : List Char × List Char) :
    getD (items.foldl totalsStep acc) k = getD acc k + getD (computeTotals items) k := by
  induction items generalizing acc with
  | nil => simp [computeTotals, getD, lookupKV]
  | cons pv rest ih =>
    show getD (rest.foldl totalsStep (totalsStep acc pv)) k = _
    rw [ih (totalsStep acc pv)]
    have h2 : getD (computeTotals (pv :: rest)) k =
        getD (totalsStep ([] : List ((List Char × List Char) × Int)) pv) k +
          getD (computeTotals rest) k := by
      show getD (rest.foldl totalsStep (totalsStep [] pv)) k = _
      rw [ih (totalsStep [] pv)]
    rw [h2, getD_totalsStep, getD_totalsStep]
    have hz : getD ([] : List ((List Char × List Char) × Int)) k = 0 := rfl
    rw [hz]
    ring

/-! ## Claim C1 -/

/-- A concrete well-formed slot observation used in counterexamples: a suit
slot holding 5 units of `^CARBON` with a sane capacity of 250. -/
def itemCarbon : List PathSeg × Json :=
  ([PathSeg.key (cs ";l5")],
    Json.obj [(kId, .str (cs "^CARBON")),
      (kTypeWrap, .obj [(kTypeTag, .str (cs "Substance"))]),
      (kAmount, .num 5), (kCap, .num 250)])

/-- C1 counterexample: at the two cited aggregation sites, aggregating the
same slot observation twice doubles the per-(owner, resource) total from 5
to 10 instead of leaving it identical — both cited sources (the
`compute_rows` totals loop and `aggregate_inventory`) sum every
observation, so the claimed rerun-idempotence fails there. -/
theorem agg_rerun_counterexample :
    computeTotals ([itemCarbon] ++ [itemCarbon]) =
        [((cs "SUIT", cs "^CARBON"), 10)] ∧
      computeTotals [itemCarbon] = [((cs "SUIT", cs "^CARBON"), 5)] ∧
      computeTotals ([itemCarbon] ++ [itemCarbon]) ≠ computeTotals [itemCarbon] := by
  refine ⟨by decide, by decide, by decide⟩

/-- The full dedup key of the snapshot import:
`(owner, inv, container, slot_index, resource_id)`
(`db_import_initial.py`, `skey`). -/
abbrev SlotKey : Type := List Char × List Char × List Char × Int × List Char

/-- Model of one iteration of the `seen`-dict loop of `db_import_initial.py`
(lines 392-414): a record under a fresh full key is inserted (`itype` or
`"Product"`); a record colliding on the full key keeps the larger amount
("keep max amount if duplicates of exact same slot+rid arise"), refreshing
the item type only when the new one is non-empty (`itype or prev_type`). -/
def seenStep {κ : Type} [DecidableEq κ] (seen : List (κ × (Int × List Char))) :
    κ × Int × List Char → List (κ × (Int × List Char))
  | (k, amt, it) =>
    match lookupKV seen k with
    | none => dictSet seen k (amt, if it.isEmpty then cs "Product" else it)
    | some pv =>
      if pv.1 < amt then dictSet seen k (amt, if it.isEmpty then pv.2 else it)
      else seen

/-- Model of the whole per-snapshot dedup of `db_import_initial.py`: fold
the walked records into the insertion-ordered `seen` dict. -/
def seenDedup {κ : Type} [DecidableEq κ] (rs : List (κ × Int × List Char)) :
    List (κ × (Int × List Char)) :=
  rs.foldl seenStep []

theorem lookupKV_dictSet_self {κ β : Type} [DecidableEq κ] :
    ∀ (l : List (κ × β)) (k : κ) (v : β), lookupKV (dictSet l k v) k = some v := by
  intro l
  induction l with
  | nil =>
    intro k v
    rw [dictSet, lookupKV, if_pos rfl]
  | cons p rest ih =>
    intro k v
    obtain ⟨k1, v1⟩ := p
    rw [dictSet]
    by_cases h : k1 = k
    · rw [if_pos h, lookupKV, if_pos h]
    · rw [if_neg h, lookupKV, if_neg h, ih]

theorem lookupKV_dictSet_ne {κ β : Type} [DecidableEq κ] :
    ∀ (l : List (κ × β)) (k2 k : κ) (v : β), k2 ≠ k →
      lookupKV (dictSet l k v) k2 = lookupKV l k2 := by
  intro l
  induction l with
  | nil =>
    intro k2 k v h
    rw [dictSet, show lookupKV [(k, v)] k2 = (if k = k2 then some v else none) from rfl,
      if_neg (fun he => h he.symm)]
    rfl
  | cons p rest ih =>
    intro k2 k v h
    obtain ⟨k1, v1⟩ := p
    rw [dictSet]
    by_cases h1 : k1 = k
    · rw [if_pos h1]
      show (if k1 = k2 then some v else lookupKV rest k2)
        = (if k1 = k2 then some v1 else lookupKV rest k2)
      have h2 : ¬ k1 = k2 := fun he => h (he.symm.trans h1)
      rw [if_neg h2, if_neg h2]
    · rw [if_neg h1]
      show (if k1 = k2 then some v1 else lookupKV (dictSet rest k v) k2)
        = (if k1 = k2 then some v1 else lookupKV rest k2)
      by_cases h2 : k1 = k2
      · rw [if_pos h2, if_pos h2]
      · rw [if_neg h2, if_neg h2, ih k2 k v h]

theorem seenStep_lookup_ge {κ : Type} [DecidableEq κ]
    (seen : List (κ × (Int × List Char))) (r : κ × Int × List Char) (k : κ)
    (pv : Int × List Char) (h : lookupKV seen k = some pv) :
    ∃ pv2, lookupKV (seenStep seen r) k = some pv2 ∧ pv.1 ≤ pv2.1 := by
  obtain ⟨rk, ra, rt⟩ := r
  rcases hl : lookupKV seen rk with _ | pv0
  · have hne : k ≠ rk := fun he => by rw [he, hl] at h; cases h
    refine ⟨pv, ?_, le_refl _⟩
    rw [seenStep, hl]
    simp only []
    rw [lookupKV_dictSet_ne seen k rk _ hne, h]
  · rw [seenStep, hl]
    simp only []
    by_cases hlt : pv0.1 < ra
    · rw [if_pos hlt]
      by_cases hk : k = rk
      · subst hk
        rw [h] at hl
        injection hl with hpe
        exact ⟨(ra, if rt.isEmpty then pv0.2 else rt), lookupKV_dictSet_self seen k _,
          by rw [hpe]; exact le_of_lt hlt⟩
      · exact ⟨pv, by rw [lookupKV_dictSet_ne seen k rk _ hk, h], le_refl _⟩
    · rw [if_neg hlt]
      exact ⟨pv, h, le_refl _⟩

theorem seenStep_lookup_self {κ : Type} [DecidableEq κ]
    (seen : List (κ × (Int × List Char))) (r : κ × Int × List Char) :
    ∃ pv, lookupKV (seenStep seen r) r.1 = some pv ∧ r.2.1 ≤ pv.1 := by
  obtain ⟨rk, ra, rt⟩ := r
  show ∃ pv, lookupKV (seenStep seen (rk, ra, rt)) rk = some pv ∧ ra ≤ pv.1
  rcases hl : lookupKV seen rk with _ | pv0
  · refine ⟨(ra, if rt.isEmpty then cs "Product" else rt), ?_, le_refl _⟩
    rw [seenStep, hl]
    simp only []
    exact lookupKV_dictSet_self seen rk _
  · rw [seenStep, hl]
    simp only []
    by_cases hlt : pv0.1 < ra
    · rw [if_pos hlt]
      exact ⟨(ra, if rt.isEmpty then pv0.2 else rt),
        lookupKV_dictSet_self seen rk _, le_refl _⟩
    · rw [if_neg hlt]
      exact ⟨pv0, hl, le_of_not_lt hlt⟩

theorem foldl_seen_lookup_ge {κ : Type} [DecidableEq κ] :
    ∀ (rs : List (κ × Int × List Char)) (seen : List (κ × (Int × List Char))) (k : κ)
      (pv : Int × List Char), lookupKV seen k = some pv →
      ∃ pv2, lookupKV (rs.foldl seenStep seen) k = some pv2 ∧ pv.1 ≤ pv2.1 := by
  intro rs
  induction rs with
  | nil =>
    intro seen k pv h
    exact ⟨pv, h, le_refl _⟩
  | cons r rs ih =>
    intro seen k pv h
    obtain ⟨pv2, h2, hle⟩ := seenStep_lookup_ge seen r k pv h
    obtain ⟨pv3, h3, hle3⟩ := ih (seenStep seen r) k pv2 h2
    exact ⟨pv3, h3, le_trans hle hle3⟩

theorem foldl_seen_mem {κ : Type} [DecidableEq κ] :
    ∀ (rs : List (κ × Int × List Char)) (seen : List (κ × (Int × List Char)))
      (r : κ × Int × List Char), r ∈ rs →
      ∃ pv, lookupKV (rs.foldl seenStep seen) r.1 = some pv ∧ r.2.1 ≤ pv.1 := by
  intro rs
  induction rs with
  | nil =>
    intro seen r hr
    cases hr
  | cons r0 rs ih =>
    intro seen r hr
    rcases List.mem_cons.mp hr with h | h
    · subst h
      obtain ⟨pv, hpv, hle⟩ := seenStep_lookup_self seen r
      obtain ⟨pv2, h2, hle2⟩ := foldl_seen_lookup_ge rs (seenStep seen r) r.1 pv hpv
      exact ⟨pv2, by rw [List.foldl_cons]; exact h2, le_trans hle hle2⟩
    · rw [List.foldl_cons]
      exact ih (seenStep seen r0) r h

theorem seenStep_noop {κ : Type} [DecidableEq κ] (seen : List (κ × (Int × List Char)))
    (r : κ × Int × List Char) (pv : Int × List Char) (h : lookupKV seen r.1 = some pv)
    (hle : r.2.1 ≤ pv.1) : seenStep seen r = seen := by
  obtain ⟨rk, ra, rt⟩ := r
  have h2 : lookupKV seen rk = some pv := h
  have hle2 : ra ≤ pv.1 := hle
  rw [seenStep, h2]
  simp only []
  rw [if_neg (not_lt.mpr hle2)]

theorem foldl_seen_noop {κ : Type} [DecidableEq κ] :
    ∀ (rs2 : List (κ × Int × List Char)) (seen : List (κ × (Int × List Char))),
      (∀ r ∈ rs2, ∃ pv, lookupKV seen r.1 = some pv ∧ r.2.1 ≤ pv.1) →
      rs2.foldl seenStep seen = seen := by
  intro rs2
  induction rs2 with
  | nil =>
    intro seen _
    rfl
  | cons r rs ih =>
    intro seen h
    obtain ⟨pv, hpv, hle⟩ := h r (by simp)
    rw [List.foldl_cons, seenStep_noop seen r pv hpv hle]
    exact ih seen (fun r2 h2 => h r2 (by simp [h2]))

/-- Reprocessing the same records through the import dedup is idempotent. -/
theorem seenDedup_rerun {κ : Type} [DecidableEq κ] (rs : List (κ × Int × List Char)) :
    seenDedup (rs ++ rs) = seenDedup rs := by
  rw [seenDedup, seenDedup, List.foldl_append]
  exact foldl_seen_noop rs _ (fun r hr => foldl_seen_mem rs [] r hr)

/-- A full-key collision in the import dedup keeps the larger amount, never
the sum. -/
theorem seenDedup_pair_max {κ : Type} [DecidableEq κ] (k : κ) (a1 a2 : Int)
    (t1 t2 : List Char) :
    ∃ t, lookupKV (seenDedup [(k, a1, t1), (k, a2, t2)]) k = some (max a1 a2, t) := by
  have h0 : seenStep ([] : List (κ × (Int × List Char))) (k, a1, t1)
      = [(k, (a1, if t1.isEmpty then cs "Product" else t1))] := rfl
  rw [show seenDedup [(k, a1, t1), (k, a2, t2)]
      = seenStep (seenStep [] (k, a1, t1)) (k, a2, t2) from rfl, h0, seenStep,
    show lookupKV [(k, (a1, if t1.isEmpty then cs "Product" else t1))] k
      = some (a1, if t1.isEmpty then cs "Product" else t1) from by
        rw [lookupKV, if_pos rfl]]
  simp only []
  by_cases hlt : a1 < a2
  · rw [if_pos hlt]
    refine ⟨if t2.isEmpty then (if t1.isEmpty then cs "Product" else t1) else t2, ?_⟩
    rw [show dictSet [(k, (a1, if t1.isEmpty then cs "Product" else t1))] k
        (a2, if t2.isEmpty then (if t1.isEmpty then cs "Product" else t1) else t2)
      = [(k, (a2, if t2.isEmpty then (if t1.isEmpty then cs "Product" else t1) else t2))]
      from by rw [dictSet, if_pos rfl],
      lookupKV, if_pos rfl, max_eq_right (le_of_lt hlt)]
  · rw [if_neg hlt]
    refine ⟨if t1.isEmpty then cs "Product" else t1, ?_⟩
    rw [lookupKV, if_pos rfl, max_eq_left (le_of_not_lt hlt)]

/-- C1 (amended, scoped to the cited aggregators): the `compute_rows` totals
loop and `aggregate_inventory` do not deduplicate — they are additive over
concatenation of the slot observations, so aggregating a record multiset
together with itself yields exactly twice every per-(owner, resource) total
rather than identical totals.  The max-wins collision policy on the full
(owner, inv, container, slot-index, resource) key lives instead in the
snapshot import dedup of `db_import_initial.py`: reprocessing the same
records there is idempotent, and a full-key collision keeps the larger
observed amount, never the sum. -/
theorem agg_additive :
    (∀ (xs ys : List (List PathSeg × Json)) (k : List Char × List Char),
        getD (computeTotals (xs ++ ys)) k =
          getD (computeTotals xs) k + getD (computeTotals ys) k) ∧
      (∀ (xs : List (List PathSeg × Json)) (k : List Char × List Char),
        getD (computeTotals (xs ++ xs)) k = 2 * getD (computeTotals xs) k) ∧
      (∀ rs : List (SlotKey × Int × List Char), seenDedup (rs ++ rs) = seenDedup rs) ∧
      ∀ (k : SlotKey) (a1 a2 : Int) (t1 t2 : List Char),
        ∃ t, lookupKV (seenDedup [(k, a1, t1), (k, a2, t2)]) k = some (max a1 a2, t) := by
  have hadd : ∀ (xs ys : List (List PathSeg × Json)) (k : List Char × List Char),
      getD (computeTotals (xs ++ ys)) k =
        getD (computeTotals xs) k + getD (computeTotals ys) k := by
    intro xs ys k
    show getD ((xs ++ ys).foldl totalsStep []) k = _
    rw [List.foldl_append]
    rw [getD_totals_foldl]
    rfl
  exact ⟨hadd, fun xs k => by rw [hadd xs xs k]; ring,
    fun rs => seenDedup_rerun rs,
    fun k a1 a2 t1 t2 => seenDedup_pair_max k a1 a2 t1 t2⟩

/-! ## Claim C3 -/

/-- C3 counterexample: a path containing the freighter token `<IP` resolves
to owner `FRIGATE`, which is not in the claimed owner set — both cited
`_infer_owner` implementations rename `FREIGHTER` to `FRIGATE` before
returning. -/
theorem owner_enum_counterexample :
    inferOwner [PathSeg.key (cs "<IP")] = cs "FRIGATE" ∧
      cs "FRIGATE" ∉ [cs "SUIT", cs "SHIP", cs "FREIGHTER", cs "VEHICLE",
        cs "STORAGE", cs "UNKNOWN"] := by
  refine ⟨by decide, by decide⟩

theorem inferOwnerRaw_cases (p : List PathSeg) :
    inferOwnerRaw p = cs "SUIT" ∨ inferOwnerRaw p = cs "SHIP" ∨
      inferOwnerRaw p = cs "FREIGHTER" ∨ inferOwnerRaw p = cs "STORAGE" ∨
      inferOwnerRaw p = cs "VEHICLE" ∨ inferOwnerRaw p = cs "UNKNOWN" := by
  rw [inferOwnerRaw]
  by_cases h1 : hasKeySeg p (cs ";l5") = true
  · rw [if_pos h1]; exact Or.inl rfl
  rw [if_neg h1]
  by_cases h2 : hasKeySeg p (cs "P;m") = true
  · rw [if_pos h2]; exact Or.inr (Or.inl rfl)
  rw [if_neg h2]
  by_cases h3 : hasKeySeg p (cs "<IP") = true
  · rw [if_pos h3]; exact Or.inr (Or.inr (Or.inl rfl))
  rw [if_neg h3]
  by_cases h4 : hasKeySeg p (cs "3Nc") = true
  · rw [if_pos h4]; exact Or.inr (Or.inr (Or.inr (Or.inl rfl)))
  rw [if_neg h4]
  by_cases h5 : hasKeySeg p (cs "8ZP") = true
  · rw [if_pos h5]; exact Or.inr (Or.inr (Or.inr (Or.inr (Or.inl rfl))))
  rw [if_neg h5]
  by_cases h6 : hasSub (tailJoined p) (cs ".;l5.") = true
  · rw [if_pos h6]; exact Or.inl rfl
  rw [if_neg h6]
  by_cases h7 : hasSub (tailJoined p) (cs ".P;m.") = true
  · rw [if_pos h7]; exact Or.inr (Or.inl rfl)
  rw [if_neg h7]
  by_cases h8 : hasSub (tailJoined p) (cs ".<IP.") = true
  · rw [if_pos h8]; exact Or.inr (Or.inr (Or.inl rfl))
  rw [if_neg h8]
  by_cases h9 : hasSub (tailJoined p) (cs ".3Nc.") = true
  · rw [if_pos h9]; exact Or.inr (Or.inr (Or.inr (Or.inl rfl)))
  rw [if_neg h9]
  by_cases h10 : hasSub (tailJoined p) (cs ".8ZP.") = true
  · rw [if_pos h10]; exact Or.inr (Or.inr (Or.inr (Or.inr (Or.inl rfl))))
  rw [if_neg h10]
  exact Or.inr (Or.inr (Or.inr (Or.inr (Or.inr rfl))))

/-- C3 (amended): every owner produced by `_infer_owner` is drawn from
exactly the set SUIT-SHIP-FRIGATE-VEHICLE-STORAGE-UNKNOWN (the freighter
path token resolves to the label FRIGATE, not FREIGHTER): segment tokens
map deterministically, the joined-path substring scan is the fallback, and
unresolved paths yield UNKNOWN; each label is attained. -/
theorem owner_enum :
    (∀ p : List PathSeg, inferOwner p ∈ [cs "SUIT", cs "SHIP", cs "FRIGATE",
      cs "VEHICLE", cs "STORAGE", cs "UNKNOWN"]) ∧
      inferOwner [PathSeg.key (cs ";l5")] = cs "SUIT" ∧
      inferOwner [PathSeg.key (cs "P;m")] = cs "SHIP" ∧
      inferOwner [PathSeg.key (cs "<IP")] = cs "FRIGATE" ∧
      inferOwner [PathSeg.key (cs "8ZP")] = cs "VEHICLE" ∧
      inferOwner [PathSeg.key (cs "3Nc")] = cs "STORAGE" ∧
      inferOwner [] = cs "UNKNOWN" := by
  refine ⟨?_, by decide, by decide, by decide, by decide, by decide, by decide⟩
  intro p
  rw [inferOwner]
  rcases inferOwnerRaw_cases p with h | h | h | h | h | h <;> rw [h] <;> decide

/-! ## Claim C4 -/

/-- C4: when a slot passes the strict slot predicate with a recognized-sane
capacity that the explicit amount exceeds, `_amount` reports the smaller of
the two positive candidates, i.e. the capacity. -/
theorem capacity_clamp (slot : Json) (a cap : Int)
    (ha : jGet slot kAmount = some (Json.num a))
    (hc : jGet slot kCap = some (Json.num cap))
    (hs : objIsSlot slot = true)
    (hin : SANE_CAPS.contains cap = true)
    (hlt : cap < a) :
    amountOf slot = cap ∧ amountOf slot = min a cap := by
  have hcap : (0 : Int) < cap := sane_caps_pos hin
  have ha2 : (jGet slot kAmount).bind asInt = some a := by rw [ha]; rfl
  have hc2 : (jGet slot kCap).bind asInt = some cap := by rw [hc]; rfl
  have hmain : amountOf slot = amountCore a cap := by
    unfold amountOf
    cases slot <;> simp_all [jGet]
  have hcore : amountCore a cap = cap := by
    unfold amountCore
    rw [if_neg (by omega : ¬ (SANE_CAPS.contains cap = true ∧ a ≤ cap))]
    have h1 : decide (0 < a) = true := by simp; omega
    have h2 : decide (0 < cap) = true := by simp; omega
    simp [h1, h2, minOrZero]
    omega
  refine ⟨hmain.trans hcore, hmain.trans (hcore.trans ?_)⟩
  omega

/-- The 9999-in-a-250-cap slot of the spec scenario. -/
def slot9999 : Json :=
  Json.obj [(kId, .str (cs "^X")),
    (kTypeWrap, .obj [(kTypeTag, .str (cs "Product"))]),
    (kAmount, .num 9999), (kCap, .num 250)]

/-- C4 witness: the concrete spec scenario, amount 9999 with sane cap 250
passes the strict predicate and is reported as 250. -/
theorem capacity_clamp_witness : amountOf slot9999 = 250 :=
  (capacity_clamp slot9999 9999 250 rfl rfl (by decide) (by decide) (by decide)).1

/-! ## Claim C5 -/

theorem season_pattern_progress (d1 d2 : Char) (rest : List Char)
    (h1 : d1.isDigit = true) (h2 : d2.isDigit = true) :
    isProgressTokenStr ('^' :: 'S' :: d1 :: d2 :: '_' :: rest) = true := by
  have hd1 : d1 ≠ 'M' := by rintro rfl; simp at h1
  unfold isProgressTokenStr
  simp only [beginsWith, badStems, cs]
  simp [h1, h2, hd1]

theorem extractStep_cases (acc : List (List Char × Int)) (pv : List PathSeg × Json) :
    extractStep acc pv = acc ∨
      ∃ rid amt, isProgressTokenStr rid = false ∧
        extractStep acc pv = dictAdd acc rid amt := by
  unfold extractStep
  repeat' split
  all_goals try exact Or.inl rfl
  exact Or.inr ⟨_, _, by simp_all, rfl⟩

theorem lookupKV_extract_foldl_none (items : List (List PathSeg × Json))
    (acc : List (List Char × Int)) (rid : List Char)
    (hp : isProgressTokenStr rid = true)
    (hacc : lookupKV acc rid = none) :
    lookupKV (items.foldl extractStep acc) rid = none := by
  induction items generalizing acc with
  | nil => exact hacc
  | cons pv rest ih =>
    refine ih (extractStep acc pv) ?_
    rcases extractStep_cases acc pv with h | ⟨rid2, amt, hprog2, h⟩
    · rw [h]; exact hacc
    · rw [h]
      refine (lookupKV_dictAdd_ne acc amt ?_).trans hacc
      intro heq
      rw [heq, hp] at hprog2
      exact absurd hprog2 (by simp)

/-- C5: a slot whose resource id matches the season-counter pattern (sigil
`^`, `S`, two decimal digits, underscore) never contributes a totals entry
to the extraction output, whatever its amount or capacity members hold. -/
theorem deny_list_exclusion (items : List (List PathSeg × Json))
    (d1 d2 : Char) (rest : List Char)
    (h1 : d1.isDigit = true) (h2 : d2.isDigit = true) :
    lookupKV (extractTotals items) ('^' :: 'S' :: d1 :: d2 :: '_' :: rest) = none :=
  lookupKV_extract_foldl_none items [] _ (season_pattern_progress d1 d2 rest h1 h2) rfl

/-- A season-counter slot with otherwise perfectly valid amount and cap. -/
def itemSeason : List PathSeg × Json :=
  ([PathSeg.key (cs ";l5")],
    Json.obj [(kId, .str (cs "^S19_SOMETHING")),
      (kTypeWrap, .obj [(kTypeTag, .str (cs "Substance"))]),
      (kAmount, .num 42), (kCap, .num 250)])

/-- C5 witness: `^S19_SOMETHING` is absent from the extraction totals even
when presented as an otherwise valid slot. -/
theorem deny_list_exclusion_witness :
    lookupKV (extractTotals [itemSeason, itemCarbon]) (cs "^S19_SOMETHING") = none :=
  deny_list_exclusion [itemSeason, itemCarbon] '1' '9' (cs "SOMETHING")
    (by decide) (by decide)

/-! ## Claim C7 -/

theorem memB_iff [DecidableEq κ] (l : List κ) (k : κ) : memB l k = true ↔ k ∈ l := by
  induction l with
  | nil => simp [memB]
  | cons x xs ih => simp [memB, List.any_cons] at ih ⊢; tauto

theorem mem_keysDiff [DecidableEq κ] (a b : List (κ × Int)) (k : κ) :
    k ∈ keysDiff a b ↔ k ∈ a.map Prod.fst ∨ k ∈ b.map Prod.fst := by
  by_cases ha : k ∈ a.map Prod.fst
  · simp [keysDiff, ha]
  · simp only [keysDiff, List.mem_append, List.mem_filter]
    constructor
    · rintro (h | ⟨h, _⟩)
      · exact Or.inl h
      · exact Or.inr h
    · rintro (h | h)
      · exact absurd h ha
      · refine Or.inr ⟨h, ?_⟩
        simp [memB_iff, ha]

theorem lookupKV_keyMap_mem [DecidableEq κ] (keys : List κ) (f : κ → Int) (k : κ)
    (h : k ∈ keys) :
    lookupKV (keys.map fun x => (x, f x)) k = some (f k) := by
  induction keys with
  | nil => cases h
  | cons x xs ih =>
    rcases List.mem_cons.mp h with h1 | h1
    · subst h1; simp [lookupKV]
    · by_cases h2 : x = k
      · subst h2; simp [lookupKV]
      · simp [lookupKV, h2, ih h1]

theorem lookupKV_keyMap_not_mem [DecidableEq κ] (keys : List κ) (f : κ → Int) (k : κ)
    (h : k ∉ keys) :
    lookupKV (keys.map fun x => (x, f x)) k = none := by
  induction keys with
  | nil => rfl
  | cons x xs ih =>
    have hx : x ≠ k := fun hc => h (hc ▸ List.mem_cons_self x xs)
    have hxs : k ∉ xs := fun hc => h (List.mem_cons_of_mem x hc)
    simp [lookupKV, hx, ih hxs]

/-- C7: the snapshot diff maps every key of the union of the two keyspaces
to `b.get(k, 0) - a.get(k, 0)` and nothing else, and the ledger row stream
derived from the diff omits exactly the zero-delta keys: every emitted row
carries a nonzero net equal to the diff value (with acquired/spent its
positive/negative part), and every union key with a nonzero delta is
emitted. -/
theorem diff_union_and_zero_omitted {κ : Type} [DecidableEq κ] (a b : List (κ × Int)) :
    (∀ k, k ∈ a.map Prod.fst ∨ k ∈ b.map Prod.fst →
        lookupKV (diffInventories a b) k = some (getD b k - getD a k)) ∧
      (∀ k, ¬ (k ∈ a.map Prod.fst ∨ k ∈ b.map Prod.fst) →
        lookupKV (diffInventories a b) k = none) ∧
      (∀ k acq spent net, (k, acq, spent, net) ∈ ledgerRowsOf (diffInventories a b) →
        net ≠ 0 ∧ net = getD b k - getD a k ∧ acq = max net 0 ∧ spent = max (-net) 0) ∧
      (∀ k, k ∈ a.map Prod.fst ∨ k ∈ b.map Prod.fst → getD b k ≠ getD a k →
        (k, max (getD b k - getD a k) 0, max (-(getD b k - getD a k)) 0,
          getD b k - getD a k) ∈ ledgerRowsOf (diffInventories a b)) := by
  refine ⟨?_, ?_, ?_, ?_⟩
  · intro k hk
    exact lookupKV_keyMap_mem _ _ _ ((mem_keysDiff a b k).mpr hk)
  · intro k hk
    exact lookupKV_keyMap_not_mem _ _ _ (fun hc => hk ((mem_keysDiff a b k).mp hc))
  · intro k acq spent net hrow
    rw [ledgerRowsOf] at hrow
    rcases List.mem_filterMap.mp hrow with ⟨⟨k2, d⟩, hmem, hval⟩
    rcases List.mem_map.mp hmem with ⟨k3, hk3mem, hpair⟩
    have hk3 : k3 = k2 := congrArg Prod.fst hpair
    have hd : d = getD b k2 - getD a k2 := by
      have h2 := congrArg Prod.snd hpair
      simp only at h2
      rw [← h2, hk3]
    dsimp only at hval
    by_cases hz : max d 0 = 0 ∧ max (-d) 0 = 0
    · rw [if_pos hz] at hval
      cases hval
    · rw [if_neg hz] at hval
      simp only [Option.some.injEq, Prod.mk.injEq] at hval
      obtain ⟨hk, hacq, hspent, hnet⟩ := hval
      subst hk
      subst hnet
      exact ⟨by omega, hd, hacq.symm, hspent.symm⟩
  · intro k hk hne
    refine List.mem_filterMap.mpr ⟨(k, getD b k - getD a k), ?_, ?_⟩
    · exact List.mem_map.mpr ⟨k, (mem_keysDiff a b k).mpr hk, rfl⟩
    · have hnz : ¬ (max (getD b k - getD a k) 0 = 0 ∧
          max (-(getD b k - getD a k)) 0 = 0) := by omega
      dsimp only
      rw [if_neg hnz]

/-- C7 witness: a concrete two-snapshot diff, key 2 present only on the
right side. -/
theorem diff_union_witness :
    lookupKV (diffInventories [((1 : Nat), (5 : Int))] [(2, 3)]) 2 =
      some (getD [((2 : Nat), (3 : Int))] 2 - getD [((1 : Nat), (5 : Int))] 2) :=
  (diff_union_and_zero_omitted [((1 : Nat), (5 : Int))] [(2, 3)]).1 2 (Or.inr (by decide))

/-! ## Claim C10: session coalescing lemmas -/

theorem sortInsert_perm (le : α → α → Bool) (x : α) (l : List α) :
    List.Perm (sortInsert le x l) (x :: l) := by
  induction l with
  | nil => rfl
  | cons y ys ih =>
    by_cases h : le x y = true
    · simp [sortInsert, h]
    · simp only [sortInsert, h]
      rw [if_neg (by simp [h])]
      exact (ih.cons y).trans (List.Perm.swap x y ys)

theorem pySorted_perm (le : α → α → Bool) (l : List α) : List.Perm (pySorted le l) l := by
  induction l with
  | nil => rfl
  | cons x xs ih => exact (sortInsert_perm le x (pySorted le xs)).trans (ih.cons x)

theorem sortInsert_pairwise (le : α → α → Bool)
    (htr : ∀ a b c, le a b = true → le b c = true → le a c = true)
    (hto : ∀ a b, le a b = false → le b a = true)
    (x : α) (l : List α) (hl : l.Pairwise (fun a b => le a b = true)) :
    (sortInsert le x l).Pairwise (fun a b => le a b = true) := by
  induction l with
  | nil => simp [sortInsert]
  | cons y ys ih =>
    rcases List.pairwise_cons.mp hl with ⟨hy, hys⟩
    by_cases h : le x y = true
    · simp only [sortInsert, h, if_true]
      refine List.pairwise_cons.mpr ⟨?_, hl⟩
      intro z hz
      rcases List.mem_cons.mp hz with h1 | h1
      · subst h1; exact h
      · exact htr x y z h (hy z h1)
    · simp only [sortInsert, h]
      rw [if_neg (by simp [h])]
      refine List.pairwise_cons.mpr ⟨?_, ih hys⟩
      intro z hz
      rcases List.mem_cons.mp ((sortInsert_perm le x ys).mem_iff.mp hz) with h1 | h1
      · rw [h1]; exact hto x y (by simpa using h)
      · exact hy z h1

theorem pySorted_pairwise (le : α → α → Bool)
    (htr : ∀ a b c, le a b = true → le b c = true → le a c = true)
    (hto : ∀ a b, le a b = false → le b a = true)
    (l : List α) : (pySorted le l).Pairwise (fun a b => le a b = true) := by
  induction l with
  | nil => simp [pySorted]
  | cons x xs ih => exact sortInsert_pairwise le htr hto x _ ih

theorem coalesceGo_join (g : Int) (l : List (TsRow α)) :
    ∀ (cur : List (TsRow α)) (prev : TsRow α),
      (coalesceGo g cur prev l).flatten = cur ++ l := by
  induction l with
  | nil => intro cur prev; simp [coalesceGo]
  | cons r rest ih =>
    intro cur prev
    by_cases h : r.ts - prev.ts ≤ g
    · simp only [coalesceGo, if_pos h]
      rw [ih (cur ++ [r]) r]
      simp
    · simp only [coalesceGo, if_neg h]
      rw [List.flatten_cons, ih [r] r]
      simp

theorem coalesceGo_ne (g : Int) (l : List (TsRow α)) :
    ∀ (cur : List (TsRow α)) (prev : TsRow α), cur ≠ [] →
      ∀ s ∈ coalesceGo g cur prev l, s ≠ [] := by
  induction l with
  | nil =>
    intro cur prev hcur s hs
    simp [coalesceGo] at hs
    exact hs ▸ hcur
  | cons r rest ih =>
    intro cur prev hcur s hs
    by_cases h : r.ts - prev.ts ≤ g
    · rw [coalesceGo, if_pos h] at hs
      exact ih (cur ++ [r]) r (by simp) s hs
    · rw [coalesceGo, if_neg h] at hs
      rcases List.mem_cons.mp hs with h1 | h1
      · exact h1 ▸ hcur
      · exact ih [r] r (by simp) s h1

theorem coalesceGo_chain (g : Int) (l : List (TsRow α)) :
    ∀ (cur : List (TsRow α)) (prev : TsRow α),
      cur.getLast? = some prev →
      List.Chain' (fun a b => b.ts - a.ts ≤ g) cur →
      ∀ s ∈ coalesceGo g cur prev l, List.Chain' (fun a b => b.ts - a.ts ≤ g) s := by
  induction l with
  | nil =>
    intro cur prev hlast hchain s hs
    simp [coalesceGo] at hs
    exact hs ▸ hchain
  | cons r rest ih =>
    intro cur prev hlast hchain s hs
    by_cases h : r.ts - prev.ts ≤ g
    · rw [coalesceGo, if_pos h] at hs
      refine ih (cur ++ [r]) r (by simp) ?_ s hs
      refine List.chain'_append.mpr ⟨hchain, List.chain'_singleton r, ?_⟩
      intro x hx y hy
      rw [hlast] at hx
      injection hx with hx
      subst hx
      simp at hy
      subst hy
      exact h
    · rw [coalesceGo, if_neg h] at hs
      rcases List.mem_cons.mp hs with h1 | h1
      · exact h1 ▸ hchain
      · exact ih [r] r rfl (List.chain'_singleton r) s h1

theorem coalesceGo_first_ext (g : Int) (l : List (TsRow α)) :
    ∀ (cur : List (TsRow α)) (prev : TsRow α),
      ∃ ext rest2, coalesceGo g cur prev l = (cur ++ ext) :: rest2 := by
  induction l with
  | nil => intro cur prev; exact ⟨[], [], by simp [coalesceGo]⟩
  | cons r rest ih =>
    intro cur prev
    by_cases h : r.ts - prev.ts ≤ g
    · rw [coalesceGo, if_pos h]
      obtain ⟨ext, rest2, heq⟩ := ih (cur ++ [r]) r
      exact ⟨r :: ext, rest2, by simpa using heq⟩
    · rw [coalesceGo, if_neg h]
      exact ⟨[], coalesceGo g [r] r rest, by simp⟩

theorem coalesceGo_inter (g : Int) (l : List (TsRow α)) :
    ∀ (cur : List (TsRow α)) (prev : TsRow α),
      cur.getLast? = some prev →
      List.Chain'
        (fun s t => ∀ x y, s.getLast? = some x → t.head? = some y → g < y.ts - x.ts)
        (coalesceGo g cur prev l) := by
  induction l with
  | nil => intro cur prev _; simp [coalesceGo]
  | cons r rest ih =>
    intro cur prev hlast
    by_cases h : r.ts - prev.ts ≤ g
    · rw [coalesceGo, if_pos h]
      exact ih (cur ++ [r]) r (by simp)
    · rw [coalesceGo, if_neg h]
      refine List.chain'_cons'.mpr ⟨?_, ih [r] r rfl⟩
      intro t ht x y hx hy
      obtain ⟨ext, rest2, heq⟩ := coalesceGo_first_ext g rest [r] r
      rw [heq] at ht
      simp at ht
      subst ht
      rw [hlast] at hx
      injection hx with hx
      subst hx
      simp at hy
      subst hy
      omega

/-- C10: session coalescing partitions the time-sorted input: the sessions
concatenate back to exactly the input sorted ascending by timestamp (which
is a permutation of the input, so no row is lost or duplicated), every
session is non-empty, adjacent rows inside one session are at most the
threshold apart, and consecutive sessions are separated by a gap exceeding
the threshold. -/
theorem coalesce_partition {α : Type} (rows : List (TsRow α)) (maxGap : Int)
    (_hg : 0 ≤ maxGap) :
    (coalesceSessions rows maxGap).flatten = pySorted tsLe rows ∧
      List.Perm (pySorted tsLe rows) rows ∧
      (pySorted tsLe rows).Pairwise (fun a b => a.ts ≤ b.ts) ∧
      (∀ s ∈ coalesceSessions rows maxGap, s ≠ []) ∧
      (∀ s ∈ coalesceSessions rows maxGap,
        List.Chain' (fun a b => b.ts - a.ts ≤ maxGap) s) ∧
      List.Chain'
        (fun s t => ∀ x y, s.getLast? = some x → t.head? = some y →
          maxGap < y.ts - x.ts)
        (coalesceSessions rows maxGap) := by
  have hperm : List.Perm (pySorted tsLe rows) rows := pySorted_perm tsLe rows
  have hpair : (pySorted tsLe rows).Pairwise (fun a b => a.ts ≤ b.ts) := by
    have h := pySorted_pairwise tsLe
      (fun a b c h1 h2 => by simp [tsLe] at h1 h2 ⊢; omega)
      (fun a b h1 => by simp [tsLe] at h1 ⊢; omega) rows
    refine h.imp ?_
    intro a b hab
    simpa [tsLe] using hab
  unfold coalesceSessions
  cases hs : pySorted tsLe rows with
  | nil => simp [hs ▸ hperm, hs ▸ hpair]
  | cons r rest =>
    refine ⟨?_, hs ▸ hperm, hs ▸ hpair, ?_, ?_, ?_⟩
    · rw [coalesceGo_join]; rfl
    · exact coalesceGo_ne maxGap rest [r] r (by simp)
    · exact coalesceGo_chain maxGap rest [r] r rfl (List.chain'_singleton r)
    · exact coalesceGo_inter maxGap rest [r] r rfl

/-- A concrete row list for the C10 witness. -/
def rowsW : List (TsRow Nat) := [⟨10, 0⟩, ⟨0, 1⟩, ⟨25, 2⟩]

/-- C10 witness: the partition property applied at a concrete row list and
threshold 10. -/
theorem coalesce_partition_witness :
    (coalesceSessions rowsW 10).flatten = pySorted tsLe rowsW :=
  (coalesce_partition rowsW 10 (by decide)).1

/-! ## Claim C9: fingerprint stability lemmas -/

theorem lexLe_total (a b : List Char) : lexLe a b = true ∨ lexLe b a = true := by
  induction a generalizing b with
  | nil => exact Or.inl rfl
  | cons x xs ih =>
    cases b with
    | nil => exact Or.inr rfl
    | cons y ys =>
      rcases lt_trichotomy x y with h | h | h
      · exact Or.inl (by rw [lexLe, if_pos h])
      · subst h
        rcases ih ys with h2 | h2
        · refine Or.inl ?_
          rw [lexLe, if_neg (lt_irrefl x), if_neg (lt_irrefl x)]
          exact h2
        · refine Or.inr ?_
          rw [lexLe, if_neg (lt_irrefl x), if_neg (lt_irrefl x)]
          exact h2
      · exact Or.inr (by rw [lexLe, if_pos h])

theorem lexLe_trans {a b c : List Char} (h1 : lexLe a b = true) (h2 : lexLe b c = true) :
    lexLe a c = true := by
  induction a generalizing b c with
  | nil => rfl
  | cons x xs ih =>
    cases b with
    | nil => simp [lexLe] at h1
    | cons y ys =>
      cases c with
      | nil => simp [lexLe] at h2
      | cons z zs =>
        rw [lexLe] at h1 h2 ⊢
        rcases lt_trichotomy x y with hxy | hxy | hxy
        · rcases lt_trichotomy y z with hyz | hyz | hyz
          · rw [if_pos (lt_trans hxy hyz)]
          · subst hyz; rw [if_pos hxy]
          · rw [if_neg (lt_asymm hyz), if_pos hyz] at h2; cases h2
        · subst hxy
          rcases lt_trichotomy x z with hxz | hxz | hxz
          · rw [if_pos hxz]
          · subst hxz
            rw [if_neg (lt_irrefl x), if_neg (lt_irrefl x)] at h1 h2 ⊢
            exact ih h1 h2
          · rw [if_neg (lt_asymm hxz), if_pos hxz] at h2; cases h2
        · rw [if_neg (lt_asymm hxy), if_pos hxy] at h1; cases h1

theorem lexLe_antisymm {a b : List Char} (h1 : lexLe a b = true) (h2 : lexLe b a = true) :
    a = b := by
  induction a generalizing b with
  | nil =>
    cases b with
    | nil => rfl
    | cons y ys => simp [lexLe] at h2
  | cons x xs ih =>
    cases b with
    | nil => simp [lexLe] at h1
    | cons y ys =>
      rw [lexLe] at h1 h2
      rcases lt_trichotomy x y with hxy | hxy | hxy
      · rw [if_neg (lt_asymm hxy), if_pos hxy] at h2; cases h2
      · subst hxy
        rw [if_neg (lt_irrefl x), if_neg (lt_irrefl x)] at h1 h2
        rw [ih h1 h2]
      · rw [if_neg (lt_asymm hxy), if_pos hxy] at h1; cases h1

theorem pairLe_total (a b : List Char × List Char) :
    pairLe a b = true ∨ pairLe b a = true := by
  by_cases h : a.1 = b.1
  · rw [pairLe, if_pos h, pairLe, if_pos h.symm]
    exact lexLe_total a.2 b.2
  · rw [pairLe, if_neg h, pairLe, if_neg (fun hc => h hc.symm)]
    exact lexLe_total a.1 b.1

theorem pairLe_trans {a b c : List Char × List Char} (h1 : pairLe a b = true)
    (h2 : pairLe b c = true) : pairLe a c = true := by
  by_cases hab : a.1 = b.1 <;> by_cases hbc : b.1 = c.1
  · rw [pairLe, if_pos hab] at h1
    rw [pairLe, if_pos hbc] at h2
    rw [pairLe, if_pos (hab.trans hbc)]
    exact lexLe_trans h1 h2
  · rw [pairLe, if_neg hbc] at h2
    rw [pairLe, if_neg (hab ▸ hbc), hab]
    exact h2
  · rw [pairLe, if_neg hab] at h1
    rw [pairLe, if_neg (fun hc => hab (hc.trans hbc.symm)), ← hbc]
    exact h1
  · rw [pairLe, if_neg hab] at h1
    rw [pairLe, if_neg hbc] at h2
    by_cases hac : a.1 = c.1
    · exfalso
      exact hab (lexLe_antisymm h1 (hac ▸ h2))
    · rw [pairLe, if_neg hac]
      exact lexLe_trans h1 h2

theorem pairLe_antisymm {a b : List Char × List Char} (h1 : pairLe a b = true)
    (h2 : pairLe b a = true) : a = b := by
  by_cases hab : a.1 = b.1
  · rw [pairLe, if_pos hab] at h1
    rw [pairLe, if_pos hab.symm] at h2
    exact Prod.ext hab (lexLe_antisymm h1 h2)
  · rw [pairLe, if_neg hab] at h1
    rw [pairLe, if_neg (fun hc => hab hc.symm)] at h2
    exact absurd (lexLe_antisymm h1 h2) hab

theorem lookupKV_isSome_iff [DecidableEq κ] (t : List (κ × β)) (k : κ) :
    (lookupKV t k).isSome = true ↔ k ∈ t.map Prod.fst := by
  induction t with
  | nil => simp [lookupKV]
  | cons hd tl ih =>
    obtain ⟨k1, v⟩ := hd
    by_cases h : k1 = k
    · subst h; simp [lookupKV]
    · simp only [lookupKV, if_neg h, List.map_cons, List.mem_cons]
      rw [ih]
      constructor
      · exact Or.inr
      · rintro (h1 | h1)
        · exact absurd h1.symm h
        · exact h1

theorem dictAdd_keys_mem [DecidableEq κ] (t : List (κ × Int)) (k k1 : κ) (amt : Int) :
    k1 ∈ (dictAdd t k amt).map Prod.fst ↔ k1 ∈ t.map Prod.fst ∨ k1 = k := by
  induction t with
  | nil => simp [dictAdd]
  | cons hd tl ih =>
    obtain ⟨k2, v⟩ := hd
    by_cases h : k2 = k
    · subst h; simp [dictAdd]; tauto
    · simp only [dictAdd, if_neg h, List.map_cons, List.mem_cons, ih]
      tauto

theorem dictAdd_keys_nodup [DecidableEq κ] (t : List (κ × Int)) (k : κ) (amt : Int)
    (h : (t.map Prod.fst).Nodup) : ((dictAdd t k amt).map Prod.fst).Nodup := by
  induction t with
  | nil => simp [dictAdd]
  | cons hd tl ih =>
    obtain ⟨k2, v⟩ := hd
    simp only [List.map_cons, List.nodup_cons] at h
    by_cases h2 : k2 = k
    · subst h2
      have hred : dictAdd ((k2, v) :: tl) k2 amt = (k2, v + amt) :: tl := by
        simp [dictAdd]
      rw [hred, List.map_cons, List.nodup_cons]
      exact h
    · simp only [dictAdd, if_neg h2, List.map_cons, List.nodup_cons]
      refine ⟨?_, ih h.2⟩
      rw [dictAdd_keys_mem]
      rintro (hc | hc)
      · exact h.1 hc
      · exact h2 hc

theorem computeTotals_foldl_nodup (items : List (List PathSeg × Json))
    (acc : List ((List Char × List Char) × Int))
    (h : (acc.map Prod.fst).Nodup) :
    ((items.foldl totalsStep acc).map Prod.fst).Nodup := by
  induction items generalizing acc with
  | nil => exact h
  | cons pv rest ih =>
    refine ih (totalsStep acc pv) ?_
    rw [totalsStep]
    cases hc : rowContrib pv with
    | none => exact h
    | some ka => exact dictAdd_keys_nodup acc ka.1 ka.2 h

theorem computeTotals_nodup (items : List (List PathSeg × Json)) :
    ((computeTotals items).map Prod.fst).Nodup :=
  computeTotals_foldl_nodup items [] List.nodup_nil

/-- C9: the inventory fingerprint is a function of the aggregated totals
alone — two decoded documents whose walks aggregate to equal totals maps
produce equal fingerprint strings for every choice of hash function,
because the rows are sorted before being joined and hashed. -/
theorem fingerprint_stability (hash : List Char → List Char) (d1 d2 : Json)
    (h : ∀ k, lookupKV (computeTotals (walk d1)) k =
      lookupKV (computeTotals (walk d2)) k) :
    fingerprintRows hash (computeRows d1) = fingerprintRows hash (computeRows d2) := by
  suffices hrows : computeRows d1 = computeRows d2 by
    rw [fingerprintRows, fingerprintRows, hrows]
  rw [computeRows, computeRows, rowsOfTotals, rowsOfTotals]
  have hmem : ∀ k, k ∈ (computeTotals (walk d1)).map Prod.fst ↔
      k ∈ (computeTotals (walk d2)).map Prod.fst := by
    intro k
    rw [← lookupKV_isSome_iff, ← lookupKV_isSome_iff, h k]
  have hperm : List.Perm ((computeTotals (walk d1)).map Prod.fst)
      ((computeTotals (walk d2)).map Prod.fst) :=
    (List.perm_ext_iff_of_nodup (computeTotals_nodup _) (computeTotals_nodup _)).mpr hmem
  have hkeys : pySorted pairLe ((computeTotals (walk d1)).map Prod.fst) =
      pySorted pairLe ((computeTotals (walk d2)).map Prod.fst) := by
    refine @List.eq_of_perm_of_sorted _ (fun a b => pairLe a b = true)
      ⟨fun a b => pairLe_antisymm⟩ _ _ ?_ ?_ ?_
    · exact ((pySorted_perm pairLe _).trans hperm).trans (pySorted_perm pairLe _).symm
    · exact pySorted_pairwise pairLe (fun a b c => pairLe_trans)
        (fun a b hab => (pairLe_total a b).resolve_left (by simp [hab])) _
    · exact pySorted_pairwise pairLe (fun a b c => pairLe_trans)
        (fun a b hab => (pairLe_total a b).resolve_left (by simp [hab])) _
  rw [hkeys]
  refine List.map_congr_left ?_
  intro k _
  rw [fmtRow, fmtRow, h k]

/-- First concrete document for the C9 witness. -/
def docW1 : Json := Json.obj [(cs "x", (itemCarbon).2)]

/-- Second concrete document for the C9 witness: same slot, plus an extra
non-slot member that leaves the totals untouched. -/
def docW2 : Json := Json.obj [(cs "x", (itemCarbon).2), (cs "other", .num 3)]

/-- C9 witness: two structurally different documents with equal totals maps
fingerprint identically (hash instantiated with the identity function). -/
theorem fingerprint_stability_witness :
    fingerprintRows id (computeRows docW1) = fingerprintRows id (computeRows docW2) :=
  fingerprint_stability id docW1 docW2 (fun _ => rfl)

/-! ## Container decoding (pipeline/nms_hg_decoder.py)

Byte buffers are `List Nat` with every produced byte below 256.  The UTF-8
and Latin-1 codecs and the `json` standard library are modelled concretely;
UTF-16/32, gzip, zlib and LZ4 are external libraries modelled as abstract
function parameters bundled in `Codecs`. -/

/-- Model of Python `b.rstrip(b"\x00")`. -/
def rstripNul (b : List Nat) : List Nat :=
  (b.reverse.dropWhile (fun x => x = 0)).reverse

/-- Little-endian 4-byte encoding of a 32-bit quantity (`struct.pack("<I")`). -/
def le4 (n : Nat) : List Nat :=
  [n % 256, (n / 256) % 256, (n / 65536) % 256, (n / 16777216) % 256]

/-- Little-endian 4-byte read at offset `i` (`struct.unpack_from("<I", b, i)`);
only consulted after the `idx + 16 <= len(b)` bounds check. -/
def readLE4 (b : List Nat) (i : Nat) : Nat :=
  match b.drop i with
  | b0 :: b1 :: b2 :: b3 :: _ => b0 + 256 * b1 + 65536 * b2 + 16777216 * b3
  | _ => 0

/-- The little-endian bytes of MAGIC_BLOCK = 0xFEEDA1E5. -/
def magicBytes : List Nat := [229, 161, 237, 254]

/-- The LZ4-frame magic prefix bytes. -/
def lz4fMagic : List Nat := [4, 34, 77, 24]

/-- Model of Python `b.find(pat, i)` over the suffix, tracking the absolute
index (searched pattern is always non-empty here). -/
def findSubAux [DecidableEq α] : List α → List α → Nat → Option Nat
  | [], _, _ => none
  | s@(_ :: rest), pat, i =>
    if beginsWith s pat then some i else findSubAux rest pat (i + 1)

/-- Model of Python `b.find(pat, start)` returning an absolute index. -/
def findSub (l pat : List Nat) (start : Nat) : Option Nat :=
  findSubAux (l.drop start) pat start

/-! ### UTF-8 codec model -/

/-- UTF-8 encoding of one scalar value (model of the Python codec). -/
def utf8Encode (c : Char) : List Nat :=
  if c.toNat < 128 then [c.toNat]
  else if c.toNat < 2048 then [192 + c.toNat / 64, 128 + c.toNat % 64]
  else if c.toNat < 65536 then
    [224 + c.toNat / 4096, 128 + (c.toNat / 64) % 64, 128 + c.toNat % 64]
  else
    [240 + c.toNat / 262144, 128 + (c.toNat / 4096) % 64,
      128 + (c.toNat / 64) % 64, 128 + c.toNat % 64]

/-- UTF-8 encoding of a string. -/
def utf8Bytes (s : List Char) : List Nat := (s.map utf8Encode).flatten

/-- UTF-8 continuation-byte test. -/
def isCont (b : Nat) : Bool := 128 ≤ b && b < 192

/-- Continuation of a 2-byte sequence after lead byte `b`; `dec` decodes the
remaining buffer. -/
def utf8Dec2 (dec : List Nat → Option (List Char)) (b : Nat) :
    List Nat → Option (List Char)
  | b1 :: r =>
    if isCont b1 then
      if (b - 192) * 64 + (b1 - 128) < 128 then none
      else (dec r).map (fun tl => Char.ofNat ((b - 192) * 64 + (b1 - 128)) :: tl)
    else none
  | [] => none

/-- Continuation of a 3-byte sequence after lead byte `b`. -/
def utf8Dec3 (dec : List Nat → Option (List Char)) (b : Nat) :
    List Nat → Option (List Char)
  | b1 :: b2 :: r =>
    if isCont b1 && isCont b2 then
      if (b - 224) * 4096 + (b1 - 128) * 64 + (b2 - 128) < 2048 ∨
          (55296 ≤ (b - 224) * 4096 + (b1 - 128) * 64 + (b2 - 128) ∧
            (b - 224) * 4096 + (b1 - 128) * 64 + (b2 - 128) < 57344) then none
      else (dec r).map
        (fun tl => Char.ofNat ((b - 224) * 4096 + (b1 - 128) * 64 + (b2 - 128)) :: tl)
    else none
  | _ => none

/-- Continuation of a 4-byte sequence after lead byte `b`. -/
def utf8Dec4 (dec : List Nat → Option (List Char)) (b : Nat) :
    List Nat → Option (List Char)
  | b1 :: b2 :: b3 :: r =>
    if isCont b1 && isCont b2 && isCont b3 then
      if (b - 240) * 262144 + (b1 - 128) * 4096 + (b2 - 128) * 64 + (b3 - 128) < 65536 ∨
          1114112 ≤ (b - 240) * 262144 + (b1 - 128) * 4096 + (b2 - 128) * 64 + (b3 - 128)
      then none
      else (dec r).map
        (fun tl => Char.ofNat
          ((b - 240) * 262144 + (b1 - 128) * 4096 + (b2 - 128) * 64 + (b3 - 128)) :: tl)
    else none
  | _ => none

/-- The fuelled decode loop: each step consumes one lead byte (plus its
continuation bytes) and one fuel unit, so `length + 1` fuel always
suffices. -/
def utf8DecodeGo : Nat → List Nat → Option (List Char)
  | 0, _ => none
  | _ + 1, [] => some []
  | fuel + 1, b :: rest =>
    if b < 128 then (utf8DecodeGo fuel rest).map (fun tl => Char.ofNat b :: tl)
    else if b < 192 then none
    else if b < 224 then utf8Dec2 (utf8DecodeGo fuel) b rest
    else if b < 240 then utf8Dec3 (utf8DecodeGo fuel) b rest
    else if b < 245 then utf8Dec4 (utf8DecodeGo fuel) b rest
    else none

/-- Strict UTF-8 decoding (model of Python `bytes.decode("utf-8")`): rejects
stray continuation bytes, truncated sequences, overlong encodings,
surrogates and out-of-range values. -/
def utf8Decode (b : List Nat) : Option (List Char) := utf8DecodeGo (b.length + 1) b

/-- Model of Python `bytes.decode("latin-1")`: total on byte values. -/
def latin1Decode (b : List Nat) : Option (List Char) :=
  if b.all (fun x => x < 256) then some (b.map Char.ofNat) else none

/-! ### json.dumps model (compact separators, ensure_ascii disabled) -/

/-- Lowercase hex digit character. -/
def hexDigitCh (d : Nat) : Char :=
  if d < 10 then Char.ofNat (48 + d) else Char.ofNat (87 + d)

/-- Escaping of one character inside a JSON string, mirroring the CPython
encoder table: quote, backslash, the five short control escapes, `\u00XX`
for the remaining control characters, everything else verbatim. -/
def escapeChar (c : Char) : List Char :=
  if c = Char.ofNat 34 then [Char.ofNat 92, Char.ofNat 34]
  else if c = Char.ofNat 92 then [Char.ofNat 92, Char.ofNat 92]
  else if c = Char.ofNat 8 then [Char.ofNat 92, 'b']
  else if c = Char.ofNat 9 then [Char.ofNat 92, 't']
  else if c = Char.ofNat 10 then [Char.ofNat 92, 'n']
  else if c = Char.ofNat 12 then [Char.ofNat 92, 'f']
  else if c = Char.ofNat 13 then [Char.ofNat 92, 'r']
  else if c.toNat < 32 then
    [Char.ofNat 92, 'u', '0', '0', hexDigitCh (c.toNat / 16), hexDigitCh (c.toNat % 16)]
  else [c]

/-- Escaping of a whole JSON string body. -/
def escapeStr (s : List Char) : List Char := (s.map escapeChar).flatten

mutual

/-- Model of `json.dumps(v, ensure_ascii=False, separators=(",", ":"))`,
the normalization used by `decode_json_text`; numbers are integers in this
model. -/
def dumpsV : Json → List Char
  | .null => cs "null"
  | .bool true => cs "true"
  | .bool false => cs "false"
  | .num i => intChars i
  | .str s => Char.ofNat 34 :: escapeStr s ++ [Char.ofNat 34]
  | .arr l => Char.ofNat 91 :: dumpsArr l ++ [Char.ofNat 93]
  | .obj l => Char.ofNat 123 :: dumpsObj l ++ [Char.ofNat 125]

/-- Array body rendering. -/
def dumpsArr : List Json → List Char
  | [] => []
  | v :: vs => dumpsV v ++ dumpsArrTail vs

/-- Comma-separated continuation of an array body. -/
def dumpsArrTail : List Json → List Char
  | [] => []
  | v :: vs => ',' :: dumpsV v ++ dumpsArrTail vs

/-- Object body rendering. -/
def dumpsObj : List (List Char × Json) → List Char
  | [] => []
  | (k, v) :: kvs =>
    Char.ofNat 34 :: escapeStr k ++ Char.ofNat 34 :: ':' :: dumpsV v ++ dumpsObjTail kvs

/-- Comma-separated continuation of an object body. -/
def dumpsObjTail : List (List Char × Json) → List Char
  | [] => []
  | (k, v) :: kvs =>
    ',' :: Char.ofNat 34 :: escapeStr k ++ Char.ofNat 34 :: ':' :: dumpsV v ++
      dumpsObjTail kvs

end

/-! ### json.loads model -/

/-- JSON whitespace. -/
def isWs (c : Char) : Bool :=
  c = ' ' || c = Char.ofNat 9 || c = Char.ofNat 10 || c = Char.ofNat 13

/-- Skip leading JSON whitespace. -/
def pSkipWs (s : List Char) : List Char := s.dropWhile isWs

/-- Value of one hex digit. -/
def hexVal : Char → Option Nat := fun c =>
  if '0' ≤ c ∧ c ≤ '9' then some (c.toNat - 48)
  else if 'a' ≤ c ∧ c ≤ 'f' then some (c.toNat - 87)
  else if 'A' ≤ c ∧ c ≤ 'F' then some (c.toNat - 55)
  else none

/-- String-body scanning after the opening quote: returns the decoded
content and the remainder after the closing quote.  Strict mode: raw
control characters are rejected.  `\uXXXX` escapes decode single scalar
values; surrogate code units are rejected (Python would pair or keep them
as lone surrogates, which `Char` cannot represent — the encoder model never
emits them). -/
def parseStringBody : List Char → Option (List Char × List Char)
  | [] => none
  | c :: rest =>
    if c = Char.ofNat 34 then some ([], rest)
    else if c = Char.ofNat 92 then
      match rest with
      | [] => none
      | e :: r2 =>
        if e = Char.ofNat 34 then
          (parseStringBody r2).map (fun pr => (Char.ofNat 34 :: pr.1, pr.2))
        else if e = Char.ofNat 92 then
          (parseStringBody r2).map (fun pr => (Char.ofNat 92 :: pr.1, pr.2))
        else if e = '/' then
          (parseStringBody r2).map (fun pr => ('/' :: pr.1, pr.2))
        else if e = 'b' then
          (parseStringBody r2).map (fun pr => (Char.ofNat 8 :: pr.1, pr.2))
        else if e = 'f' then
          (parseStringBody r2).map (fun pr => (Char.ofNat 12 :: pr.1, pr.2))
        else if e = 'n' then
          (parseStringBody r2).map (fun pr => (Char.ofNat 10 :: pr.1, pr.2))
        else if e = 'r' then
          (parseStringBody r2).map (fun pr => (Char.ofNat 13 :: pr.1, pr.2))
        else if e = 't' then
          (parseStringBody r2).map (fun pr => (Char.ofNat 9 :: pr.1, pr.2))
        else if e = 'u' then
          match r2 with
          | c1 :: c2 :: c3 :: c4 :: r3 =>
            match hexVal c1, hexVal c2, hexVal c3, hexVal c4 with
            | some h1, some h2, some h3, some h4 =>
              if 55296 ≤ 4096 * h1 + 256 * h2 + 16 * h3 + h4 ∧
                  4096 * h1 + 256 * h2 + 16 * h3 + h4 < 57344 then none
              else (parseStringBody r3).map
                (fun pr => (Char.ofNat (4096 * h1 + 256 * h2 + 16 * h3 + h4) :: pr.1, pr.2))
            | _, _, _, _ => none
          | _ => none
        else none
    else if c.toNat < 32 then none
    else (parseStringBody rest).map (fun pr => (c :: pr.1, pr.2))

/-- Digit-run accumulation. -/
def digitsToNat (ds : List Char) : Nat :=
  ds.foldl (fun a c => a * 10 + (c.toNat - 48)) 0

/-- Natural-number literal: maximal digit run, leading zeros rejected as in
the JSON grammar; a following `.`/`e`/`E` would start a float, which this
integer-only model does not support and rejects. -/
def parseNatLit (s : List Char) : Option (Nat × List Char) :=
  if s.takeWhile Char.isDigit = [] then none
  else if 1 < (s.takeWhile Char.isDigit).length ∧
      (s.takeWhile Char.isDigit).head? = some '0' then none
  else
    match s.dropWhile Char.isDigit with
    | c :: r2 =>
      if c = '.' ∨ c = 'e' ∨ c = 'E' then none
      else some (digitsToNat (s.takeWhile Char.isDigit), c :: r2)
    | [] => some (digitsToNat (s.takeWhile Char.isDigit), [])

/-- Integer literal with optional leading minus. -/
def parseIntLit (s : List Char) : Option (Int × List Char) :=
  match s with
  | '-' :: rest => (parseNatLit rest).map (fun pr => (-(pr.1 : Int), pr.2))
  | _ => (parseNatLit s).map (fun pr => ((pr.1 : Int), pr.2))

mutual

/-- Recursive-descent JSON value reader (model of the CPython `json.loads`
scanner); `fuel` bounds the recursion depth and element count and is chosen
large enough by `jsonLoads` below.  Expects its input to start at a
non-whitespace character. -/
def parseValue : Nat → List Char → Option (Json × List Char)
  | 0, _ => none
  | fuel + 1, s =>
    match s with
    | [] => none
    | c :: rest =>
      if c = Char.ofNat 123 then
        match pSkipWs rest with
        | c2 :: r2 =>
          if c2 = Char.ofNat 125 then some (.obj [], r2)
          else parseMembers fuel [] (c2 :: r2)
        | [] => none
      else if c = Char.ofNat 91 then
        match pSkipWs rest with
        | c2 :: r2 =>
          if c2 = Char.ofNat 93 then some (.arr [], r2)
          else parseElems fuel [] (c2 :: r2)
        | [] => none
      else if c = Char.ofNat 34 then
        (parseStringBody rest).map (fun pr => (.str pr.1, pr.2))
      else if c = 't' then
        if beginsWith rest (cs "rue") then some (.bool true, rest.drop 3) else none
      else if c = 'f' then
        if beginsWith rest (cs "alse") then some (.bool false, rest.drop 4) else none
      else if c = 'n' then
        if beginsWith rest (cs "ull") then some (.null, rest.drop 3) else none
      else if c = '-' ∨ c.isDigit then
        (parseIntLit (c :: rest)).map (fun pr => (.num pr.1, pr.2))
      else none

/-- Non-empty array bodies: one value, then comma-continue or close. -/
def parseElems : Nat → List Json → List Char → Option (Json × List Char)
  | 0, _, _ => none
  | fuel + 1, acc, s =>
    match parseValue fuel s with
    | none => none
    | some (v, r) =>
      match pSkipWs r with
      | c :: r2 =>
        if c = ',' then parseElems fuel (acc ++ [v]) (pSkipWs r2)
        else if c = Char.ofNat 93 then some (.arr (acc ++ [v]), r2)
        else none
      | [] => none

/-- Non-empty object bodies: a string key, colon, value, then
comma-continue or close; repeated keys overwrite as in a Python dict. -/
def parseMembers : Nat → List (List Char × Json) → List Char →
    Option (Json × List Char)
  | 0, _, _ => none
  | fuel + 1, acc, s =>
    match s with
    | c :: rest =>
      if c = Char.ofNat 34 then
        match parseStringBody rest with
        | some (k, r) =>
          match pSkipWs r with
          | c2 :: r2 =>
            if c2 = ':' then
              match parseValue fuel (pSkipWs r2) with
              | some (v, r3) =>
                match pSkipWs r3 with
                | c3 :: r4 =>
                  if c3 = ',' then parseMembers fuel (dictSet acc k v) (pSkipWs r4)
                  else if c3 = Char.ofNat 125 then some (.obj (dictSet acc k v), r4)
                  else none
                | [] => none
              | none => none
            else none
          | [] => none
        | none => none
      else none
    | [] => none

end

/-- Model of `json.loads(text)`: parse one value and require only
whitespace to remain.  The fuel `length + 1` dominates the recursion depth
and element counts of any parse of the given text. -/
def jsonLoads (text : List Char) : Option Json :=
  match parseValue (text.length + 1) (pSkipWs text) with
  | some (v, rest) => if pSkipWs rest = [] then some v else none
  | none => none

/-- Model of `decode_json_text(text)` (nms_hg_decoder.py lines 19-22):
parse, then re-serialize compactly as UTF-8 bytes. -/
def decodeJsonText (chars : List Char) : Option (List Nat) :=
  (jsonLoads chars).map (fun o => utf8Bytes (dumpsV o))

/-- The external codecs of the decoder: UTF-16/32 text decoding, gzip, zlib
and the LZ4 frame/block decompressors, all modelled abstractly (a failure
in Python becomes `none`). -/
structure Codecs where
  u32le : List Nat → Option (List Char)
  u32be : List Nat → Option (List Char)
  u16le : List Nat → Option (List Char)
  u16be : List Nat → Option (List Char)
  gzip : List Nat → Option (List Nat)
  lz4frame : List Nat → Option (List Nat)
  zlib : List Nat → Option (List Nat)
  lz4block : List Nat → Nat → Option (List Nat)

/-- Model of `try_decode_variants(b)` (nms_hg_decoder.py lines 24-70): the
BOM-aware encoding ladder, UTF-8, UTF-16/32 heuristics, then Latin-1. -/
def tryDecodeVariants (C : Codecs) (b : List Nat) : Option (List Nat) :=
  (if beginsWith b [239, 187, 191] then (utf8Decode b).bind decodeJsonText else none) <|>
  (if beginsWith b [255, 254, 0, 0] then (C.u32le b).bind decodeJsonText else none) <|>
  (if beginsWith b [0, 0, 254, 255] then (C.u32be b).bind decodeJsonText else none) <|>
  (if beginsWith b [255, 254] then (C.u16le b).bind decodeJsonText else none) <|>
  (if beginsWith b [254, 255] then (C.u16be b).bind decodeJsonText else none) <|>
  ((utf8Decode b).bind decodeJsonText) <|>
  (if b.take 2 = [123, 0] ∨ b.take 2 = [91, 0] then (C.u16le b).bind decodeJsonText
    else none) <|>
  (if b.take 2 = [0, 123] ∨ b.take 2 = [0, 91] then (C.u16be b).bind decodeJsonText
    else none) <|>
  (if b.take 4 = [123, 0, 0, 0] ∨ b.take 4 = [91, 0, 0, 0] then
    (C.u32le b).bind decodeJsonText else none) <|>
  (if b.take 4 = [0, 0, 0, 123] ∨ b.take 4 = [0, 0, 0, 91] then
    (C.u32be b).bind decodeJsonText else none) <|>
  ((latin1Decode b).bind decodeJsonText)

/-! ### JSON slicing (slice_top_level_json, lines 72-101) -/

/-- The depth/string/escape scan of `slice_top_level_json`: absolute
position `j`, returns the end position (one past the matching close) when
the depth returns to zero at a closing bracket outside a string. -/
def scanDepth : List Nat → Int → Bool → Bool → Nat → Option Nat
  | [], _, _, _, _ => none
  | ch :: rest, depth, inStr, esc, j =>
    if inStr then
      if esc then scanDepth rest depth true false (j + 1)
      else if ch = 92 then scanDepth rest depth true true (j + 1)
      else if ch = 34 then scanDepth rest depth false false (j + 1)
      else scanDepth rest depth true false (j + 1)
    else
      if ch = 34 then scanDepth rest depth true false (j + 1)
      else if ch = 123 ∨ ch = 91 then scanDepth rest (depth + 1) false false (j + 1)
      else if ch = 125 ∨ ch = 93 then
        if depth - 1 = 0 then some (j + 1)
        else scanDepth rest (depth - 1) false false (j + 1)
      else scanDepth rest depth false false (j + 1)

/-- The outer retry loop of `slice_top_level_json`: at each opening bracket
start a scan; on scan failure resume one byte after that opening bracket. -/
def sliceLoop : List Nat → Nat → Option (Nat × Nat)
  | [], _ => none
  | ch :: rest, off =>
    if ch = 123 ∨ ch = 91 then
      match scanDepth (ch :: rest) 0 false false off with
      | some e => some (off, e)
      | none => sliceLoop rest (off + 1)
    else sliceLoop rest (off + 1)

/-- Model of `slice_top_level_json(buf)`: the `(start, end)` span of the
first complete top-level JSON object/array. -/
def sliceTopLevelJson (buf : List Nat) : Option (Nat × Nat) := sliceLoop buf 0

/-- Model of `max(buf.rfind(b"}"), buf.rfind(b"]"))`: index of the last
closing brace/bracket byte, if any. -/
def rfindCloseIdx (buf : List Nat) : Option Nat :=
  (buf.enum.filterMap fun p => if p.2 = 125 ∨ p.2 = 93 then some p.1 else none).getLast?

/-- The heuristic tail of `bytes_to_json_bytes`: cut at the last closing
brace/bracket and retry the encoding ladder. -/
def lastBraceTry (C : Codecs) (buf : List Nat) : Option (List Nat) :=
  match rfindCloseIdx buf with
  | some lb => tryDecodeVariants C (buf.take (lb + 1))
  | none => none

/-- Model of `bytes_to_json_bytes(b)` (nms_hg_decoder.py lines 103-134):
strip NUL padding, try the whole buffer, then the exact slice, then the
last-close heuristic. -/
def bytesToJsonBytes (C : Codecs) (b : List Nat) : Option (List Nat) :=
  match tryDecodeVariants C (rstripNul b) with
  | some out => some out
  | none =>
    match sliceTopLevelJson (rstripNul b) with
    | some se =>
      match tryDecodeVariants C (((rstripNul b).drop se.1).take (se.2 - se.1)) with
      | some out => some out
      | none => lastBraceTry C (rstripNul b)
    | none => lastBraceTry C (rstripNul b)

/-! ### HG block scan (decode_hg_blocks_scan_all, lines 138-186) -/

/-- The scan-and-stitch loop: find the next magic, parse the 16-byte
header, decompress, skip false positives.  One fuel unit per iteration; the
position strictly increases each iteration, so `length + 2` fuel (used by
`decodeHgBlocksScanAll`) never runs out.  The Python re-check of the
unpacked magic is omitted as `findSub` just matched those four bytes. -/
def hgScanLoop (lz4 : List Nat → Nat → Option (List Nat)) (b : List Nat) :
    Nat → Nat → List (List Nat)
  | 0, _ => []
  | fuel + 1, pos =>
    match findSub b magicBytes pos with
    | none => []
    | some idx =>
      if b.length < idx + 16 then []
      else if readLE4 b (idx + 4) = 0 then hgScanLoop lz4 b fuel (idx + 4)
      else if b.length < idx + 16 + readLE4 b (idx + 4) then hgScanLoop lz4 b fuel (idx + 4)
      else
        match lz4 ((b.drop (idx + 16)).take (readLE4 b (idx + 4))) (readLE4 b (idx + 8)) with
        | none => hgScanLoop lz4 b fuel (idx + 1)
        | some dec => dec :: hgScanLoop lz4 b fuel (idx + 16 + readLE4 b (idx + 4))

/-- Model of `decode_hg_blocks_scan_all(b)`: the stitched decompressed
stream, or `none` when no block was recovered. -/
def decodeHgBlocksScanAll (lz4 : List Nat → Nat → Option (List Nat)) (b : List Nat) :
    Option (List Nat) :=
  match hgScanLoop lz4 b (b.length + 2) 0 with
  | [] => none
  | c :: rest => some ((c :: rest).flatten)

/-! ### Orchestrator (decode_to_json_bytes, lines 214-257) -/

/-- Model of `decode_to_json_bytes(raw)`: plain JSON ladder, HG block scan
(whose recovery failure falls through, being inside the same try), gzip,
LZ4 frame, zlib (each of which, once its unwrapping applies, commits to its
recovery result), and the last-chance NUL-stripped plain retry. -/
def decodeToJsonBytes (C : Codecs) (raw : List Nat) : Option (List Nat) :=
  match tryDecodeVariants C raw with
  | some out => some out
  | none =>
    match (decodeHgBlocksScanAll C.lz4block raw).bind (bytesToJsonBytes C) with
    | some out => some out
    | none =>
      match C.gzip raw with
      | some gz => bytesToJsonBytes C gz
      | none =>
        match (if beginsWith raw lz4fMagic then C.lz4frame raw else none) with
        | some lzf => bytesToJsonBytes C lzf
        | none =>
          match C.zlib raw with
          | some zl => bytesToJsonBytes C zl
          | none => tryDecodeVariants C (rstripNul raw)

/-- Outcome of one decode stage: not applicable (fall through to the next
wrapping) or a final result (success, or a committed recovery failure). -/
inductive StageOut where
  | na : StageOut
  | final : Option (List Nat) → StageOut

/-- Run wrappings in order: the first applicable stage decides the result;
if none applies the decode fails. -/
def runStages : List (List Nat → StageOut) → List Nat → Option (List Nat)
  | [], _ => none
  | s :: rest, raw =>
    match s raw with
    | .final r => r
    | .na => runStages rest raw

/-- Stage 0: plain JSON under the multi-encoding ladder. -/
def stagePlain (C : Codecs) (raw : List Nat) : StageOut :=
  match tryDecodeVariants C raw with
  | some o => .final (some o)
  | none => .na

/-- Stage 1: HG block scan plus recovery (recovery failure falls through,
as the Python try block catches it). -/
def stageHgBlocks (C : Codecs) (raw : List Nat) : StageOut :=
  match (decodeHgBlocksScanAll C.lz4block raw).bind (bytesToJsonBytes C) with
  | some o => .final (some o)
  | none => .na

/-- Stage 2: gzip; once the unwrapping applies, its recovery result is
final. -/
def stageGzip (C : Codecs) (raw : List Nat) : StageOut :=
  match C.gzip raw with
  | some gz => .final (bytesToJsonBytes C gz)
  | none => .na

/-- Stage 3: LZ4 frame (detected by its magic prefix). -/
def stageLz4Frame (C : Codecs) (raw : List Nat) : StageOut :=
  match (if beginsWith raw lz4fMagic then C.lz4frame raw else none) with
  | some x => .final (bytesToJsonBytes C x)
  | none => .na

/-- Stage 4: raw zlib. -/
def stageZlib (C : Codecs) (raw : List Nat) : StageOut :=
  match C.zlib raw with
  | some z => .final (bytesToJsonBytes C z)
  | none => .na

/-- Stage 5: last-chance plain decode of the NUL-stripped buffer. -/
def stageLastChance (C : Codecs) (raw : List Nat) : StageOut :=
  match tryDecodeVariants C (rstripNul raw) with
  | some o => .final (some o)
  | none => .na

/-- One block-compressed frame: magic, compressed size, decompressed size,
zero padding, compressed payload. -/
def mkFrame (compress : List Nat → List Nat) (c : List Nat) : List Nat :=
  magicBytes ++ le4 (compress c).length ++ le4 c.length ++ le4 0 ++ compress c

/-- A buffer of consecutive frames. -/
def framesBytes (compress : List Nat → List Nat) (chunks : List (List Nat)) : List Nat :=
  (chunks.map (mkFrame compress)).flatten

/-- JSON recovery of decoded bytes into a value: UTF-8 decode then parse. -/
def jsonLoadsBytes (bs : List Nat) : Option Json := (utf8Decode bs).bind jsonLoads

/-! ## Claim C8 -/

/-- C8 (amended): the container decode is exactly the ordered trial of six
wrappings — the plain-JSON encoding ladder, the HG block scan (whose
recovery failure falls through), gzip, LZ4 frame, raw zlib (these three
committing to their recovery result once the unwrapping applies), and a
final plain retry on the NUL-stripped buffer; the first applicable stage
decides the outcome, and when no stage applies the decode fails with no
output. -/
theorem decode_trial_order (C : Codecs) (raw : List Nat) :
    decodeToJsonBytes C raw =
      runStages [stagePlain C, stageHgBlocks C, stageGzip C, stageLz4Frame C,
        stageZlib C, stageLastChance C] raw := by
  rw [decodeToJsonBytes]
  cases h0 : tryDecodeVariants C raw with
  | some o => simp [runStages, stagePlain, h0]
  | none =>
    simp only [runStages, stagePlain, h0]
    cases h1 : (decodeHgBlocksScanAll C.lz4block raw).bind (bytesToJsonBytes C) with
    | some o => simp [stageHgBlocks, h1]
    | none =>
      simp only [stageHgBlocks, h1]
      cases h2 : C.gzip raw with
      | some gz => simp [stageGzip, h2]
      | none =>
        simp only [stageGzip, h2]
        cases h3 : (if beginsWith raw lz4fMagic then C.lz4frame raw else none) with
        | some lzf => simp [stageLz4Frame, h3]
        | none =>
          simp only [stageLz4Frame, h3]
          cases h4 : C.zlib raw with
          | some zl => simp [stageZlib, h4]
          | none =>
            simp only [stageZlib, h4]
            cases h5 : tryDecodeVariants C (rstripNul raw) with
            | some o => simp [stageLastChance, h5]
            | none => simp [stageLastChance, h5]

/-- The all-failing codec instantiation: every external decompressor and
text codec fails, exactly as the real libraries do on the buffer of the C8
counterexample (no gzip/zlib/LZ4 header, not UTF-16/32 text). -/
def codec0 : Codecs :=
  { u32le := fun _ => none, u32be := fun _ => none, u16le := fun _ => none,
    u16be := fun _ => none, gzip := fun _ => none, lz4frame := fun _ => none,
    zlib := fun _ => none, lz4block := fun _ _ => none }

/-- A NUL-padded plain-JSON buffer. -/
def rawPad : List Nat := utf8Bytes (dumpsV (Json.obj [])) ++ [0]

/-- C8 counterexample: on a NUL-padded plain-JSON buffer all five wrappings
enumerated by the claim fail (the plain ladder on the raw bytes, the HG
block scan, gzip, LZ4 frame and zlib), yet the decode succeeds instead of
failing, via the sixth last-chance NUL-stripped plain retry that the claim
omits. -/
theorem decode_order_counterexample :
    tryDecodeVariants codec0 rawPad = none ∧
      (decodeHgBlocksScanAll codec0.lz4block rawPad).bind (bytesToJsonBytes codec0) =
        none ∧
      codec0.gzip rawPad = none ∧
      (if beginsWith rawPad lz4fMagic then codec0.lz4frame rawPad else none) = none ∧
      codec0.zlib rawPad = none ∧
      decodeToJsonBytes codec0 rawPad = some (utf8Bytes (dumpsV (Json.obj []))) :=
  ⟨rfl, rfl, rfl, rfl, rfl, rfl⟩

/-! ## Claim C6: scan-state machinery

`scanDepth` is characterized by a pure step function on the scan state
`(depth, inStr, esc)` plus a trigger predicate marking the position where
the matching close is reported. -/

theorem charToNat_ofNat {n : Nat} (h : n.isValidChar) : (Char.ofNat n).toNat = n := by
  have h32 : n < 4294967296 := by
    rcases h with h | ⟨h1, h2⟩ <;> omega
  simp [Char.ofNat, h, Char.ofNatAux, Char.toNat, UInt32.toNat, UInt32.ofNat',
    BitVec.toNat_ofNat, Nat.mod_eq_of_lt h32]

theorem isValidChar_of_lt {n : Nat} (h : n < 55296) : n.isValidChar := Or.inl h

/-- The pure state transition of one scanned byte. -/
def scanStep : Int × Bool × Bool → Nat → Int × Bool × Bool
  | (depth, inStr, esc), ch =>
    if inStr then
      if esc then (depth, true, false)
      else if ch = 92 then (depth, true, true)
      else if ch = 34 then (depth, false, false)
      else (depth, true, false)
    else
      if ch = 34 then (depth, true, false)
      else if ch = 123 ∨ ch = 91 then (depth + 1, false, false)
      else if ch = 125 ∨ ch = 93 then (depth - 1, false, false)
      else (depth, false, false)

/-- Whether a byte triggers the depth-zero return of the scan. -/
def scanTrig (st : Int × Bool × Bool) (ch : Nat) : Prop :=
  st.2.1 = false ∧ (ch = 125 ∨ ch = 93) ∧ st.1 - 1 = 0

instance (st : Int × Bool × Bool) (ch : Nat) : Decidable (scanTrig st ch) := by
  unfold scanTrig; infer_instance

/-- No byte of the run triggers the return. -/
def noTrig : List Nat → Int × Bool × Bool → Prop
  | [], _ => True
  | b :: bs, st => ¬ scanTrig st b ∧ noTrig bs (scanStep st b)

/-- State after folding a run of bytes. -/
def foldSt (bs : List Nat) (st : Int × Bool × Bool) : Int × Bool × Bool :=
  bs.foldl scanStep st

/-- `scanDepth` with the state bundled. -/
def scanDepthSt (bs : List Nat) (st : Int × Bool × Bool) (j : Nat) : Option Nat :=
  scanDepth bs st.1 st.2.1 st.2.2 j

theorem scanDepth_cons (bs : List Nat) (d : Int) (s e : Bool) (b : Nat) (j : Nat)
    (h : ¬ scanTrig (d, s, e) b) :
    scanDepthSt (b :: bs) (d, s, e) j = scanDepthSt bs (scanStep (d, s, e) b) (j + 1) := by
  cases s with
  | true =>
    cases e with
    | true => rfl
    | false =>
      by_cases hb92 : b = 92
      · subst hb92; simp [scanDepthSt, scanDepth, scanStep]
      · by_cases hb34 : b = 34
        · subst hb34; simp [scanDepthSt, scanDepth, scanStep]
        · simp [scanDepthSt, scanDepth, scanStep, hb92, hb34]
  | false =>
    by_cases hb34 : b = 34
    · subst hb34; simp [scanDepthSt, scanDepth, scanStep]
    · by_cases hbop : b = 123 ∨ b = 91
      · simp [scanDepthSt, scanDepth, scanStep, hb34, hbop]
      · by_cases hbcl : b = 125 ∨ b = 93
        · have hd : ¬ (d - 1 = 0) := fun hd0 => h ⟨rfl, hbcl, hd0⟩
          simp [scanDepthSt, scanDepth, scanStep, hb34, hbop, hbcl, hd]
        · simp [scanDepthSt, scanDepth, scanStep, hb34, hbop, hbcl]

theorem scanDepth_trig (bs : List Nat) (d : Int) (s e : Bool) (b : Nat) (j : Nat)
    (h : scanTrig (d, s, e) b) :
    scanDepthSt (b :: bs) (d, s, e) j = some (j + 1) := by
  obtain ⟨hs, hb, hd⟩ := h
  simp only at hs
  subst hs
  have hb34 : ¬ b = 34 := by rcases hb with h1 | h1 <;> omega
  have hbop : ¬ (b = 123 ∨ b = 91) := by rcases hb with h1 | h1 <;> omega
  cases e <;>
    simp [scanDepthSt, scanDepth, hb34, hbop, hb, hd]

theorem foldSt_cons (b : Nat) (bs : List Nat) (st : Int × Bool × Bool) :
    foldSt (b :: bs) st = foldSt bs (scanStep st b) := rfl

theorem noTrig_append (xs ys : List Nat) (st : Int × Bool × Bool) :
    noTrig (xs ++ ys) st ↔ noTrig xs st ∧ noTrig ys (foldSt xs st) := by
  induction xs generalizing st with
  | nil => simp [noTrig, foldSt]
  | cons b bs ih =>
    show (¬ scanTrig st b ∧ noTrig (bs ++ ys) (scanStep st b)) ↔ _
    rw [ih (scanStep st b)]
    constructor
    · rintro ⟨h1, h2, h3⟩
      exact ⟨⟨h1, h2⟩, by rw [foldSt_cons]; exact h3⟩
    · rintro ⟨⟨h1, h2⟩, h3⟩
      exact ⟨h1, h2, by rw [foldSt_cons] at h3; exact h3⟩

theorem foldSt_append (xs ys : List Nat) (st : Int × Bool × Bool) :
    foldSt (xs ++ ys) st = foldSt ys (foldSt xs st) := by
  simp [foldSt, List.foldl_append]

theorem scanDepthSt_append (xs ys : List Nat) (st : Int × Bool × Bool) (j : Nat)
    (h : noTrig xs st) :
    scanDepthSt (xs ++ ys) st j = scanDepthSt ys (foldSt xs st) (j + xs.length) := by
  induction xs generalizing st j with
  | nil => simp [foldSt]
  | cons b bs ih =>
    obtain ⟨h1, h2⟩ := h
    obtain ⟨d, s, e⟩ := st
    rw [List.cons_append, scanDepth_cons _ _ _ _ _ _ h1, ih _ _ h2]
    have hlen : j + (b :: bs).length = j + 1 + bs.length := by
      simp [List.length_cons]; omega
    rw [foldSt_cons, hlen]

/-- Preservation of a scan state across a byte run, with no trigger. -/
def scPres (bs : List Nat) (st : Int × Bool × Bool) : Prop :=
  noTrig bs st ∧ foldSt bs st = st

theorem scPres_append {xs ys : List Nat} {st : Int × Bool × Bool}
    (hx : scPres xs st) (hy : scPres ys st) : scPres (xs ++ ys) st := by
  refine ⟨(noTrig_append xs ys st).mpr ⟨hx.1, ?_⟩, ?_⟩
  · rw [hx.2]; exact hy.1
  · rw [foldSt_append, hx.2, hy.2]

theorem scPres_nil (st : Int × Bool × Bool) : scPres [] st := ⟨trivial, rfl⟩

/-- A byte that leaves any escape-free state unchanged. -/
theorem scanStep_neutral {b : Nat} (h34 : b ≠ 34) (h92 : b ≠ 92) (h91 : b ≠ 91)
    (h93 : b ≠ 93) (h123 : b ≠ 123) (h125 : b ≠ 125) (d : Int) (s : Bool) :
    scanStep (d, s, false) b = (d, s, false) ∧ ¬ scanTrig (d, s, false) b := by
  constructor
  · cases s <;> simp [scanStep, h34, h92, h91, h93, h123, h125]
  · simp [scanTrig, h93, h125]

theorem scPres_neutral_run (bs : List Nat)
    (h : ∀ b ∈ bs, b ≠ 34 ∧ b ≠ 92 ∧ b ≠ 91 ∧ b ≠ 93 ∧ b ≠ 123 ∧ b ≠ 125)
    (d : Int) (s : Bool) : scPres bs (d, s, false) := by
  induction bs with
  | nil => exact scPres_nil _
  | cons b rest ih =>
    obtain ⟨h34, h92, h91, h93, h123, h125⟩ := h b (List.mem_cons_self b rest)
    obtain ⟨hstep, htrig⟩ := scanStep_neutral h34 h92 h91 h93 h123 h125 d s
    have ih2 := ih (fun x hx => h x (List.mem_cons_of_mem b hx))
    refine ⟨⟨htrig, ?_⟩, ?_⟩
    · rw [hstep]; exact ih2.1
    · rw [foldSt, List.foldl_cons, hstep]; exact ih2.2

/-- A byte that, inside a string with the escape flag clear, keeps the
state (it is neither a quote nor a backslash). -/
theorem scanStep_inStr {b : Nat} (h34 : b ≠ 34) (h92 : b ≠ 92) (d : Int) :
    scanStep (d, true, false) b = (d, true, false) ∧ ¬ scanTrig (d, true, false) b := by
  refine ⟨by simp [scanStep, h34, h92], by simp [scanTrig]⟩

theorem utf8Encode_ascii {c : Char} (h : c.toNat < 128) : utf8Encode c = [c.toNat] := by
  simp [utf8Encode, h]

theorem utf8Encode_high {c : Char} (h : 128 ≤ c.toNat) :
    ∀ b ∈ utf8Encode c, 128 ≤ b := by
  intro b hb
  rw [utf8Encode] at hb
  split_ifs at hb <;> simp at hb <;> omega

/-- Every byte of the encoding of a non-special character is scan-neutral
(special ASCII bytes are below 128, multi-byte encodings stay at or above
128). -/
theorem utf8Encode_neutral {c : Char} (h34 : c.toNat ≠ 34) (h92 : c.toNat ≠ 92)
    (h91 : c.toNat ≠ 91) (h93 : c.toNat ≠ 93) (h123 : c.toNat ≠ 123)
    (h125 : c.toNat ≠ 125) :
    ∀ b ∈ utf8Encode c, b ≠ 34 ∧ b ≠ 92 ∧ b ≠ 91 ∧ b ≠ 93 ∧ b ≠ 123 ∧ b ≠ 125 := by
  intro b hb
  by_cases hlt : c.toNat < 128
  · rw [utf8Encode_ascii hlt] at hb
    simp at hb
    subst hb
    exact ⟨h34, h92, h91, h93, h123, h125⟩
  · have := utf8Encode_high (by omega) b hb
    refine ⟨by omega, by omega, by omega, by omega, by omega, by omega⟩

/-- A byte run taking the scan from one state to another without trigger. -/
def scRun (bs : List Nat) (st st2 : Int × Bool × Bool) : Prop :=
  noTrig bs st ∧ foldSt bs st = st2

theorem scRun_append {xs ys : List Nat} {st st1 st2 : Int × Bool × Bool}
    (hx : scRun xs st st1) (hy : scRun ys st1 st2) : scRun (xs ++ ys) st st2 := by
  refine ⟨(noTrig_append xs ys st).mpr ⟨hx.1, ?_⟩, ?_⟩
  · rw [hx.2]; exact hy.1
  · rw [foldSt_append, hx.2, hy.2]

theorem scRun_single {b : Nat} {st : Int × Bool × Bool} (htrig : ¬ scanTrig st b) :
    scRun [b] st (scanStep st b) :=
  ⟨⟨htrig, trivial⟩, rfl⟩

theorem scRun_of_pres {bs : List Nat} {st : Int × Bool × Bool} (h : scPres bs st) :
    scRun bs st st := h

theorem scPres_of_run {bs : List Nat} {st : Int × Bool × Bool} (h : scRun bs st st) :
    scPres bs st := h

/-- Bytes of an in-string character encoding keep the string state: only
quote and backslash matter inside strings, and those are excluded. -/
theorem scPres_inStr_encode {c : Char} (h34 : c.toNat ≠ 34) (h92 : c.toNat ≠ 92)
    (d : Int) : scPres (utf8Encode c) (d, true, false) := by
  by_cases hlt : c.toNat < 128
  · rw [utf8Encode_ascii hlt]
    obtain ⟨hstep, htrig⟩ := scanStep_inStr h34 h92 d
    exact ⟨⟨htrig, trivial⟩, by simp [foldSt, hstep]⟩
  · have hhigh := utf8Encode_high (le_of_not_lt hlt)
    have hgen : ∀ (bs : List Nat), (∀ x ∈ bs, 128 ≤ x) → scPres bs (d, true, false) := by
      intro bs
      induction bs with
      | nil => exact fun _ => scPres_nil _
      | cons x xs ih2 =>
        intro hb
        have hx : 128 ≤ x := hb x (List.mem_cons_self x xs)
        obtain ⟨hstep, htrig⟩ := @scanStep_inStr x (by omega) (by omega) d
        have ihres := ih2 (fun y hy => hb y (List.mem_cons_of_mem x hy))
        exact ⟨⟨htrig, by rw [hstep]; exact ihres.1⟩,
          by rw [foldSt_cons, hstep]; exact ihres.2⟩
    exact hgen _ hhigh

theorem utf8Bytes_nil : utf8Bytes [] = [] := rfl

theorem utf8Bytes_cons (c : Char) (s : List Char) :
    utf8Bytes (c :: s) = utf8Encode c ++ utf8Bytes s := by
  simp [utf8Bytes]

theorem utf8Bytes_append (a b : List Char) :
    utf8Bytes (a ++ b) = utf8Bytes a ++ utf8Bytes b := by
  simp [utf8Bytes]

theorem char_ne_of_toNat_ne {c : Char} {n : Nat} (h : c ≠ Char.ofNat n) :
    c.toNat ≠ n := by
  intro hc
  exact h (by rw [← Char.ofNat_toNat c, hc])

/-- Generic in-string preservation for a byte list free of quote and
backslash bytes. -/
theorem scPres_inStr_bytes (bs : List Nat)
    (h : ∀ b ∈ bs, b ≠ 34 ∧ b ≠ 92) (d : Int) : scPres bs (d, true, false) := by
  induction bs with
  | nil => exact scPres_nil _
  | cons x xs ih =>
    obtain ⟨h34, h92⟩ := h x (List.mem_cons_self x xs)
    obtain ⟨hstep, htrig⟩ := @scanStep_inStr x h34 h92 d
    have ihres := ih (fun y hy => h y (List.mem_cons_of_mem x hy))
    exact ⟨⟨htrig, by rw [hstep]; exact ihres.1⟩,
      by rw [foldSt_cons, hstep]; exact ihres.2⟩

/-- A two-byte backslash escape keeps the in-string state whatever the
escaped byte is. -/
theorem scPres_escPair (e : Nat) (d : Int) : scPres [92, e] (d, true, false) := by
  refine ⟨⟨by simp [scanTrig], by simp [scanTrig, scanStep], trivial⟩, ?_⟩
  show scanStep (scanStep (d, true, false) 92) e = (d, true, false)
  rfl

theorem hexDigitCh_toNat {k : Nat} (h : k < 16) :
    (hexDigitCh k).toNat = if k < 10 then 48 + k else 87 + k := by
  rw [hexDigitCh]
  split_ifs with h10
  · rw [charToNat_ofNat (isValidChar_of_lt (by omega))]
  · rw [charToNat_ofNat (isValidChar_of_lt (by omega))]

theorem hexDigitCh_props {k : Nat} (h : k < 16) :
    (hexDigitCh k).toNat ≠ 34 ∧ (hexDigitCh k).toNat ≠ 92 ∧
      (hexDigitCh k).toNat < 128 := by
  rw [hexDigitCh_toNat h]
  split_ifs <;> exact ⟨by omega, by omega, by omega⟩

/-- Scanning the escaped rendering of one string character keeps the
in-string state and triggers nothing. -/
theorem escapeChar_scan (c : Char) (d : Int) :
    scPres (utf8Bytes (escapeChar c)) (d, true, false) := by
  rw [escapeChar]
  split_ifs with h1 h2 h3 h4 h5 h6 h7 h8
  · rw [show utf8Bytes [Char.ofNat 92, Char.ofNat 34] = [92, 34] from by decide]
    exact scPres_escPair 34 d
  · rw [show utf8Bytes [Char.ofNat 92, Char.ofNat 92] = [92, 92] from by decide]
    exact scPres_escPair 92 d
  · rw [show utf8Bytes [Char.ofNat 92, 'b'] = [92, 98] from by decide]
    exact scPres_escPair 98 d
  · rw [show utf8Bytes [Char.ofNat 92, 't'] = [92, 116] from by decide]
    exact scPres_escPair 116 d
  · rw [show utf8Bytes [Char.ofNat 92, 'n'] = [92, 110] from by decide]
    exact scPres_escPair 110 d
  · rw [show utf8Bytes [Char.ofNat 92, 'f'] = [92, 102] from by decide]
    exact scPres_escPair 102 d
  · rw [show utf8Bytes [Char.ofNat 92, 'r'] = [92, 114] from by decide]
    exact scPres_escPair 114 d
  · rw [show (([Char.ofNat 92, 'u', '0', '0', hexDigitCh (c.toNat / 16),
        hexDigitCh (c.toNat % 16)] : List Char)) =
        [Char.ofNat 92, 'u'] ++ ['0', '0', hexDigitCh (c.toNat / 16),
          hexDigitCh (c.toNat % 16)] from rfl]
    rw [utf8Bytes_append]
    refine scPres_of_run (scRun_append (scRun_of_pres ?_) (scRun_of_pres ?_))
    · rw [show utf8Bytes [Char.ofNat 92, 'u'] = [92, 117] from by decide]
      exact scPres_escPair 117 d
    · have hhi : c.toNat / 16 < 16 := by omega
      have hlo : c.toNat % 16 < 16 := by omega
      have henc : ∀ k, k < 16 → utf8Encode (hexDigitCh k) = [(hexDigitCh k).toNat] :=
        fun k hk => utf8Encode_ascii (hexDigitCh_props hk).2.2
      rw [utf8Bytes_cons, utf8Bytes_cons, utf8Bytes_cons, utf8Bytes_cons, utf8Bytes_nil,
        show utf8Encode '0' = [48] from by decide, henc _ hhi, henc _ hlo]
      refine scPres_inStr_bytes _ ?_ d
      intro b hb
      obtain ⟨ha1, ha2, _⟩ := hexDigitCh_props hhi
      obtain ⟨hb1, hb2, _⟩ := hexDigitCh_props hlo
      have hb3 : b = 48 ∨ b = (hexDigitCh (c.toNat / 16)).toNat ∨
          b = (hexDigitCh (c.toNat % 16)).toNat := by simpa using hb
      rcases hb3 with h | h | h <;> subst h
      · exact ⟨by omega, by omega⟩
      · exact ⟨ha1, ha2⟩
      · exact ⟨hb1, hb2⟩
  · rw [show utf8Bytes [c] = utf8Encode c from by simp [utf8Bytes]]
    exact scPres_inStr_encode (char_ne_of_toNat_ne h1) (char_ne_of_toNat_ne h2) d

/-- Scanning a whole escaped string body keeps the in-string state. -/
theorem escapeStr_scan (s : List Char) (d : Int) :
    scPres (utf8Bytes (escapeStr s)) (d, true, false) := by
  induction s with
  | nil => exact scPres_nil _
  | cons c rest ih =>
    rw [show escapeStr (c :: rest) = escapeChar c ++ escapeStr rest from by
      simp [escapeStr], utf8Bytes_append]
    exact scPres_append (escapeChar_scan c d) ih

/-- Scanning a full JSON string literal (quotes included) from a
non-string state returns to that state and triggers nothing. -/
theorem strLit_scan (s : List Char) (d : Int) :
    scPres (utf8Bytes (Char.ofNat 34 :: escapeStr s ++ [Char.ofNat 34]))
      (d, false, false) := by
  rw [utf8Bytes_append, utf8Bytes_cons,
    show utf8Encode (Char.ofNat 34) = [34] from by decide,
    show utf8Bytes [Char.ofNat 34] = [34] from by decide]
  refine scPres_of_run ?_
  have s1 : scRun [34] (d, false, false) (d, true, false) := by
    have := @scRun_single 34 (d, false, false) (by simp [scanTrig])
    simpa [scanStep] using this
  have s2 : scRun (utf8Bytes (escapeStr s)) (d, true, false) (d, true, false) :=
    scRun_of_pres (escapeStr_scan s d)
  have s3 : scRun [34] (d, true, false) (d, false, false) := by
    have := @scRun_single 34 (d, true, false) (by simp [scanTrig])
    simpa [scanStep] using this
  exact scRun_append (scRun_append s1 s2) s3

/-- Scan preservation for a character list of scan-neutral characters. -/
theorem scPres_neutral_chars (s : List Char)
    (h : ∀ c ∈ s, c.toNat ≠ 34 ∧ c.toNat ≠ 92 ∧ c.toNat ≠ 91 ∧ c.toNat ≠ 93 ∧
      c.toNat ≠ 123 ∧ c.toNat ≠ 125) (d : Int) (sf : Bool) :
    scPres (utf8Bytes s) (d, sf, false) := by
  induction s with
  | nil => exact scPres_nil _
  | cons c rest ih =>
    obtain ⟨h34, h92, h91, h93, h123, h125⟩ := h c (List.mem_cons_self c rest)
    rw [utf8Bytes_cons]
    refine scPres_append ?_ (ih (fun x hx => h x (List.mem_cons_of_mem c hx)))
    exact scPres_neutral_run _ (utf8Encode_neutral h34 h92 h91 h93 h123 h125) d sf

theorem natCharsGo_digit : ∀ (fuel n : Nat) (c : Char), c ∈ natCharsGo fuel n →
    ∃ k, k < 10 ∧ c = digitCh k := by
  intro fuel
  induction fuel with
  | zero => intro n c hc; cases hc
  | succ f ih =>
    intro n c hc
    rw [natCharsGo] at hc
    split_ifs at hc with h10
    · simp at hc
      exact ⟨n, h10, hc⟩
    · rcases List.mem_append.mp hc with h | h
      · exact ih _ _ h
      · simp at h
        exact ⟨n % 10, Nat.mod_lt _ (by omega), h⟩

theorem digitCh_toNat {k : Nat} (h : k < 10) : (digitCh k).toNat = 48 + k := by
  rw [digitCh, charToNat_ofNat (isValidChar_of_lt (by omega))]

/-- Digits and the minus sign are scan-neutral, so a serialized integer
preserves any escape-free scan state. -/
theorem intChars_scan (i : Int) (d : Int) (sf : Bool) :
    scPres (utf8Bytes (intChars i)) (d, sf, false) := by
  refine scPres_neutral_chars _ ?_ d sf
  intro c hc
  have hdig : (∃ k, k < 10 ∧ c = digitCh k) ∨ c = '-' := by
    rw [intChars] at hc
    split_ifs at hc
    · rcases List.mem_cons.mp hc with h | h
      · exact Or.inr h
      · exact Or.inl (natCharsGo_digit _ _ _ h)
    · exact Or.inl (natCharsGo_digit _ _ _ hc)
  rcases hdig with ⟨k, hk, hck⟩ | hck
  · subst hck
    rw [digitCh_toNat hk]
    refine ⟨by omega, by omega, by omega, by omega, by omega, by omega⟩
  · subst hck
    refine ⟨by decide, by decide, by decide, by decide, by decide, by decide⟩

theorem scRun_quote_open (d : Int) : scRun [34] (d, false, false) (d, true, false) := by
  have := @scRun_single 34 (d, false, false) (by simp [scanTrig])
  simpa [scanStep] using this

theorem scRun_quote_close (d : Int) : scRun [34] (d, true, false) (d, false, false) := by
  have := @scRun_single 34 (d, true, false) (by simp [scanTrig])
  simpa [scanStep] using this

theorem scRun_neutral_single (b : Nat) (h34 : b ≠ 34) (h92 : b ≠ 92) (h91 : b ≠ 91)
    (h93 : b ≠ 93) (h123 : b ≠ 123) (h125 : b ≠ 125) (d : Int) (sf : Bool) :
    scRun [b] (d, sf, false) (d, sf, false) := by
  obtain ⟨hstep, htrig⟩ := scanStep_neutral h34 h92 h91 h93 h123 h125 d sf
  have := @scRun_single b (d, sf, false) htrig
  rwa [hstep] at this

theorem scRun_openBr (b : Nat) (hb : b = 123 ∨ b = 91) (d : Int) :
    scRun [b] (d, false, false) (d + 1, false, false) := by
  have h34 : ¬ b = 34 := by rcases hb with h | h <;> omega
  have htrig : ¬ scanTrig (d, false, false) b := by
    simp only [scanTrig]
    rintro ⟨_, hcl, _⟩
    rcases hb with h | h <;> rcases hcl with h2 | h2 <;> omega
  have := @scRun_single b (d, false, false) htrig
  rwa [show scanStep (d, false, false) b = (d + 1, false, false) from by
    simp [scanStep, h34, hb]] at this

theorem scRun_closeBr (b : Nat) (hb : b = 125 ∨ b = 93) (d : Int) (hd : d ≠ 1) :
    scRun [b] (d, false, false) (d - 1, false, false) := by
  have h34 : ¬ b = 34 := by rcases hb with h | h <;> omega
  have hop : ¬ (b = 123 ∨ b = 91) := by rcases hb with h | h <;> omega
  have htrig : ¬ scanTrig (d, false, false) b := by
    simp only [scanTrig]
    rintro ⟨_, _, hz⟩
    omega
  have := @scRun_single b (d, false, false) htrig
  rwa [show scanStep (d, false, false) b = (d - 1, false, false) from by
    simp [scanStep, h34, hop, hb]] at this

mutual

theorem dumpsV_scan : ∀ (v : Json) (d : Int), 1 ≤ d →
    scPres (utf8Bytes (dumpsV v)) (d, false, false)
  | .null, d, _ => by
      refine scPres_neutral_chars _ ?_ d false
      decide
  | .bool true, d, _ => by
      refine scPres_neutral_chars _ ?_ d false
      decide
  | .bool false, d, _ => by
      refine scPres_neutral_chars _ ?_ d false
      decide
  | .num i, d, _ => intChars_scan i d false
  | .str s, d, _ => strLit_scan s d
  | .arr l, d, hd => by
      show scPres (utf8Bytes ((Char.ofNat 91 :: dumpsArr l) ++ [Char.ofNat 93]))
        (d, false, false)
      rw [utf8Bytes_append, utf8Bytes_cons,
        show utf8Encode (Char.ofNat 91) = [91] from by decide,
        show utf8Bytes [Char.ofNat 93] = [93] from by decide]
      have s1 : scRun [91] (d, false, false) (d + 1, false, false) :=
        scRun_openBr 91 (Or.inr rfl) d
      have s2 : scRun (utf8Bytes (dumpsArr l)) (d + 1, false, false)
          (d + 1, false, false) :=
        scRun_of_pres (dumpsArr_scan l (d + 1) (by omega))
      have s3 : scRun [93] (d + 1, false, false) (d, false, false) := by
        have h := scRun_closeBr 93 (Or.inr rfl) (d + 1) (by omega)
        rwa [show d + 1 - 1 = d from by omega] at h
      exact scPres_of_run (scRun_append (scRun_append s1 s2) s3)
  | .obj l, d, hd => by
      show scPres (utf8Bytes ((Char.ofNat 123 :: dumpsObj l) ++ [Char.ofNat 125]))
        (d, false, false)
      rw [utf8Bytes_append, utf8Bytes_cons,
        show utf8Encode (Char.ofNat 123) = [123] from by decide,
        show utf8Bytes [Char.ofNat 125] = [125] from by decide]
      have s1 : scRun [123] (d, false, false) (d + 1, false, false) :=
        scRun_openBr 123 (Or.inl rfl) d
      have s2 : scRun (utf8Bytes (dumpsObj l)) (d + 1, false, false)
          (d + 1, false, false) :=
        scRun_of_pres (dumpsObj_scan l (d + 1) (by omega))
      have s3 : scRun [125] (d + 1, false, false) (d, false, false) := by
        have h := scRun_closeBr 125 (Or.inl rfl) (d + 1) (by omega)
        rwa [show d + 1 - 1 = d from by omega] at h
      exact scPres_of_run (scRun_append (scRun_append s1 s2) s3)

theorem dumpsArr_scan : ∀ (l : List Json) (d : Int), 1 ≤ d →
    scPres (utf8Bytes (dumpsArr l)) (d, false, false)
  | [], _, _ => scPres_nil _
  | v :: vs, d, hd => by
      show scPres (utf8Bytes (dumpsV v ++ dumpsArrTail vs)) (d, false, false)
      rw [utf8Bytes_append]
      exact scPres_append (dumpsV_scan v d hd) (dumpsArrTail_scan vs d hd)

theorem dumpsArrTail_scan : ∀ (l : List Json) (d : Int), 1 ≤ d →
    scPres (utf8Bytes (dumpsArrTail l)) (d, false, false)
  | [], _, _ => scPres_nil _
  | v :: vs, d, hd => by
      show scPres (utf8Bytes ((',' :: dumpsV v) ++ dumpsArrTail vs)) (d, false, false)
      rw [utf8Bytes_append, utf8Bytes_cons, show utf8Encode ',' = [44] from by decide]
      have s1 : scRun [44] (d, false, false) (d, false, false) :=
        scRun_neutral_single 44 (by omega) (by omega) (by omega) (by omega)
          (by omega) (by omega) d false
      have s2 : scRun (utf8Bytes (dumpsV v)) (d, false, false) (d, false, false) :=
        scRun_of_pres (dumpsV_scan v d hd)
      have s3 : scRun (utf8Bytes (dumpsArrTail vs)) (d, false, false)
          (d, false, false) :=
        scRun_of_pres (dumpsArrTail_scan vs d hd)
      exact scPres_of_run (scRun_append (scRun_append s1 s2) s3)

theorem dumpsObj_scan : ∀ (l : List (List Char × Json)) (d : Int), 1 ≤ d →
    scPres (utf8Bytes (dumpsObj l)) (d, false, false)
  | [], _, _ => scPres_nil _
  | (k, v) :: kvs, d, hd => by
      rw [dumpsObj]
      rw [utf8Bytes_append, utf8Bytes_append, utf8Bytes_cons, utf8Bytes_cons,
        utf8Bytes_cons, show utf8Encode (Char.ofNat 34) = [34] from by decide,
        show utf8Encode ':' = [58] from by decide]
      have sKey : scRun ([34] ++ utf8Bytes (escapeStr k)) (d, false, false)
          (d, true, false) :=
        scRun_append (scRun_quote_open d) (scRun_of_pres (escapeStr_scan k d))
      have sMid : scRun ([34] ++ ([58] ++ utf8Bytes (dumpsV v))) (d, true, false)
          (d, false, false) :=
        scRun_append (scRun_quote_close d)
          (scRun_append
            (scRun_neutral_single 58 (by omega) (by omega) (by omega) (by omega)
              (by omega) (by omega) d false)
            (scRun_of_pres (dumpsV_scan v d hd)))
      have sTail : scRun (utf8Bytes (dumpsObjTail kvs)) (d, false, false)
          (d, false, false) :=
        scRun_of_pres (dumpsObjTail_scan kvs d hd)
      exact scPres_of_run (scRun_append (scRun_append sKey sMid) sTail)

theorem dumpsObjTail_scan : ∀ (l : List (List Char × Json)) (d : Int), 1 ≤ d →
    scPres (utf8Bytes (dumpsObjTail l)) (d, false, false)
  | [], _, _ => scPres_nil _
  | (k, v) :: kvs, d, hd => by
      rw [dumpsObjTail]
      rw [utf8Bytes_append, utf8Bytes_append, utf8Bytes_cons, utf8Bytes_cons,
        utf8Bytes_cons, utf8Bytes_cons, show utf8Encode ',' = [44] from by decide,
        show utf8Encode (Char.ofNat 34) = [34] from by decide,
        show utf8Encode ':' = [58] from by decide]
      have sA : scRun ([44] ++ ([34] ++ utf8Bytes (escapeStr k))) (d, false, false)
          (d, true, false) :=
        scRun_append
          (scRun_neutral_single 44 (by omega) (by omega) (by omega) (by omega)
            (by omega) (by omega) d false)
          (scRun_append (scRun_quote_open d) (scRun_of_pres (escapeStr_scan k d)))
      have sMid : scRun ([34] ++ ([58] ++ utf8Bytes (dumpsV v))) (d, true, false)
          (d, false, false) :=
        scRun_append (scRun_quote_close d)
          (scRun_append
            (scRun_neutral_single 58 (by omega) (by omega) (by omega) (by omega)
              (by omega) (by omega) d false)
            (scRun_of_pres (dumpsV_scan v d hd)))
      have sTail : scRun (utf8Bytes (dumpsObjTail kvs)) (d, false, false)
          (d, false, false) :=
        scRun_of_pres (dumpsObjTail_scan kvs d hd)
      exact scPres_of_run (scRun_append (scRun_append sA sMid) sTail)

end

/-- Core slice computation: an opening bracket, a body whose scan preserves
depth-1 out-of-string state without triggering the return, and the matching
closing bracket, followed by arbitrary garbage, slice to exactly the
bracketed span. -/
theorem sliceLoop_exact_aux (o c : Nat) (B g : List Nat)
    (ho : o = 123 ∨ o = 91) (hc : c = 125 ∨ c = 93)
    (hB : scPres B (1, false, false)) :
    sliceLoop (o :: (B ++ (c :: g))) 0 = some (0, B.length + 2) := by
  have htr : ¬ scanTrig (0, false, false) o := by
    simp only [scanTrig]
    rintro ⟨_, hcl, _⟩
    rcases ho with h | h <;> rcases hcl with h2 | h2 <;> omega
  have hstep : scanStep (0, false, false) o = (1, false, false) := by
    rcases ho with h | h <;> subst h <;> decide
  have h1 : scanDepthSt (o :: (B ++ (c :: g))) (0, false, false) 0
      = scanDepthSt (B ++ (c :: g)) (1, false, false) 1 := by
    rw [scanDepth_cons _ _ _ _ _ _ htr, hstep]
  have h2 : scanDepthSt (B ++ (c :: g)) (1, false, false) 1
      = scanDepthSt (c :: g) (1, false, false) (1 + B.length) := by
    rw [scanDepthSt_append _ _ _ _ hB.1, hB.2]
  have h3 : scanDepthSt (c :: g) (1, false, false) (1 + B.length)
      = some (1 + B.length + 1) :=
    scanDepth_trig g 1 false false c (1 + B.length) ⟨rfl, hc, by decide⟩
  have hscan : scanDepth (o :: (B ++ (c :: g))) 0 false false 0
      = some (B.length + 2) := by
    have htot := (h1.trans h2).trans h3
    rw [show B.length + 2 = 1 + B.length + 1 from by omega]
    exact htot
  simp only [sliceLoop, if_pos ho, hscan]

/-- The serialized bytes of a top-level object decompose as open brace,
object body, close brace. -/
theorem dumpsV_obj_bytes (l : List (List Char × Json)) (g : List Nat) :
    utf8Bytes (dumpsV (Json.obj l)) ++ g
      = 123 :: (utf8Bytes (dumpsObj l) ++ (125 :: g)) := by
  show utf8Bytes ((Char.ofNat 123 :: dumpsObj l) ++ [Char.ofNat 125]) ++ g = _
  rw [utf8Bytes_append, utf8Bytes_cons, utf8Bytes_cons, utf8Bytes_nil,
    show utf8Encode (Char.ofNat 123) = [123] from by decide,
    show utf8Encode (Char.ofNat 125) = [125] from by decide]
  simp

/-- The serialized bytes of a top-level array decompose as open bracket,
array body, close bracket. -/
theorem dumpsV_arr_bytes (l : List Json) (g : List Nat) :
    utf8Bytes (dumpsV (Json.arr l)) ++ g
      = 91 :: (utf8Bytes (dumpsArr l) ++ (93 :: g)) := by
  show utf8Bytes ((Char.ofNat 91 :: dumpsArr l) ++ [Char.ofNat 93]) ++ g = _
  rw [utf8Bytes_append, utf8Bytes_cons, utf8Bytes_cons, utf8Bytes_nil,
    show utf8Encode (Char.ofNat 91) = [91] from by decide,
    show utf8Encode (Char.ofNat 93) = [93] from by decide]
  simp

/-- C6: depth-tracking slice correctness. For every JSON value whose
top-level form is an object or an array (its strings may contain braces,
brackets, and quote/backslash characters, which the serializer escapes so
that an escaped quote is preceded by an odd number of backslashes),
`slice_top_level_json` applied to its serialized bytes followed by
arbitrary trailing garbage returns exactly the span from the opening
bracket to its matching closing bracket: the scanner does not leave string
mode at an escaped quote, and depth returns to zero precisely at the
matching close. -/
theorem slice_exact (v : Json) (g : List Nat)
    (h : (∃ l, v = Json.obj l) ∨ (∃ l, v = Json.arr l)) :
    sliceTopLevelJson (utf8Bytes (dumpsV v) ++ g)
      = some (0, (utf8Bytes (dumpsV v)).length) := by
  rcases h with ⟨l, rfl⟩ | ⟨l, rfl⟩
  · have key := sliceLoop_exact_aux 123 125 (utf8Bytes (dumpsObj l)) g
      (Or.inl rfl) (Or.inl rfl) (dumpsObj_scan l 1 (by decide))
    have hlen : (utf8Bytes (dumpsV (Json.obj l))).length
        = (utf8Bytes (dumpsObj l)).length + 2 := by
      have := congrArg List.length (dumpsV_obj_bytes l [])
      simpa using this
    show sliceLoop (utf8Bytes (dumpsV (Json.obj l)) ++ g) 0 = _
    rw [dumpsV_obj_bytes, hlen]
    exact key
  · have key := sliceLoop_exact_aux 91 93 (utf8Bytes (dumpsArr l)) g
      (Or.inr rfl) (Or.inr rfl) (dumpsArr_scan l 1 (by decide))
    have hlen : (utf8Bytes (dumpsV (Json.arr l))).length
        = (utf8Bytes (dumpsArr l)).length + 2 := by
      have := congrArg List.length (dumpsV_arr_bytes l [])
      simpa using this
    show sliceLoop (utf8Bytes (dumpsV (Json.arr l)) ++ g) 0 = _
    rw [dumpsV_arr_bytes, hlen]
    exact key

/-- A crafted document: an object whose string values contain brace,
bracket, quote and backslash characters and a nested array. -/
def sliceDoc : Json :=
  Json.obj
    [(cs "key",
        Json.str [Char.ofNat 123, Char.ofNat 34, Char.ofNat 92, Char.ofNat 125,
          Char.ofNat 93]),
      (cs "arr", Json.arr [Json.num 1, Json.arr [Json.str (cs "x")],
        Json.bool true])]

theorem slice_exact_witness :
    ((∃ l, sliceDoc = Json.obj l) ∨ (∃ l, sliceDoc = Json.arr l)) ∧
      sliceTopLevelJson (utf8Bytes (dumpsV sliceDoc) ++ [0, 0, 104, 105])
        = some (0, (utf8Bytes (dumpsV sliceDoc)).length) :=
  ⟨Or.inl ⟨_, rfl⟩, slice_exact sliceDoc [0, 0, 104, 105] (Or.inl ⟨_, rfl⟩)⟩

/-! ## UTF-8 round trip -/

theorem char_valid_ranges (c : Char) :
    c.toNat < 55296 ∨ (57344 ≤ c.toNat ∧ c.toNat < 1114112) := by
  have h := c.valid
  simp only [UInt32.isValidChar, Nat.isValidChar] at h
  exact h

theorem isCont_true {b : Nat} (h1 : 128 ≤ b) (h2 : b < 192) : isCont b = true := by
  simp [isCont]; omega

/-- Decoding an encoded character at the head of a buffer peels it off
exactly, costing one fuel unit. -/
theorem utf8DecodeGo_encode_cons (c : Char) (rest : List Nat) (fuel : Nat) :
    utf8DecodeGo (fuel + 1) (utf8Encode c ++ rest)
      = (utf8DecodeGo fuel rest).map (fun tl => c :: tl) := by
  have hval := char_valid_ranges c
  by_cases h1 : c.toNat < 128
  · rw [utf8Encode_ascii h1]
    show utf8DecodeGo (fuel + 1) (c.toNat :: rest) = _
    rw [utf8DecodeGo, if_pos h1, Char.ofNat_toNat]
  · by_cases h2 : c.toNat < 2048
    · rw [show utf8Encode c = [192 + c.toNat / 64, 128 + c.toNat % 64] from by
        rw [utf8Encode, if_neg h1, if_pos h2]]
      show utf8DecodeGo (fuel + 1) ((192 + c.toNat / 64) :: (128 + c.toNat % 64) :: rest) = _
      rw [utf8DecodeGo, if_neg (by omega), if_neg (by omega), if_pos (by omega),
        utf8Dec2, if_pos (isCont_true (by omega) (by omega)),
        show (192 + c.toNat / 64 - 192) * 64 + (128 + c.toNat % 64 - 128) = c.toNat
          from by omega,
        if_neg (by omega), Char.ofNat_toNat]
    · by_cases h3 : c.toNat < 65536
      · rw [show utf8Encode c = [224 + c.toNat / 4096, 128 + c.toNat / 64 % 64,
            128 + c.toNat % 64] from by rw [utf8Encode, if_neg h1, if_neg h2, if_pos h3]]
        show utf8DecodeGo (fuel + 1) ((224 + c.toNat / 4096) :: (128 + c.toNat / 64 % 64) ::
          (128 + c.toNat % 64) :: rest) = _
        rw [utf8DecodeGo, if_neg (by omega), if_neg (by omega), if_neg (by omega),
          if_pos (by omega), utf8Dec3,
          if_pos (by rw [isCont_true (by omega) (by omega),
            isCont_true (by omega) (by omega)]; rfl),
          show (224 + c.toNat / 4096 - 224) * 4096 + (128 + c.toNat / 64 % 64 - 128) * 64
              + (128 + c.toNat % 64 - 128) = c.toNat from by omega,
          if_neg (by rcases hval with hv | hv <;> omega), Char.ofNat_toNat]
      · have h4 : c.toNat < 1114112 := by rcases hval with hv | hv <;> omega
        rw [show utf8Encode c = [240 + c.toNat / 262144, 128 + c.toNat / 4096 % 64,
            128 + c.toNat / 64 % 64, 128 + c.toNat % 64] from by
          rw [utf8Encode, if_neg h1, if_neg h2, if_neg h3]]
        show utf8DecodeGo (fuel + 1) ((240 + c.toNat / 262144) :: (128 + c.toNat / 4096 % 64) ::
          (128 + c.toNat / 64 % 64) :: (128 + c.toNat % 64) :: rest) = _
        rw [utf8DecodeGo, if_neg (by omega), if_neg (by omega), if_neg (by omega),
          if_neg (by omega), if_pos (by omega), utf8Dec4,
          if_pos (by rw [isCont_true (by omega) (by omega),
            isCont_true (by omega) (by omega), isCont_true (by omega) (by omega)]; rfl),
          show (240 + c.toNat / 262144 - 240) * 262144 + (128 + c.toNat / 4096 % 64 - 128)
              * 4096 + (128 + c.toNat / 64 % 64 - 128) * 64 + (128 + c.toNat % 64 - 128)
              = c.toNat from by omega,
          if_neg (by omega), Char.ofNat_toNat]

theorem utf8Encode_length_pos (c : Char) : 1 ≤ (utf8Encode c).length := by
  rw [utf8Encode]
  split_ifs <;> simp

theorem utf8DecodeGo_bytes (s : List Char) : ∀ fuel, (utf8Bytes s).length < fuel →
    utf8DecodeGo fuel (utf8Bytes s) = some s := by
  induction s with
  | nil =>
    intro fuel hf
    obtain ⟨f, rfl⟩ : ∃ f, fuel = f + 1 := ⟨fuel - 1, by omega⟩
    rfl
  | cons c r ih =>
    intro fuel hf
    obtain ⟨f, rfl⟩ : ∃ f, fuel = f + 1 := ⟨fuel - 1, by omega⟩
    rw [utf8Bytes_cons, utf8DecodeGo_encode_cons, ih f (by
      have h1 := utf8Encode_length_pos c
      rw [utf8Bytes_cons, List.length_append] at hf
      omega)]
    rfl

/-- The UTF-8 codec round-trips on every encoded string. -/
theorem utf8Decode_utf8Bytes (s : List Char) : utf8Decode (utf8Bytes s) = some s :=
  utf8DecodeGo_bytes s _ (by omega)

/-! ## Decimal literal round trip -/

theorem isDigit_digitCh {k : Nat} (h : k < 10) : (digitCh k).isDigit = true := by
  interval_cases k <;> decide

theorem natCharsGo_ne_nil (fuel n : Nat) : natCharsGo (fuel + 1) n ≠ [] := by
  rw [natCharsGo]
  split_ifs <;> simp

theorem natChars_ne_nil (n : Nat) : natChars n ≠ [] := natCharsGo_ne_nil n n

theorem natCharsGo_head : ∀ fuel n, n < 10 ^ fuel → 0 < n →
    ∀ c t, natCharsGo fuel n = c :: t → c ≠ '0' := by
  intro fuel
  induction fuel with
  | zero => intro n hb hp; omega
  | succ f ih =>
    intro n hb hp c t hct
    rw [natCharsGo] at hct
    split_ifs at hct with h10
    · have hc : c = digitCh n := by injection hct with h1 _; exact h1.symm
      intro h0
      have hdn : (digitCh n).toNat = 48 + n := digitCh_toNat h10
      have h48 : ('0').toNat = 48 := rfl
      rw [← hc, h0, h48] at hdn
      omega
    · have hf1 : 1 ≤ f := by
        by_contra hf
        have hf0 : f = 0 := by omega
        subst hf0
        have : (10 : Nat) ^ 1 = 10 := by norm_num
        omega
      obtain ⟨f2, rfl⟩ : ∃ f2, f = f2 + 1 := ⟨f - 1, by omega⟩
      obtain ⟨c2, t2, hsh⟩ := List.exists_cons_of_ne_nil (natCharsGo_ne_nil f2 (n / 10))
      rw [hsh] at hct
      have hc : c = c2 := by
        rw [List.cons_append] at hct
        injection hct with h1 _
        exact h1.symm
      have hdb : n / 10 < 10 ^ (f2 + 1) := by
        have hp10 : (10 : Nat) ^ (f2 + 1 + 1) = 10 ^ (f2 + 1) * 10 := pow_succ 10 (f2 + 1)
        omega
      rw [hc]
      exact ih (n / 10) hdb (by omega) c2 t2 hsh

theorem natChars_head {n : Nat} (h : 0 < n) : ∀ c t, natChars n = c :: t → c ≠ '0' := by
  have hb : n < 10 ^ (n + 1) := by
    have h1 : n < 10 ^ n := Nat.lt_pow_self (by norm_num) n
    have h2 : (10 : Nat) ^ n ≤ 10 ^ (n + 1) := Nat.pow_le_pow_right (by norm_num) (by omega)
    omega
  exact natCharsGo_head (n + 1) n hb h

theorem natCharsGo_foldl : ∀ fuel n acc, n < 10 ^ fuel →
    (natCharsGo fuel n).foldl (fun a c => a * 10 + (c.toNat - 48)) acc
      = acc * 10 ^ (natCharsGo fuel n).length + n := by
  intro fuel
  induction fuel with
  | zero =>
    intro n acc hb
    have : n = 0 := by omega
    subst this
    simp [natCharsGo]
  | succ f ih =>
    intro n acc hb
    rw [natCharsGo]
    split_ifs with h10
    · rw [show ([digitCh n] : List Char).foldl (fun a c => a * 10 + (c.toNat - 48)) acc
          = acc * 10 + ((digitCh n).toNat - 48) from rfl,
        digitCh_toNat h10]
      simp
    · have hd : n / 10 < 10 ^ f := by
        have hp : (10 : Nat) ^ (f + 1) = 10 ^ f * 10 := pow_succ 10 f
        omega
      rw [List.foldl_append, ih (n / 10) acc hd]
      rw [show ([digitCh (n % 10)] : List Char).foldl (fun a c => a * 10 + (c.toNat - 48))
          (acc * 10 ^ (natCharsGo f (n / 10)).length + n / 10)
          = (acc * 10 ^ (natCharsGo f (n / 10)).length + n / 10) * 10
            + ((digitCh (n % 10)).toNat - 48) from rfl,
        digitCh_toNat (Nat.mod_lt n (by omega)), List.length_append,
        List.length_singleton, pow_succ, ← mul_assoc]
      generalize acc * 10 ^ (natCharsGo f (n / 10)).length = q
      omega

theorem digitsToNat_natChars (n : Nat) : digitsToNat (natChars n) = n := by
  have hb : n < 10 ^ (n + 1) := by
    have h1 : n < 10 ^ n := Nat.lt_pow_self (by norm_num) n
    have h2 : (10 : Nat) ^ n ≤ 10 ^ (n + 1) := Nat.pow_le_pow_right (by norm_num) (by omega)
    omega
  have := natCharsGo_foldl (n + 1) n 0 hb
  simpa [digitsToNat, natChars] using this

theorem natChars_digits (n : Nat) : ∀ c ∈ natChars n, c.isDigit = true := by
  intro c hc
  obtain ⟨k, hk, rfl⟩ := natCharsGo_digit _ _ c hc
  exact isDigit_digitCh hk

theorem takeWhile_all_append {α : Type} {p : α → Bool} : ∀ (l1 l2 : List α),
    (∀ x ∈ l1, p x = true) → (∀ c t, l2 = c :: t → p c = false) →
    (l1 ++ l2).takeWhile p = l1 ∧ (l1 ++ l2).dropWhile p = l2 := by
  intro l1
  induction l1 with
  | nil =>
    intro l2 _ h2
    cases l2 with
    | nil => exact ⟨rfl, rfl⟩
    | cons c t =>
      refine ⟨?_, ?_⟩
      · simp [List.takeWhile_cons, h2 c t rfl]
      · simp [List.dropWhile_cons, h2 c t rfl]
  | cons a l ih =>
    intro l2 h1 h2
    have ha : p a = true := h1 a (by simp)
    have hr := ih l2 (fun x hx => h1 x (by simp [hx])) h2
    refine ⟨?_, ?_⟩
    · simp [List.takeWhile_cons, ha, hr.1]
    · simp [List.dropWhile_cons, ha, hr.2]

/-- A stop character cannot continue a number literal. -/
def numStop (rest : List Char) : Prop :=
  ∀ c t, rest = c :: t → c.isDigit = false ∧ c ≠ '.' ∧ c ≠ 'e' ∧ c ≠ 'E'

theorem parseNatLit_natChars (n : Nat) (rest : List Char) (hrest : numStop rest) :
    parseNatLit (natChars n ++ rest) = some (n, rest) := by
  have htd := takeWhile_all_append (natChars n) rest (natChars_digits n)
    (fun c t h => (hrest c t h).1)
  rw [parseNatLit, htd.1, htd.2, if_neg (natChars_ne_nil n)]
  rw [if_neg ?hlead]
  case hlead =>
    rintro ⟨hlen, hhd⟩
    by_cases h10 : n < 10
    · rw [show natChars n = [digitCh n] from by rw [natChars, natCharsGo, if_pos h10]]
        at hlen
      simp at hlen
    · obtain ⟨c, t, hct⟩ := List.exists_cons_of_ne_nil (natChars_ne_nil n)
      have hc0 : c ≠ '0' := natChars_head (by omega) c t hct
      rw [hct] at hhd
      simp at hhd
      exact hc0 hhd
  cases rest with
  | nil => simp [digitsToNat_natChars]
  | cons c r2 =>
    obtain ⟨_, hdot, he, hE⟩ := hrest c r2 rfl
    show (if c = '.' ∨ c = 'e' ∨ c = 'E' then none
      else some (digitsToNat (natChars n), c :: r2)) = some (n, c :: r2)
    rw [if_neg (by rintro (h | h | h); exacts [hdot h, he h, hE h]), digitsToNat_natChars]

theorem parseIntLit_intChars (i : Int) (rest : List Char) (hrest : numStop rest) :
    parseIntLit (intChars i ++ rest) = some (i, rest) := by
  by_cases hi : i < 0
  · rw [intChars, if_pos hi, List.cons_append, parseIntLit,
      parseNatLit_natChars _ _ hrest]
    have : ((-i).toNat : Int) = -i := Int.toNat_of_nonneg (by omega)
    simp [this]
  · rw [intChars, if_neg hi]
    obtain ⟨c, t, hct⟩ := List.exists_cons_of_ne_nil (natChars_ne_nil i.toNat)
    have hcd : c.isDigit = true := natChars_digits i.toNat c (by rw [hct]; simp)
    rw [hct, List.cons_append, parseIntLit.eq_def]
    split
    · rename_i r2 heq
      have hcm : c = '-' := (List.cons.inj heq).1
      rw [hcm] at hcd
      simp at hcd
    · rw [show c :: (t ++ rest) = natChars i.toNat ++ rest from by rw [hct]; rfl,
        parseNatLit_natChars _ _ hrest]
      have : ((i.toNat : Nat) : Int) = i := Int.toNat_of_nonneg (by omega)
      simp [this]

/-! ## String body round trip -/

theorem hexVal_hexDigitCh {d : Nat} (h : d < 16) : hexVal (hexDigitCh d) = some d := by
  interval_cases d <;> decide

theorem escapeStr_cons (c : Char) (s : List Char) :
    escapeStr (c :: s) = escapeChar c ++ escapeStr s := by
  simp [escapeStr]

/-- Scanning an escaped string body up to the closing quote recovers the
original characters and the remainder. -/
theorem parseStringBody_escape (s : List Char) : ∀ rest : List Char,
    parseStringBody (escapeStr s ++ (Char.ofNat 34 :: rest)) = some (s, rest) := by
  induction s with
  | nil =>
    intro rest
    show parseStringBody (Char.ofNat 34 :: rest) = some ([], rest)
    rw [parseStringBody.eq_def]
    simp only []
    rw [if_pos trivial]
  | cons c cs ih =>
    intro rest
    rw [escapeStr_cons, List.append_assoc, escapeChar]
    split_ifs with h1 h2 h3 h4 h5 h6 h7 h8
    · simp only [List.cons_append, List.nil_append]
      rw [parseStringBody.eq_def]
      simp only []
      rw [if_neg (by decide), if_pos trivial, if_pos trivial, ih, h1]
      rfl
    · simp only [List.cons_append, List.nil_append]
      rw [parseStringBody.eq_def]
      simp only []
      rw [if_neg (by decide), if_pos trivial, if_neg (by decide), if_pos trivial, ih, h2]
      rfl
    · simp only [List.cons_append, List.nil_append]
      rw [parseStringBody.eq_def]
      simp only []
      rw [if_neg (by decide), if_pos trivial, if_neg (by decide), if_neg (by decide),
        if_neg (by decide), if_pos trivial, ih, h3]
      rfl
    · simp only [List.cons_append, List.nil_append]
      rw [parseStringBody.eq_def]
      simp only []
      rw [if_neg (by decide), if_pos trivial, if_neg (by decide), if_neg (by decide),
        if_neg (by decide), if_neg (by decide), if_neg (by decide), if_neg (by decide),
        if_neg (by decide), if_pos trivial, ih, h4]
      rfl
    · simp only [List.cons_append, List.nil_append]
      rw [parseStringBody.eq_def]
      simp only []
      rw [if_neg (by decide), if_pos trivial, if_neg (by decide), if_neg (by decide),
        if_neg (by decide), if_neg (by decide), if_neg (by decide), if_pos trivial, ih, h5]
      rfl
    · simp only [List.cons_append, List.nil_append]
      rw [parseStringBody.eq_def]
      simp only []
      rw [if_neg (by decide), if_pos trivial, if_neg (by decide), if_neg (by decide),
        if_neg (by decide), if_neg (by decide), if_pos trivial, ih, h6]
      rfl
    · simp only [List.cons_append, List.nil_append]
      rw [parseStringBody.eq_def]
      simp only []
      rw [if_neg (by decide), if_pos trivial, if_neg (by decide), if_neg (by decide),
        if_neg (by decide), if_neg (by decide), if_neg (by decide), if_neg (by decide),
        if_pos trivial, ih, h7]
      rfl
    · simp only [List.cons_append, List.nil_append]
      rw [parseStringBody.eq_def]
      simp only []
      rw [if_neg (by decide), if_pos trivial, if_neg (by decide), if_neg (by decide),
        if_neg (by decide), if_neg (by decide), if_neg (by decide), if_neg (by decide),
        if_neg (by decide), if_neg (by decide), if_pos trivial]
      simp only [show hexVal '0' = some 0 from by decide,
        hexVal_hexDigitCh (show c.toNat / 16 < 16 from by omega),
        hexVal_hexDigitCh (show c.toNat % 16 < 16 from by omega)]
      rw [show 4096 * 0 + 256 * 0 + 16 * (c.toNat / 16) + c.toNat % 16 = c.toNat from by
          omega,
        if_neg (by omega), ih, Char.ofNat_toNat]
      rfl
    · rw [List.singleton_append, parseStringBody.eq_def]
      simp only []
      rw [if_neg h1, if_neg h2, if_neg h8, ih]
      rfl

/-! ## Well-formed JSON values and parser fuel requirements -/

/-- Keys of an object body are pairwise distinct (each key is absent from
the remainder). -/
def keysFresh : List (List Char × Json) → Bool
  | [] => true
  | (k, _) :: kvs => (lookupKV kvs k).isNone && keysFresh kvs

mutual

/-- Well-formed JSON value: every object has pairwise-distinct keys (a
Python dict can never hold a duplicate key). -/
def jsonWF : Json → Bool
  | .null => true
  | .bool _ => true
  | .num _ => true
  | .str _ => true
  | .arr l => jsonWFList l
  | .obj l => keysFresh l && jsonWFFields l

/-- Well-formedness of an array body. -/
def jsonWFList : List Json → Bool
  | [] => true
  | v :: vs => jsonWF v && jsonWFList vs

/-- Well-formedness of an object body. -/
def jsonWFFields : List (List Char × Json) → Bool
  | [] => true
  | (_, v) :: kvs => jsonWF v && jsonWFFields kvs

end

mutual

/-- Fuel needed by `parseValue` on the serialization of a value. -/
def pvNeed : Json → Nat
  | .null => 1
  | .bool _ => 1
  | .num _ => 1
  | .str _ => 1
  | .arr l => 1 + pvNeedElems l
  | .obj l => 1 + pvNeedFields l

/-- Fuel needed by `parseElems` on a serialized array body. -/
def pvNeedElems : List Json → Nat
  | [] => 0
  | v :: vs => 1 + pvNeed v + pvNeedElems vs

/-- Fuel needed by `parseMembers` on a serialized object body. -/
def pvNeedFields : List (List Char × Json) → Nat
  | [] => 0
  | (_, v) :: kvs => 1 + pvNeed v + pvNeedFields kvs

end

mutual

/-- The fuel requirement is bounded by the serialized length. -/
theorem pvNeed_le : ∀ v : Json, pvNeed v ≤ (dumpsV v).length
  | .null => by decide
  | .bool b => by cases b <;> decide
  | .num i => by
    have hne : intChars i ≠ [] := by
      rw [intChars]
      split_ifs
      · simp
      · exact natChars_ne_nil _
    have hp : 0 < (intChars i).length := List.length_pos.mpr hne
    rw [pvNeed]
    show 1 ≤ (intChars i).length
    omega
  | .str s => by
    rw [pvNeed, dumpsV]
    simp
  | .arr l => by
    rw [pvNeed, dumpsV]
    match l with
    | [] => simp [pvNeedElems, dumpsArr]
    | v :: vs =>
      have h1 := pvNeed_le v
      have h2 := pvNeedElems_le vs
      rw [pvNeedElems, dumpsArr]
      simp only [List.length_cons, List.length_append]
      omega
  | .obj l => by
    rw [pvNeed, dumpsV]
    match l with
    | [] => simp [pvNeedFields, dumpsObj]
    | (k, v) :: kvs =>
      have h1 := pvNeed_le v
      have h2 := pvNeedFields_le kvs
      rw [pvNeedFields, dumpsObj]
      simp only [List.length_cons, List.length_append]
      omega

/-- Array-tail fuel bound. -/
theorem pvNeedElems_le : ∀ vs : List Json, pvNeedElems vs ≤ (dumpsArrTail vs).length
  | [] => by simp [pvNeedElems, dumpsArrTail]
  | v :: vs => by
    have h1 := pvNeed_le v
    have h2 := pvNeedElems_le vs
    rw [pvNeedElems, dumpsArrTail]
    simp only [List.length_cons, List.length_append]
    omega

/-- Object-tail fuel bound. -/
theorem pvNeedFields_le : ∀ kvs : List (List Char × Json),
    pvNeedFields kvs ≤ (dumpsObjTail kvs).length
  | [] => by simp [pvNeedFields, dumpsObjTail]
  | (k, v) :: kvs => by
    have h1 := pvNeed_le v
    have h2 := pvNeedFields_le kvs
    rw [pvNeedFields, dumpsObjTail]
    simp only [List.length_cons, List.length_append]
    omega

end

/-! ## Serialization heads and whitespace -/

theorem ne_char_of_toNat {c d : Char} (h : c.toNat ≠ d.toNat) : c ≠ d :=
  fun he => h (by rw [he])

theorem isWs_false {c : Char} (h1 : c.toNat ≠ 32) (h2 : c.toNat ≠ 9)
    (h3 : c.toNat ≠ 10) (h4 : c.toNat ≠ 13) : isWs c = false := by
  have g1 : ¬ c = ' ' := ne_char_of_toNat (by rw [show (' ').toNat = 32 from rfl]; exact h1)
  have g2 : ¬ c = Char.ofNat 9 :=
    ne_char_of_toNat (by rw [show (Char.ofNat 9).toNat = 9 from rfl]; exact h2)
  have g3 : ¬ c = Char.ofNat 10 :=
    ne_char_of_toNat (by rw [show (Char.ofNat 10).toNat = 10 from rfl]; exact h3)
  have g4 : ¬ c = Char.ofNat 13 :=
    ne_char_of_toNat (by rw [show (Char.ofNat 13).toNat = 13 from rfl]; exact h4)
  simp [isWs, g1, g2, g3, g4]

theorem pSkipWs_cons {c : Char} (h : isWs c = false) (t : List Char) :
    pSkipWs (c :: t) = c :: t := by
  simp [pSkipWs, List.dropWhile_cons, h]

/-- The first serialized character of any value is never whitespace and
never a closing bracket. -/
theorem dumpsV_head (v : Json) : ∃ c t, dumpsV v = c :: t ∧ isWs c = false ∧
    c ≠ Char.ofNat 93 := by
  cases v with
  | null => exact ⟨'n', _, rfl, by decide, by decide⟩
  | bool b =>
    cases b with
    | true => exact ⟨'t', _, rfl, by decide, by decide⟩
    | false => exact ⟨'f', _, rfl, by decide, by decide⟩
  | num i =>
    by_cases hi : i < 0
    · refine ⟨'-', natChars (-i).toNat, ?_, by decide, by decide⟩
      rw [show dumpsV (Json.num i) = intChars i from rfl, intChars, if_pos hi]
    · obtain ⟨c, t, hct⟩ := List.exists_cons_of_ne_nil (natChars_ne_nil i.toNat)
      have hc : c ∈ natChars i.toNat := by rw [hct]; simp
      obtain ⟨k, hk, rfl⟩ := natCharsGo_digit _ _ c hc
      have htn : (digitCh k).toNat = 48 + k := digitCh_toNat hk
      refine ⟨digitCh k, t, ?_, ?_, ?_⟩
      · rw [show dumpsV (Json.num i) = intChars i from rfl, intChars, if_neg hi, hct]
      · exact isWs_false (by omega) (by omega) (by omega) (by omega)
      · exact ne_char_of_toNat (by
          rw [htn, show (Char.ofNat 93).toNat = 93 from rfl]; omega)
  | str s => exact ⟨Char.ofNat 34, _, rfl, by decide, by decide⟩
  | arr l => exact ⟨Char.ofNat 91, _, rfl, by decide, by decide⟩
  | obj l => exact ⟨Char.ofNat 123, _, rfl, by decide, by decide⟩

theorem pSkipWs_dumpsV (v : Json) (X : List Char) :
    pSkipWs (dumpsV v ++ X) = dumpsV v ++ X := by
  obtain ⟨c, t, hct, hws, _⟩ := dumpsV_head v
  rw [hct, List.cons_append, pSkipWs_cons hws]

/-- What may legally follow a serialized value: nothing, or a comma, colon
or closing bracket (never a digit or number continuation). -/
def restStop : List Char → Prop
  | [] => True
  | c :: _ => c.isDigit = false ∧ c ≠ '.' ∧ c ≠ 'e' ∧ c ≠ 'E'

theorem numStop_of_restStop {rest : List Char} (h : restStop rest) : numStop rest := by
  cases rest with
  | nil => intro c t he; cases he
  | cons c t =>
    intro c2 t2 he
    obtain ⟨h1, h2⟩ := List.cons.inj he
    rw [← h1]
    exact h

theorem restStop_arrTail (vs : List Json) (rest : List Char) :
    restStop (dumpsArrTail vs ++ (Char.ofNat 93 :: rest)) := by
  cases vs with
  | nil => exact ⟨by decide, by decide, by decide, by decide⟩
  | cons v vs2 =>
    show restStop ((',' :: (dumpsV v ++ dumpsArrTail vs2)) ++ (Char.ofNat 93 :: rest))
    rw [List.cons_append]
    exact ⟨by decide, by decide, by decide, by decide⟩

theorem restStop_objTail (kvs : List (List Char × Json)) (rest : List Char) :
    restStop (dumpsObjTail kvs ++ (Char.ofNat 125 :: rest)) := by
  cases kvs with
  | nil => exact ⟨by decide, by decide, by decide, by decide⟩
  | cons kv kvs2 =>
    obtain ⟨k, v⟩ := kv
    show restStop ((',' :: (Char.ofNat 34 :: escapeStr k ++ Char.ofNat 34 :: ':' ::
      dumpsV v ++ dumpsObjTail kvs2)) ++ (Char.ofNat 125 :: rest))
    rw [List.cons_append]
    exact ⟨by decide, by decide, by decide, by decide⟩

/-! ## Dict building during parsing -/

theorem lookupKV_none_head {κ β : Type} [DecidableEq κ] {k1 : κ} {v1 : β}
    {rest : List (κ × β)} {k : κ} (h : lookupKV ((k1, v1) :: rest) k = none) :
    k1 ≠ k ∧ lookupKV rest k = none := by
  rw [lookupKV] at h
  by_cases he : k1 = k
  · rw [if_pos he] at h
    cases h
  · rw [if_neg he] at h
    exact ⟨he, h⟩

theorem dictSet_fresh {κ β : Type} [DecidableEq κ] :
    ∀ (acc : List (κ × β)) (k : κ) (v : β), (∀ p ∈ acc, p.1 ≠ k) →
    dictSet acc k v = acc ++ [(k, v)] := by
  intro acc
  induction acc with
  | nil => intro k v _; rfl
  | cons p rest ih =>
    intro k v h
    obtain ⟨k1, v1⟩ := p
    rw [dictSet, if_neg (h (k1, v1) (by simp)), ih k v (fun q hq => h q (by simp [hq]))]
    rfl

theorem keysFresh_cons {k : List Char} {v : Json} {kvs : List (List Char × Json)}
    (h : keysFresh ((k, v) :: kvs) = true) :
    lookupKV kvs k = none ∧ keysFresh kvs = true := by
  rw [keysFresh, Bool.and_eq_true, Option.isNone_iff_eq_none] at h
  exact h

theorem pSkipWs_dumpsObjCons (k2 : List Char) (v2 : Json)
    (kvs2 : List (List Char × Json)) (X : List Char) :
    pSkipWs (dumpsObj ((k2, v2) :: kvs2) ++ X) = dumpsObj ((k2, v2) :: kvs2) ++ X := by
  have hh : dumpsObj ((k2, v2) :: kvs2) ++ X
      = Char.ofNat 34 :: (escapeStr k2 ++ (Char.ofNat 34 :: (':' :: (dumpsV v2 ++
          (dumpsObjTail kvs2 ++ X))))) := by
    rw [dumpsObj]
    simp [List.append_assoc]
  rw [hh]
  exact pSkipWs_cons (by decide) _

theorem beginsWith_prefix {α : Type} [DecidableEq α] :
    ∀ (p t : List α), beginsWith (p ++ t) p = true := by
  intro p
  induction p with
  | nil =>
    intro t
    cases t with
    | nil => rfl
    | cons a t2 => rfl
  | cons a as ih =>
    intro t
    simp [beginsWith, ih]

/-! ## Parser round trip on serialized values -/

mutual

/-- `parseValue` recovers a serialized well-formed value exactly, leaving
the rest of the input untouched. -/
theorem parseValue_dumps : ∀ (v : Json) (fuel : Nat) (rest : List Char),
    jsonWF v = true → restStop rest → pvNeed v ≤ fuel →
    parseValue fuel (dumpsV v ++ rest) = some (v, rest)
  | .null, fuel, rest, _, _, hfuel => by
    have hf1 : pvNeed Json.null = 1 := rfl
    rw [hf1] at hfuel
    obtain ⟨f, rfl⟩ : ∃ f, fuel = f + 1 := ⟨fuel - 1, by omega⟩
    rw [show dumpsV Json.null ++ rest = 'n' :: ('u' :: 'l' :: 'l' :: rest) from rfl,
      parseValue.eq_def]
    simp only []
    rw [if_neg (by decide), if_neg (by decide), if_neg (by decide), if_neg (by decide),
      if_neg (by decide), if_pos trivial,
      if_pos (show beginsWith ('u' :: 'l' :: 'l' :: rest) (cs "ull") = true from
        beginsWith_prefix (cs "ull") rest)]
    rfl
  | .bool true, fuel, rest, _, _, hfuel => by
    have hf1 : pvNeed (Json.bool true) = 1 := rfl
    rw [hf1] at hfuel
    obtain ⟨f, rfl⟩ : ∃ f, fuel = f + 1 := ⟨fuel - 1, by omega⟩
    rw [show dumpsV (Json.bool true) ++ rest = 't' :: ('r' :: 'u' :: 'e' :: rest) from rfl,
      parseValue.eq_def]
    simp only []
    rw [if_neg (by decide), if_neg (by decide), if_neg (by decide), if_pos trivial,
      if_pos (show beginsWith ('r' :: 'u' :: 'e' :: rest) (cs "rue") = true from
        beginsWith_prefix (cs "rue") rest)]
    rfl
  | .bool false, fuel, rest, _, _, hfuel => by
    have hf1 : pvNeed (Json.bool false) = 1 := rfl
    rw [hf1] at hfuel
    obtain ⟨f, rfl⟩ : ∃ f, fuel = f + 1 := ⟨fuel - 1, by omega⟩
    rw [show dumpsV (Json.bool false) ++ rest
        = 'f' :: ('a' :: 'l' :: 's' :: 'e' :: rest) from rfl,
      parseValue.eq_def]
    simp only []
    rw [if_neg (by decide), if_neg (by decide), if_neg (by decide), if_neg (by decide),
      if_pos trivial,
      if_pos (show beginsWith ('a' :: 'l' :: 's' :: 'e' :: rest) (cs "alse") = true
        from beginsWith_prefix (cs "alse") rest)]
    rfl
  | .num i, fuel, rest, _, hstop, hfuel => by
    have hf1 : pvNeed (Json.num i) = 1 := rfl
    rw [hf1] at hfuel
    obtain ⟨f, rfl⟩ : ∃ f, fuel = f + 1 := ⟨fuel - 1, by omega⟩
    by_cases hi : i < 0
    · rw [show dumpsV (Json.num i) = intChars i from rfl, intChars, if_pos hi,
        List.cons_append, parseValue.eq_def]
      simp only []
      rw [if_neg (by decide), if_neg (by decide), if_neg (by decide),
        if_neg (by decide), if_neg (by decide), if_neg (by decide),
        if_pos (by decide),
        show '-' :: (natChars (-i).toNat ++ rest) = intChars i ++ rest from by
          rw [intChars, if_pos hi, List.cons_append],
        parseIntLit_intChars i rest (numStop_of_restStop hstop)]
      rfl
    · obtain ⟨c, t, hct⟩ := List.exists_cons_of_ne_nil (natChars_ne_nil i.toNat)
      have hc : c ∈ natChars i.toNat := by rw [hct]; simp
      obtain ⟨k, hk, rfl⟩ := natCharsGo_digit _ _ c hc
      have htn : (digitCh k).toNat = 48 + k := digitCh_toNat hk
      rw [show dumpsV (Json.num i) = intChars i from rfl, intChars, if_neg hi, hct,
        List.cons_append, parseValue.eq_def]
      simp only []
      rw [if_neg (ne_char_of_toNat (by
          rw [htn, show (Char.ofNat 123).toNat = 123 from rfl]; omega)),
        if_neg (ne_char_of_toNat (by
          rw [htn, show (Char.ofNat 91).toNat = 91 from rfl]; omega)),
        if_neg (ne_char_of_toNat (by
          rw [htn, show (Char.ofNat 34).toNat = 34 from rfl]; omega)),
        if_neg (ne_char_of_toNat (by
          rw [htn, show ('t').toNat = 116 from rfl]; omega)),
        if_neg (ne_char_of_toNat (by
          rw [htn, show ('f').toNat = 102 from rfl]; omega)),
        if_neg (ne_char_of_toNat (by
          rw [htn, show ('n').toNat = 110 from rfl]; omega)),
        if_pos (Or.inr (isDigit_digitCh hk)),
        show digitCh k :: (t ++ rest) = intChars i ++ rest from by
          rw [intChars, if_neg hi, hct, List.cons_append],
        parseIntLit_intChars i rest (numStop_of_restStop hstop)]
      rfl
  | .str s, fuel, rest, _, _, hfuel => by
    have hf1 : pvNeed (Json.str s) = 1 := rfl
    rw [hf1] at hfuel
    obtain ⟨f, rfl⟩ : ∃ f, fuel = f + 1 := ⟨fuel - 1, by omega⟩
    rw [show dumpsV (Json.str s) ++ rest
        = Char.ofNat 34 :: (escapeStr s ++ (Char.ofNat 34 :: rest)) from by
          rw [show dumpsV (Json.str s)
              = Char.ofNat 34 :: escapeStr s ++ [Char.ofNat 34] from rfl]
          simp,
      parseValue.eq_def]
    simp only []
    rw [if_neg (by decide), if_neg (by decide), if_pos trivial,
      parseStringBody_escape s rest]
    rfl
  | .arr [], fuel, rest, _, _, hfuel => by
    have hf1 : pvNeed (Json.arr []) = 1 := by rw [pvNeed, pvNeedElems]
    rw [hf1] at hfuel
    obtain ⟨f, rfl⟩ : ∃ f, fuel = f + 1 := ⟨fuel - 1, by omega⟩
    rw [show dumpsV (Json.arr []) ++ rest
        = Char.ofNat 91 :: (Char.ofNat 93 :: rest) from rfl,
      parseValue.eq_def]
    simp only []
    rw [if_neg (by decide), if_pos trivial, pSkipWs_cons (by decide)]
    simp only []
    rw [if_pos trivial]
  | .arr (v1 :: vs), fuel, rest, hwf, _, hfuel => by
    have hf1 : pvNeed (Json.arr (v1 :: vs)) = 1 + pvNeedElems (v1 :: vs) := by rw [pvNeed]
    rw [hf1] at hfuel
    obtain ⟨f, rfl⟩ : ∃ f, fuel = f + 1 := ⟨fuel - 1, by omega⟩
    have hwl : jsonWF v1 = true ∧ jsonWFList vs = true := by
      rw [jsonWF, jsonWFList, Bool.and_eq_true] at hwf
      exact hwf
    have hin : dumpsV (Json.arr (v1 :: vs)) ++ rest
        = Char.ofNat 91 :: (dumpsV v1 ++ (dumpsArrTail vs ++ (Char.ofNat 93 :: rest))) := by
      rw [dumpsV, dumpsArr]
      simp [List.append_assoc]
    rw [hin, parseValue.eq_def]
    simp only []
    rw [if_neg (by decide), if_pos trivial, pSkipWs_dumpsV]
    obtain ⟨c, t, hct, hws, h93⟩ := dumpsV_head v1
    rw [hct, List.cons_append]
    simp only []
    rw [if_neg h93,
      show c :: (t ++ (dumpsArrTail vs ++ (Char.ofNat 93 :: rest)))
        = dumpsV v1 ++ (dumpsArrTail vs ++ (Char.ofNat 93 :: rest)) from by
          rw [hct, List.cons_append],
      parseElems_dumps vs v1 [] f rest hwl.1 hwl.2 (by
        have hx : pvNeedElems (v1 :: vs) ≤ f := by omega
        exact hx)]
    simp
  | .obj [], fuel, rest, _, _, hfuel => by
    have hf1 : pvNeed (Json.obj []) = 1 := by rw [pvNeed, pvNeedFields]
    rw [hf1] at hfuel
    obtain ⟨f, rfl⟩ : ∃ f, fuel = f + 1 := ⟨fuel - 1, by omega⟩
    rw [show dumpsV (Json.obj []) ++ rest
        = Char.ofNat 123 :: (Char.ofNat 125 :: rest) from rfl,
      parseValue.eq_def]
    simp only []
    rw [if_pos trivial, pSkipWs_cons (by decide)]
    simp only []
    rw [if_pos trivial]
  | .obj ((k, v1) :: kvs), fuel, rest, hwf, _, hfuel => by
    have hf1 : pvNeed (Json.obj ((k, v1) :: kvs)) = 1 + pvNeedFields ((k, v1) :: kvs) := by
      rw [pvNeed]
    rw [hf1] at hfuel
    obtain ⟨f, rfl⟩ : ∃ f, fuel = f + 1 := ⟨fuel - 1, by omega⟩
    have hw2 : keysFresh ((k, v1) :: kvs) = true ∧ jsonWFFields ((k, v1) :: kvs) = true := by
      rw [jsonWF, Bool.and_eq_true] at hwf
      exact hwf
    have hwv : jsonWF v1 = true ∧ jsonWFFields kvs = true := by
      have h2 := hw2.2
      rw [jsonWFFields, Bool.and_eq_true] at h2
      exact h2
    have hin : dumpsV (Json.obj ((k, v1) :: kvs)) ++ rest
        = Char.ofNat 123 :: (dumpsObj ((k, v1) :: kvs) ++ (Char.ofNat 125 :: rest)) := by
      rw [dumpsV]
      simp [List.append_assoc]
    rw [hin, parseValue.eq_def]
    simp only []
    rw [if_pos trivial]
    have hobj : dumpsObj ((k, v1) :: kvs) ++ (Char.ofNat 125 :: rest)
        = Char.ofNat 34 :: (escapeStr k ++ (Char.ofNat 34 :: (':' :: (dumpsV v1 ++
            (dumpsObjTail kvs ++ (Char.ofNat 125 :: rest)))))) := by
      rw [dumpsObj]
      simp [List.append_assoc]
    rw [hobj, pSkipWs_cons (by decide)]
    simp only []
    rw [if_neg (by decide), ← hobj,
      parseMembers_dumps kvs k v1 [] f rest hwv.1 hwv.2 hw2.1
        (fun p hp => absurd hp (by simp)) (by
          have hx : pvNeedFields ((k, v1) :: kvs) ≤ f := by omega
          exact hx)]
    simp
  termination_by v => sizeOf v

/-- `parseElems` consumes the remaining serialized array elements up to the
closing bracket. -/
theorem parseElems_dumps : ∀ (vs : List Json) (v : Json) (acc : List Json) (fuel : Nat)
    (rest : List Char), jsonWF v = true → jsonWFList vs = true →
    pvNeedElems (v :: vs) ≤ fuel →
    parseElems fuel acc (dumpsV v ++ (dumpsArrTail vs ++ (Char.ofNat 93 :: rest)))
      = some (.arr (acc ++ v :: vs), rest)
  | [], v, acc, fuel, rest, hwfv, _, hfuel => by
    have hf1 : pvNeedElems [v] = 1 + pvNeed v + 0 := by rw [pvNeedElems, pvNeedElems]
    rw [hf1] at hfuel
    obtain ⟨f, rfl⟩ : ∃ f, fuel = f + 1 := ⟨fuel - 1, by omega⟩
    rw [parseElems.eq_def]
    simp only []
    rw [parseValue_dumps v f _ hwfv (restStop_arrTail [] rest) (by omega)]
    simp only []
    rw [show dumpsArrTail [] ++ (Char.ofNat 93 :: rest) = Char.ofNat 93 :: rest from by
        rw [dumpsArrTail]; rfl,
      pSkipWs_cons (by decide)]
    simp only []
    rw [if_neg (by decide), if_pos trivial]
  | v2 :: vs2, v, acc, fuel, rest, hwfv, hwfl, hfuel => by
    have hf1 : pvNeedElems (v :: v2 :: vs2) = 1 + pvNeed v + pvNeedElems (v2 :: vs2) := by
      rw [pvNeedElems]
    rw [hf1] at hfuel
    obtain ⟨f, rfl⟩ : ∃ f, fuel = f + 1 := ⟨fuel - 1, by omega⟩
    have hw2 : jsonWF v2 = true ∧ jsonWFList vs2 = true := by
      rw [jsonWFList, Bool.and_eq_true] at hwfl
      exact hwfl
    rw [parseElems.eq_def]
    simp only []
    rw [parseValue_dumps v f _ hwfv (restStop_arrTail (v2 :: vs2) rest) (by omega)]
    simp only []
    have hW : dumpsArrTail (v2 :: vs2) ++ (Char.ofNat 93 :: rest)
        = ',' :: (dumpsV v2 ++ (dumpsArrTail vs2 ++ (Char.ofNat 93 :: rest))) := by
      rw [dumpsArrTail]
      simp [List.append_assoc]
    rw [hW, pSkipWs_cons (by decide)]
    simp only []
    rw [if_pos trivial, pSkipWs_dumpsV,
      parseElems_dumps vs2 v2 (acc ++ [v]) f rest hw2.1 hw2.2 (by
        have hx : pvNeedElems (v2 :: vs2) ≤ f := by omega
        exact hx)]
    simp
  termination_by vs v => sizeOf vs + sizeOf v

/-- `parseMembers` consumes the remaining serialized object members up to
the closing brace, appending each fresh key in order. -/
theorem parseMembers_dumps : ∀ (kvs : List (List Char × Json)) (k : List Char) (v : Json)
    (acc : List (List Char × Json)) (fuel : Nat) (rest : List Char),
    jsonWF v = true → jsonWFFields kvs = true → keysFresh ((k, v) :: kvs) = true →
    (∀ p ∈ acc, lookupKV ((k, v) :: kvs) p.1 = none) →
    pvNeedFields ((k, v) :: kvs) ≤ fuel →
    parseMembers fuel acc (dumpsObj ((k, v) :: kvs) ++ (Char.ofNat 125 :: rest))
      = some (.obj (acc ++ (k, v) :: kvs), rest)
  | [], k, v, acc, fuel, rest, hwfv, _, hkf, hacc, hfuel => by
    have hf1 : pvNeedFields [(k, v)] = 1 + pvNeed v + 0 := by
      rw [pvNeedFields, pvNeedFields]
    rw [hf1] at hfuel
    obtain ⟨f, rfl⟩ : ∃ f, fuel = f + 1 := ⟨fuel - 1, by omega⟩
    have hobj : dumpsObj [(k, v)] ++ (Char.ofNat 125 :: rest)
        = Char.ofNat 34 :: (escapeStr k ++ (Char.ofNat 34 :: (':' :: (dumpsV v ++
            (dumpsObjTail [] ++ (Char.ofNat 125 :: rest)))))) := by
      rw [dumpsObj]
      simp [List.append_assoc]
    rw [hobj, parseMembers.eq_def]
    simp only []
    rw [if_pos trivial, parseStringBody_escape k _]
    simp only []
    rw [pSkipWs_cons (by decide)]
    simp only []
    rw [if_pos trivial, pSkipWs_dumpsV,
      parseValue_dumps v f _ hwfv (restStop_objTail [] rest) (by omega)]
    simp only []
    rw [show dumpsObjTail [] ++ (Char.ofNat 125 :: rest) = Char.ofNat 125 :: rest from by
        rw [dumpsObjTail]; rfl,
      pSkipWs_cons (by decide)]
    simp only []
    rw [if_neg (by decide), if_pos trivial,
      dictSet_fresh acc k v (fun p hp => Ne.symm (lookupKV_none_head (hacc p hp)).1)]
  | (k2, v2) :: kvs2, k, v, acc, fuel, rest, hwfv, hwff, hkf, hacc, hfuel => by
    have hf1 : pvNeedFields ((k, v) :: (k2, v2) :: kvs2)
        = 1 + pvNeed v + pvNeedFields ((k2, v2) :: kvs2) := by rw [pvNeedFields]
    rw [hf1] at hfuel
    obtain ⟨f, rfl⟩ : ∃ f, fuel = f + 1 := ⟨fuel - 1, by omega⟩
    have hkf2 := keysFresh_cons hkf
    have hw2 : jsonWF v2 = true ∧ jsonWFFields kvs2 = true := by
      rw [jsonWFFields, Bool.and_eq_true] at hwff
      exact hwff
    have hobj : dumpsObj ((k, v) :: (k2, v2) :: kvs2) ++ (Char.ofNat 125 :: rest)
        = Char.ofNat 34 :: (escapeStr k ++ (Char.ofNat 34 :: (':' :: (dumpsV v ++
            (dumpsObjTail ((k2, v2) :: kvs2) ++ (Char.ofNat 125 :: rest)))))) := by
      rw [dumpsObj]
      simp [List.append_assoc]
    rw [hobj, parseMembers.eq_def]
    simp only []
    rw [if_pos trivial, parseStringBody_escape k _]
    simp only []
    rw [pSkipWs_cons (by decide)]
    simp only []
    rw [if_pos trivial, pSkipWs_dumpsV,
      parseValue_dumps v f _ hwfv (restStop_objTail ((k2, v2) :: kvs2) rest) (by omega)]
    simp only []
    have hW : dumpsObjTail ((k2, v2) :: kvs2) ++ (Char.ofNat 125 :: rest)
        = ',' :: (dumpsObj ((k2, v2) :: kvs2) ++ (Char.ofNat 125 :: rest)) := by
      rw [dumpsObjTail, dumpsObj]
      simp [List.append_assoc]
    rw [hW, pSkipWs_cons (by decide)]
    simp only []
    rw [if_pos trivial, pSkipWs_dumpsObjCons,
      dictSet_fresh acc k v (fun p hp => Ne.symm (lookupKV_none_head (hacc p hp)).1),
      parseMembers_dumps kvs2 k2 v2 (acc ++ [(k, v)]) f rest hw2.1 hw2.2 hkf2.2
        (by
          intro p hp
          rcases List.mem_append.mp hp with hp1 | hp1
          · exact (lookupKV_none_head (hacc p hp1)).2
          · have hpv : p = (k, v) := by simpa using hp1
            rw [hpv]
            exact hkf2.1)
        (by
          have hx : pvNeedFields ((k2, v2) :: kvs2) ≤ f := by omega
          exact hx)]
    simp
  termination_by kvs _ v => sizeOf kvs + sizeOf v

end

/-- `json.loads` round-trips on the serialization of every well-formed
value. -/
theorem jsonLoads_dumpsV (v : Json) (h : jsonWF v = true) :
    jsonLoads (dumpsV v) = some v := by
  have hpv2 : parseValue ((dumpsV v).length + 1) (dumpsV v) = some (v, []) := by
    have hpv := parseValue_dumps v ((dumpsV v).length + 1) [] h trivial (by
      have := pvNeed_le v
      omega)
    simpa using hpv
  have hskip : pSkipWs (dumpsV v) = dumpsV v := by
    have := pSkipWs_dumpsV v []
    simpa using this
  rw [jsonLoads, hskip, hpv2]
  rfl

/-! ## The encoding ladder on serialized JSON and on framed buffers -/

theorem beginsWith_cons_ne {α : Type} [DecidableEq α] {a b : α} (h : a ≠ b)
    (as bs : List α) : beginsWith (a :: as) (b :: bs) = false := by
  simp [beginsWith, h]

/-- The first serialized byte is plain ASCII and never BOM-like. -/
theorem dumpsV_first_byte (v : Json) : ∃ b bs, utf8Bytes (dumpsV v) = b :: bs ∧
    b < 128 ∧ b ≠ 0 := by
  obtain ⟨c, t, hct, hws, _⟩ := dumpsV_head v
  have hrange : c.toNat < 128 ∧ c.toNat ≠ 0 := by
    cases v with
    | null =>
      have hc : c = 'n' := by
        have := hct
        rw [show dumpsV Json.null = 'n' :: ('u' :: 'l' :: 'l' :: []) from rfl] at this
        exact ((List.cons.inj this).1).symm
      rw [hc]
      exact ⟨by decide, by decide⟩
    | bool b2 =>
      cases b2 with
      | true =>
        have hc : c = 't' := by
          have := hct
          rw [show dumpsV (Json.bool true) = 't' :: ('r' :: 'u' :: 'e' :: []) from rfl]
            at this
          exact ((List.cons.inj this).1).symm
        rw [hc]
        exact ⟨by decide, by decide⟩
      | false =>
        have hc : c = 'f' := by
          have := hct
          rw [show dumpsV (Json.bool false)
              = 'f' :: ('a' :: 'l' :: 's' :: 'e' :: []) from rfl] at this
          exact ((List.cons.inj this).1).symm
        rw [hc]
        exact ⟨by decide, by decide⟩
    | num i =>
      have hmem : c ∈ intChars i := by
        rw [show dumpsV (Json.num i) = intChars i from rfl] at hct
        rw [hct]
        simp
      rw [intChars] at hmem
      split_ifs at hmem with hi
      · rcases List.mem_cons.mp hmem with hc | hc
        · rw [hc]
          exact ⟨by decide, by decide⟩
        · obtain ⟨k, hk, rfl⟩ := natCharsGo_digit _ _ c hc
          rw [digitCh_toNat hk]
          omega
      · obtain ⟨k, hk, rfl⟩ := natCharsGo_digit _ _ c hmem
        rw [digitCh_toNat hk]
        omega
    | str s =>
      have hc : c = Char.ofNat 34 := by
        have := hct
        rw [show dumpsV (Json.str s)
            = Char.ofNat 34 :: (escapeStr s ++ [Char.ofNat 34]) from rfl] at this
        exact ((List.cons.inj this).1).symm
      rw [hc]
      exact ⟨by decide, by decide⟩
    | arr l =>
      have hc : c = Char.ofNat 91 := by
        have := hct
        rw [show dumpsV (Json.arr l)
            = Char.ofNat 91 :: (dumpsArr l ++ [Char.ofNat 93]) from by
              rw [dumpsV]; rfl] at this
        exact ((List.cons.inj this).1).symm
      rw [hc]
      exact ⟨by decide, by decide⟩
    | obj l =>
      have hc : c = Char.ofNat 123 := by
        have := hct
        rw [show dumpsV (Json.obj l)
            = Char.ofNat 123 :: (dumpsObj l ++ [Char.ofNat 125]) from by
              rw [dumpsV]; rfl] at this
        exact ((List.cons.inj this).1).symm
      rw [hc]
      exact ⟨by decide, by decide⟩
  refine ⟨c.toNat, utf8Bytes t, ?_, hrange.1, hrange.2⟩
  rw [hct, utf8Bytes_cons, utf8Encode_ascii hrange.1, List.cons_append, List.nil_append]

/-- On serialized JSON the encoding ladder succeeds at the UTF-8 rung and
returns the canonical re-serialization, which is the buffer itself. -/
theorem tryDecodeVariants_utf8 (C : Codecs) (v : Json) (hwf : jsonWF v = true) :
    tryDecodeVariants C (utf8Bytes (dumpsV v)) = some (utf8Bytes (dumpsV v)) := by
  obtain ⟨b, bs, hbytes, hlt, hne0⟩ := dumpsV_first_byte v
  have hg1 : beginsWith (utf8Bytes (dumpsV v)) ([239, 187, 191] : List Nat) = false := by
    rw [hbytes]; exact beginsWith_cons_ne (by omega) _ _
  have hg2 : beginsWith (utf8Bytes (dumpsV v)) ([255, 254, 0, 0] : List Nat) = false := by
    rw [hbytes]; exact beginsWith_cons_ne (by omega) _ _
  have hg3 : beginsWith (utf8Bytes (dumpsV v)) ([0, 0, 254, 255] : List Nat) = false := by
    rw [hbytes]; exact beginsWith_cons_ne (by omega) _ _
  have hg4 : beginsWith (utf8Bytes (dumpsV v)) ([255, 254] : List Nat) = false := by
    rw [hbytes]; exact beginsWith_cons_ne (by omega) _ _
  have hg5 : beginsWith (utf8Bytes (dumpsV v)) ([254, 255] : List Nat) = false := by
    rw [hbytes]; exact beginsWith_cons_ne (by omega) _ _
  have hdec : (utf8Decode (utf8Bytes (dumpsV v))).bind decodeJsonText
      = some (utf8Bytes (dumpsV v)) := by
    rw [utf8Decode_utf8Bytes]
    show decodeJsonText (dumpsV v) = some (utf8Bytes (dumpsV v))
    rw [decodeJsonText, jsonLoads_dumpsV v hwf]
    rfl
  rw [tryDecodeVariants, hg1, hg2, hg3, hg4, hg5, hdec]
  simp only [if_neg Bool.false_ne_true, Option.none_orElse, Option.some_orElse]

/-- The ladder fails outright on any buffer opening with the block magic
prefix `E5 A1 ED`: no BOM matches, the bytes are invalid UTF-8, and the
Latin-1 fallback text can never parse as JSON. -/
theorem tryDecodeVariants_e5 (C : Codecs) (tl : List Nat) :
    tryDecodeVariants C (229 :: 161 :: 237 :: tl) = none := by
  have hutf : utf8Decode (229 :: 161 :: 237 :: tl) = none := by
    have hgo : ∀ f, utf8DecodeGo (f + 1) (229 :: 161 :: 237 :: tl) = none := by
      intro f
      rw [utf8DecodeGo, if_neg (by omega), if_neg (by omega), if_neg (by omega),
        if_pos (by omega), utf8Dec3, if_neg (by decide)]
    rw [utf8Decode, show (229 :: 161 :: 237 :: tl).length + 1 = tl.length + 3 + 1 from by
      simp only [List.length_cons]]
    exact hgo _
  have hpv229 : ∀ (f : Nat) (r : List Char),
      parseValue (f + 1) (Char.ofNat 229 :: r) = none := by
    intro f r
    rw [parseValue.eq_def]
    simp only []
    rw [if_neg (by decide), if_neg (by decide), if_neg (by decide), if_neg (by decide),
      if_neg (by decide), if_neg (by decide), if_neg (by decide)]
  have hlat : (latin1Decode (229 :: 161 :: 237 :: tl)).bind decodeJsonText = none := by
    rw [latin1Decode]
    split_ifs with hall
    · show decodeJsonText (Char.ofNat 229 :: (161 :: 237 :: tl).map Char.ofNat) = none
      rw [decodeJsonText]
      have hjl : jsonLoads (Char.ofNat 229 :: (161 :: 237 :: tl).map Char.ofNat)
          = none := by
        rw [jsonLoads, pSkipWs_cons (by decide),
          show (Char.ofNat 229 :: (161 :: 237 :: tl).map Char.ofNat).length + 1
              = ((161 :: 237 :: tl).map Char.ofNat).length + 1 + 1 from by
            simp only [List.length_cons],
          hpv229]
      rw [hjl]
      rfl
    · rfl
  have ht2 : (229 :: 161 :: 237 :: tl).take 2 = ([229, 161] : List Nat) := rfl
  have ht4 : (229 :: 161 :: 237 :: tl).take 4 = 229 :: 161 :: 237 :: tl.take 1 := rfl
  rw [tryDecodeVariants,
    beginsWith_cons_ne (by omega) _ _, if_neg Bool.false_ne_true,
    beginsWith_cons_ne (by omega) _ _, if_neg Bool.false_ne_true,
    beginsWith_cons_ne (by omega) _ _, if_neg Bool.false_ne_true,
    beginsWith_cons_ne (by omega) _ _, if_neg Bool.false_ne_true,
    beginsWith_cons_ne (by omega) _ _, if_neg Bool.false_ne_true,
    hutf, ht2, ht4, hlat]
  simp only [Option.none_bind, Option.none_orElse]
  rw [if_neg (by rintro (h | h) <;> cases h), if_neg (by rintro (h | h) <;> cases h),
    if_neg (by rintro (h | h) <;> simp at h), if_neg (by rintro (h | h) <;> simp at h)]
  simp only [Option.none_orElse]

theorem rstripNul_append_last {b : List Nat} {x : Nat} (hx : x ≠ 0) :
    rstripNul (b ++ [x]) = b ++ [x] := by
  rw [rstripNul]
  simp [List.dropWhile_cons, hx]

/-- The shape of a fuelled digit expansion: it always ends in the final
digit. -/
theorem natCharsGo_concat (f n : Nat) :
    ∃ ds, natCharsGo (f + 1) n = ds ++ [digitCh (n % 10)] := by
  rw [natCharsGo]
  split_ifs with h
  · exact ⟨[], by rw [Nat.mod_eq_of_lt h]; rfl⟩
  · exact ⟨natCharsGo f (n / 10), rfl⟩

/-- The serialized bytes of a value always end in a nonzero byte. -/
theorem dumpsV_last_bytes (v : Json) : ∃ b x, utf8Bytes (dumpsV v) = b ++ [x] ∧
    x ≠ 0 := by
  cases v with
  | null => exact ⟨[110, 117, 108], 108, rfl, by omega⟩
  | bool b2 =>
    cases b2 with
    | true => exact ⟨[116, 114, 117], 101, rfl, by omega⟩
    | false => exact ⟨[102, 97, 108, 115], 101, rfl, by omega⟩
  | num i =>
    have hdig : ∀ m : Nat, ∃ ds k, k < 10 ∧ natChars m = ds ++ [digitCh k] := by
      intro m
      obtain ⟨ds, hds⟩ := natCharsGo_concat m m
      exact ⟨ds, m % 10, by omega, hds⟩
    by_cases hi : i < 0
    · obtain ⟨ds, k, hk, hds⟩ := hdig (-i).toNat
      refine ⟨utf8Bytes ('-' :: ds), 48 + k, ?_, by omega⟩
      rw [show dumpsV (Json.num i) = intChars i from rfl, intChars, if_pos hi, hds,
        show '-' :: (ds ++ [digitCh k]) = ('-' :: ds) ++ [digitCh k] from rfl,
        utf8Bytes_append]
      congr 1
      rw [utf8Bytes_cons, utf8Bytes_nil, utf8Encode_ascii (by rw [digitCh_toNat hk]; omega),
        digitCh_toNat hk]
      rfl
    · obtain ⟨ds, k, hk, hds⟩ := hdig i.toNat
      refine ⟨utf8Bytes ds, 48 + k, ?_, by omega⟩
      rw [show dumpsV (Json.num i) = intChars i from rfl, intChars, if_neg hi, hds,
        utf8Bytes_append]
      congr 1
      rw [utf8Bytes_cons, utf8Bytes_nil, utf8Encode_ascii (by rw [digitCh_toNat hk]; omega),
        digitCh_toNat hk]
      rfl
  | str s =>
    refine ⟨utf8Bytes (Char.ofNat 34 :: escapeStr s), 34, ?_, by omega⟩
    rw [show dumpsV (Json.str s)
        = (Char.ofNat 34 :: escapeStr s) ++ [Char.ofNat 34] from rfl, utf8Bytes_append]
    congr 1
  | arr l =>
    refine ⟨utf8Bytes (Char.ofNat 91 :: dumpsArr l), 93, ?_, by omega⟩
    rw [show dumpsV (Json.arr l)
        = (Char.ofNat 91 :: dumpsArr l) ++ [Char.ofNat 93] from by rw [dumpsV],
      utf8Bytes_append]
    congr 1
  | obj l =>
    refine ⟨utf8Bytes (Char.ofNat 123 :: dumpsObj l), 125, ?_, by omega⟩
    rw [show dumpsV (Json.obj l)
        = (Char.ofNat 123 :: dumpsObj l) ++ [Char.ofNat 125] from by rw [dumpsV],
      utf8Bytes_append]
    congr 1

theorem rstripNul_dumps (v : Json) :
    rstripNul (utf8Bytes (dumpsV v)) = utf8Bytes (dumpsV v) := by
  obtain ⟨b, x, hbx, hx⟩ := dumpsV_last_bytes v
  rw [hbx, rstripNul_append_last hx]

/-- JSON recovery is the identity on serialized well-formed JSON. -/
theorem bytesToJsonBytes_dumps (C : Codecs) (v : Json) (hwf : jsonWF v = true) :
    bytesToJsonBytes C (utf8Bytes (dumpsV v)) = some (utf8Bytes (dumpsV v)) := by
  rw [bytesToJsonBytes, rstripNul_dumps v, tryDecodeVariants_utf8 C v hwf]

/-! ## The block-compressed frame scan -/

theorem drop_len_append {α : Type} (p q : List α) (k : Nat) :
    (p ++ q).drop (p.length + k) = q.drop k := by
  induction p with
  | nil => simp
  | cons a p ih =>
    rw [List.cons_append, show (a :: p).length + k = (p.length + k) + 1 from by
      simp only [List.length_cons]; omega, List.drop_succ_cons, ih]

theorem readLE4_at (b : List Nat) (i n : Nat) (tl : List Nat)
    (h : b.drop i = le4 n ++ tl) (hn : n < 4294967296) : readLE4 b i = n := by
  rw [readLE4.eq_def, h,
    show le4 n ++ tl = n % 256 :: (n / 256 % 256) :: (n / 65536 % 256) ::
      (n / 16777216 % 256) :: tl from rfl]
  simp only []
  omega

theorem framesBytes_cons (comp : List Nat → List Nat) (ch : List Nat)
    (chunks : List (List Nat)) :
    framesBytes comp (ch :: chunks) = mkFrame comp ch ++ framesBytes comp chunks := by
  simp [framesBytes]

theorem mkFrame_length (comp : List Nat → List Nat) (ch : List Nat) :
    (mkFrame comp ch).length = 16 + (comp ch).length := by
  simp [mkFrame, le4, magicBytes]
  omega

theorem framesBytes_length_ge (comp : List Nat → List Nat) :
    ∀ chunks : List (List Nat), chunks.length ≤ (framesBytes comp chunks).length := by
  intro chunks
  induction chunks with
  | nil => simp [framesBytes]
  | cons ch chunks ih =>
    rw [framesBytes_cons, List.length_append, mkFrame_length]
    simp only [List.length_cons]
    omega

theorem framesBytes_cons_expand (comp : List Nat → List Nat) (ch : List Nat)
    (chunks : List (List Nat)) :
    framesBytes comp (ch :: chunks)
      = magicBytes ++ (le4 (comp ch).length ++ (le4 ch.length ++ (le4 0 ++
          (comp ch ++ framesBytes comp chunks)))) := by
  rw [framesBytes_cons, mkFrame]
  simp [List.append_assoc]

/-- The scan-and-stitch loop recovers exactly the framed chunks, in order:
each frame's magic is found at the running position, its header is read
back, its payload decompresses, and the loop resumes at the next frame. -/
theorem hgScanLoop_frames (lz4 : List Nat → Nat → Option (List Nat))
    (comp : List Nat → List Nat) :
    ∀ (chunks : List (List Nat)) (pre : List Nat) (fuel : Nat),
      chunks.length < fuel →
      (∀ ch ∈ chunks, comp ch ≠ [] ∧ (comp ch).length < 4294967296 ∧
        ch.length < 4294967296 ∧ lz4 (comp ch) ch.length = some ch) →
      hgScanLoop lz4 (pre ++ framesBytes comp chunks) fuel pre.length = chunks := by
  intro chunks
  induction chunks with
  | nil =>
    intro pre fuel hfuel _
    obtain ⟨f, rfl⟩ : ∃ f, fuel = f + 1 := ⟨fuel - 1, by omega⟩
    have hfind : findSub (pre ++ framesBytes comp []) magicBytes pre.length = none := by
      rw [findSub, show framesBytes comp [] = [] from rfl, List.append_nil,
        List.drop_length]
      rfl
    rw [hgScanLoop, hfind]
  | cons ch chunks ih =>
    intro pre fuel hfuel hh
    obtain ⟨f, rfl⟩ : ∃ f, fuel = f + 1 := ⟨fuel - 1, by omega⟩
    obtain ⟨hcne, hcl32, hdl32, hlz⟩ := hh ch (by simp)
    have hh2 : ∀ c2 ∈ chunks, comp c2 ≠ [] ∧ (comp c2).length < 4294967296 ∧
        c2.length < 4294967296 ∧ lz4 (comp c2) c2.length = some c2 :=
      fun c2 hc2 => hh c2 (by simp [hc2])
    have hexp := framesBytes_cons_expand comp ch chunks
    have hdrop0 : (pre ++ framesBytes comp (ch :: chunks)).drop pre.length
        = framesBytes comp (ch :: chunks) := List.drop_left _ _
    have hfind : findSub (pre ++ framesBytes comp (ch :: chunks)) magicBytes pre.length
        = some pre.length := by
      rw [findSub, hdrop0, hexp,
        show magicBytes ++ (le4 (comp ch).length ++ (le4 ch.length ++ (le4 0 ++
            (comp ch ++ framesBytes comp chunks))))
          = 229 :: (161 :: (237 :: (254 :: (le4 (comp ch).length ++ (le4 ch.length ++
              (le4 0 ++ (comp ch ++ framesBytes comp chunks))))))) from rfl,
        findSubAux]
      rw [if_pos (show beginsWith (229 :: (161 :: (237 :: (254 :: (le4 (comp ch).length
          ++ (le4 ch.length ++ (le4 0 ++ (comp ch ++ framesBytes comp chunks))))))))
          magicBytes = true from beginsWith_prefix magicBytes _)]
    have hdrop4 : (pre ++ framesBytes comp (ch :: chunks)).drop (pre.length + 4)
        = le4 (comp ch).length ++ (le4 ch.length ++ (le4 0 ++
            (comp ch ++ framesBytes comp chunks))) := by
      rw [hexp, drop_len_append]
      rfl
    have hr4 : readLE4 (pre ++ framesBytes comp (ch :: chunks)) (pre.length + 4)
        = (comp ch).length := readLE4_at _ _ _ _ hdrop4 hcl32
    have hdrop8 : (pre ++ framesBytes comp (ch :: chunks)).drop (pre.length + 8)
        = le4 ch.length ++ (le4 0 ++ (comp ch ++ framesBytes comp chunks)) := by
      rw [hexp, drop_len_append]
      rfl
    have hr8 : readLE4 (pre ++ framesBytes comp (ch :: chunks)) (pre.length + 8)
        = ch.length := readLE4_at _ _ _ _ hdrop8 hdl32
    have hdrop16 : (pre ++ framesBytes comp (ch :: chunks)).drop (pre.length + 16)
        = comp ch ++ framesBytes comp chunks := by
      rw [hexp, drop_len_append]
      rfl
    have hlen : (pre ++ framesBytes comp (ch :: chunks)).length
        = pre.length + 16 + (comp ch).length + (framesBytes comp chunks).length := by
      rw [List.length_append, framesBytes_cons, List.length_append, mkFrame_length]
      omega
    have hclpos : 0 < (comp ch).length := List.length_pos.mpr hcne
    rw [hgScanLoop, hfind]
    simp only []
    rw [hlen, if_neg (by omega), hr4, if_neg (by omega), if_neg (by omega), hdrop16,
      List.take_left, hr8, hlz]
    simp only []
    congr 1
    have hb : pre ++ framesBytes comp (ch :: chunks)
        = (pre ++ mkFrame comp ch) ++ framesBytes comp chunks := by
      rw [framesBytes_cons, List.append_assoc]
    have hplen : pre.length + 16 + (comp ch).length = (pre ++ mkFrame comp ch).length := by
      rw [List.length_append, mkFrame_length]
      omega
    rw [hb, hplen]
    exact ih (pre ++ mkFrame comp ch) f (by
      simp only [List.length_cons] at hfuel
      omega) hh2

/-- The block scan recovers the stitched payload stream from a framed
buffer. -/
theorem decodeHg_frames (lz4 : List Nat → Nat → Option (List Nat))
    (comp : List Nat → List Nat) (chunks : List (List Nat)) (hne : chunks ≠ [])
    (hh : ∀ ch ∈ chunks, comp ch ≠ [] ∧ (comp ch).length < 4294967296 ∧
      ch.length < 4294967296 ∧ lz4 (comp ch) ch.length = some ch) :
    decodeHgBlocksScanAll lz4 (framesBytes comp chunks) = some chunks.flatten := by
  have hmain := hgScanLoop_frames lz4 comp chunks [] ((framesBytes comp chunks).length + 2)
    (by have := framesBytes_length_ge comp chunks; omega) hh
  rw [List.nil_append, List.length_nil] at hmain
  rw [decodeHgBlocksScanAll, hmain]
  cases chunks with
  | nil => cases hne rfl
  | cons c rest => rfl

/-! ## Claim C2 -/

/-- C2: decoder/recovery round trip.  For every well-formed JSON value,
every split of its serialized UTF-8 bytes into one or more chunks, and
every LZ4-block compressor/decompressor pair that round-trips on those
chunks (with sizes fitting the 4-byte little-endian headers), wrapping the
chunks in block-compressed frames — magic `0xFEEDA1E5`, compressed size,
decompressed size, zero padding, compressed payload — and running the
buffer through `decode_to_json_bytes` followed by JSON loading produces a
value deep-equal to the original: the plain ladder rejects the framed
buffer, the magic-number scan stitches the decompressed payloads back
together, and recovery plus parsing reproduce the value. -/
theorem decoder_roundtrip (C : Codecs) (comp : List Nat → List Nat) (v : Json)
    (chunks : List (List Nat)) (hwf : jsonWF v = true) (hne : chunks ≠ [])
    (hflat : chunks.flatten = utf8Bytes (dumpsV v))
    (hcomp : ∀ ch ∈ chunks, comp ch ≠ [] ∧ (comp ch).length < 4294967296 ∧
      ch.length < 4294967296 ∧ C.lz4block (comp ch) ch.length = some ch) :
    (decodeToJsonBytes C (framesBytes comp chunks)).bind jsonLoadsBytes = some v := by
  cases chunks with
  | nil => cases hne rfl
  | cons c0 rest =>
    have hexp := framesBytes_cons_expand comp c0 rest
    have hstage0 : tryDecodeVariants C (framesBytes comp (c0 :: rest)) = none := by
      rw [hexp, show magicBytes ++ (le4 (comp c0).length ++ (le4 c0.length ++ (le4 0 ++
          (comp c0 ++ framesBytes comp rest))))
        = 229 :: 161 :: 237 :: (254 :: (le4 (comp c0).length ++ (le4 c0.length ++
            (le4 0 ++ (comp c0 ++ framesBytes comp rest))))) from rfl]
      exact tryDecodeVariants_e5 C _
    have hscan : decodeHgBlocksScanAll C.lz4block (framesBytes comp (c0 :: rest))
        = some (utf8Bytes (dumpsV v)) := by
      rw [decodeHg_frames C.lz4block comp _ (by simp) hcomp, hflat]
    rw [decodeToJsonBytes, hstage0]
    simp only []
    rw [hscan, Option.some_bind, bytesToJsonBytes_dumps C v hwf]
    simp only []
    rw [Option.some_bind]
    show jsonLoadsBytes (utf8Bytes (dumpsV v)) = some v
    rw [jsonLoadsBytes, utf8Decode_utf8Bytes, Option.some_bind, jsonLoads_dumpsV v hwf]

/-- A toy exact compressor for the witness: the compressed form prefixes a
zero byte. -/
def toyCompress (c : List Nat) : List Nat := 0 :: c

/-- Witness codecs: every external library is inapplicable except the block
decompressor, which inverts `toyCompress` and checks the declared
decompressed size. -/
def toyCodecs : Codecs :=
  { u32le := fun _ => none, u32be := fun _ => none, u16le := fun _ => none,
    u16be := fun _ => none, gzip := fun _ => none, lz4frame := fun _ => none,
    zlib := fun _ => none,
    lz4block := fun b n =>
      match b with
      | 0 :: c => if c.length = n then some c else none
      | _ => none }

/-- A concrete well-formed document for the witness. -/
def rtDoc : Json :=
  Json.obj [(cs "a", Json.num 12),
    (cs "b", Json.arr [Json.str (cs "x"), Json.bool true])]

/-- The witness serialization, split into two frame payloads. -/
def rtChunks : List (List Nat) :=
  [(utf8Bytes (dumpsV rtDoc)).take 5, (utf8Bytes (dumpsV rtDoc)).drop 5]

theorem decoder_roundtrip_witness :
    (jsonWF rtDoc = true ∧ rtChunks ≠ [] ∧
        rtChunks.flatten = utf8Bytes (dumpsV rtDoc) ∧
        (∀ ch ∈ rtChunks, toyCompress ch ≠ [] ∧
          (toyCompress ch).length < 4294967296 ∧ ch.length < 4294967296 ∧
          toyCodecs.lz4block (toyCompress ch) ch.length = some ch)) ∧
      (decodeToJsonBytes toyCodecs (framesBytes toyCompress rtChunks)).bind
          jsonLoadsBytes = some rtDoc :=
  ⟨⟨by decide, by decide, by decide, by decide⟩,
    decoder_roundtrip toyCodecs toyCompress rtDoc rtChunks (by decide) (by decide)
      (by decide) (by decide)⟩

end NMSInv
